import Mathlib

/-!
# A verification development for `arena.h`

The arena of `arena.h` keeps its bookkeeping inside the byte block it manages:
`struct arena` sits at the start of the block and every `struct chunk` header is
followed by its data bytes.  The model below therefore works on a byte-addressed
memory.  All quantities of type `size_t` and all pointers are 64-bit words stored
little-endian (LP64: `sizeof(struct arena) = 24`, `sizeof(struct chunk) = 16`,
`sizeof(struct a_string) = 8`).

* A C function that reads or writes memory becomes a function into
  `Except Fault _`.  Going through a null pointer is `Fault.nullDeref`, an access
  that leaves the block obtained from `malloc` is `Fault.outOfBounds` (the block is
  the only memory the model knows; buffers of the caller are passed by their
  contents).
* The `while` loops walk linked lists that live in memory, so they take a fuel
  argument; running out of fuel is `Fault.outOfFuel`.  A result obtained with some
  fuel is the result for every larger amount (`A_alloc_mono` and its siblings).
* `size_t` arithmetic wraps modulo `2 ^ 64` (`add64`, `sub64`, `mul64`).
* Statements about "every arena state" are made for the states that satisfy `WF`:
  two null-terminated lists of chunks whose spans lie in the block and do not
  overlap.  Every state reachable from `A_create` is of this kind (`Reach_inv`).
-/

namespace Arena

/-! ## Machine words and byte memory -/

/-- Byte-addressed memory: address to byte value (taken modulo 256 when read). -/
abbrev Mem := Nat → Nat

/-- Addition of `size_t` values. -/
def add64 (x y : Nat) : Nat := (x + y) % 2 ^ 64

/-- Subtraction of `size_t` values. -/
def sub64 (x y : Nat) : Nat := (x + (2 ^ 64 - y % 2 ^ 64)) % 2 ^ 64

/-- Multiplication of `size_t` values. -/
def mul64 (x y : Nat) : Nat := (x * y) % 2 ^ 64

/-- Little-endian load of the 8 bytes at `p`. -/
def readU64 (m : Mem) (p : Nat) : Nat :=
  m p % 256 + 256 * (m (p + 1) % 256 + 256 * (m (p + 2) % 256 + 256 * (m (p + 3) % 256
    + 256 * (m (p + 4) % 256 + 256 * (m (p + 5) % 256 + 256 * (m (p + 6) % 256
    + 256 * (m (p + 7) % 256)))))))

/-- Little-endian store of the low 64 bits of `v` into the 8 bytes at `p`. -/
def writeU64 (m : Mem) (p v : Nat) : Mem :=
  fun x => if p ≤ x ∧ x < p + 8 then (v / 256 ^ (x - p)) % 256 else m x

/-- Ways in which an execution can fail to return. -/
inductive Fault where
  | nullDeref
  | outOfBounds
  | outOfFuel
  deriving DecidableEq, Repr

/-- The block handed out by `malloc(cap)` at address `base`, with the contents of
memory.  `base` is the value of the `Arena *` handle; `base = 0` is the null handle. -/
structure Region where
  base : Nat
  cap : Nat
  mem : Mem

/-- Load of the 8-byte field at offset `off` of the object `q` points to. -/
def ld (r : Region) (q off : Nat) : Except Fault Nat :=
  if q = 0 then .error .nullDeref
  else if r.base ≤ q + off ∧ q + off + 8 ≤ r.base + r.cap then .ok (readU64 r.mem (q + off))
  else .error .outOfBounds

/-- Store into the 8-byte field at offset `off` of the object `q` points to. -/
def st (r : Region) (q off v : Nat) : Except Fault Region :=
  if q = 0 then .error .nullDeref
  else if r.base ≤ q + off ∧ q + off + 8 ≤ r.base + r.cap then
    .ok { r with mem := writeU64 r.mem (q + off) v }
  else .error .outOfBounds

/-- The call `memcpy(dst, src, n)` with both ranges inside the block.  The bytes are
read before any is written. -/
def memcpy (r : Region) (dst src n : Nat) : Except Fault Region :=
  if n = 0 then .ok r
  else if dst = 0 ∨ src = 0 then .error .nullDeref
  else if r.base ≤ dst ∧ dst + n ≤ r.base + r.cap ∧ r.base ≤ src ∧ src + n ≤ r.base + r.cap then
    .ok { r with mem := fun x => if dst ≤ x ∧ x < dst + n then r.mem (src + (x - dst)) else r.mem x }
  else .error .outOfBounds

/-- The call `memcpy(dst, carr, n)` where `carr` is a buffer of the caller (outside the
block) holding the bytes `bytes`. -/
def memcpyIn (r : Region) (dst : Nat) (bytes : List Nat) (n : Nat) : Except Fault Region :=
  if n = 0 then .ok r
  else if dst = 0 then .error .nullDeref
  else if r.base ≤ dst ∧ dst + n ≤ r.base + r.cap ∧ n ≤ bytes.length then
    .ok { r with mem := fun x => if dst ≤ x ∧ x < dst + n then bytes.getD (x - dst) 0 % 256 else r.mem x }
  else .error .outOfBounds

/-- The call `memset(dst, v, n)`. -/
def memset (r : Region) (dst v n : Nat) : Except Fault Region :=
  if n = 0 then .ok r
  else if dst = 0 then .error .nullDeref
  else if r.base ≤ dst ∧ dst + n ≤ r.base + r.cap then
    .ok { r with mem := fun x => if dst ≤ x ∧ x < dst + n then v % 256 else r.mem x }
  else .error .outOfBounds

/-! ## The arena (arena.h:63-229)

Field offsets: `struct arena { sz @0; free @8; used @16 }`,
`struct chunk { sz @0; next @8; data @16 }`. -/

/-- The macro `_A_align(x)`: `((x) % 8 ? (x + 8 - x % 8) : x)` in `size_t` arithmetic. -/
def _A_align (x : Nat) : Nat :=
  if x % 8 ≠ 0 then sub64 (add64 x 8) (x % 8) else x

/-- The function `A_create(sz)`: `a` is the address `malloc(sz)` returned (0 when it failed) and `m0`
the memory at that moment.  The result is `none` for the null handle. -/
def A_create (m0 : Mem) (a sz : Nat) : Except Fault (Option Region) :=
  if a = 0 then pure none else do
    let r : Region := { base := a, cap := sz, mem := m0 }
    let r ← st r a 0 sz
    let r ← st r a 8 (a + 24)
    let r ← st r a 16 0
    let f ← ld r a 8
    let r ← st r f 0 (sub64 (sub64 sz 24) 16)
    let f ← ld r a 8
    let r ← st r f 8 0
    pure (some r)

/-- The function `_A_split_chunk(c, sz)` (arena.h:99-112). -/
def _A_split_chunk (r : Region) (c sz : Nat) : Except Fault (Bool × Region) :=
  if c = 0 ∨ sz < 1 then pure (false, r) else do
    let csz ← ld r c 0
    if csz < add64 (add64 16 (_A_align sz)) (_A_align 1) then pure (false, r) else do
      let tmp := c + 16 + _A_align sz
      let csz ← ld r c 0
      let r ← st r tmp 0 (sub64 (sub64 csz 16) (_A_align sz))
      let cnext ← ld r c 8
      let r ← st r tmp 8 cnext
      let r ← st r c 0 (_A_align sz)
      let r ← st r c 8 tmp
      pure (true, r)

/-- The loop of `A_alloc` (arena.h:121-124).  `c` is the cursor of type
`struct chunk **`; the result is its value when the loop exits. -/
def A_alloc_scan (r : Region) (need : Nat) : Nat → Nat → Except Fault Nat
  | 0, _ => .error .outOfFuel
  | fuel + 1, c => do
    let p ← ld r c 0
    if p = 0 then pure c else do
      let psz ← ld r p 0
      if psz < need then A_alloc_scan r need fuel (p + 8) else pure c

/-- The statements of `A_alloc` after the split (arena.h:136-144): remember
`(*c)->data`, take `*c` out of the free list and put it in front of the used list. -/
def A_alloc_link (r : Region) (c : Nat) : Except Fault (Nat × Region) := do
  let p ← ld r c 0
  let ret := p + 16
  let used ← ld r r.base 16
  let p ← ld r c 0
  let r ← st r r.base 16 p
  let p ← ld r c 0
  let nx ← ld r p 8
  let r ← st r c 0 nx
  let u ← ld r r.base 16
  let r ← st r u 8 used
  pure (ret, r)

/-- The function `A_alloc(a, sz)` (arena.h:114-145); the handle `a` is `r.base`.  Returns the address handed to the
caller (0 for `NULL`) and the block afterwards. -/
def A_alloc (fuel : Nat) (r : Region) (sz : Nat) : Except Fault (Nat × Region) :=
  if r.base = 0 ∨ sz < 1 then pure (0, r) else do
    let c ← A_alloc_scan r (_A_align sz) fuel (r.base + 8)
    let p ← ld r c 0
    if p = 0 then pure (0, r) else do
      let (_, r) ← _A_split_chunk r p sz
      A_alloc_link r c

/-- The function `A_calloc(a, cnt, sz)` (arena.h:147-157). -/
def A_calloc (fuel : Nat) (r : Region) (cnt sz : Nat) : Except Fault (Nat × Region) := do
  let (m, r) ← A_alloc fuel r (mul64 cnt sz)
  if m = 0 then pure (0, r) else do
    let r ← memset r m 0 sz
    pure (m, r)

/-- The first loop of `A_free` (arena.h:207-210), cursor of type `struct chunk **`. -/
def A_free_scan (r : Region) (ptr : Nat) : Nat → Nat → Except Fault Nat
  | 0, _ => .error .outOfFuel
  | fuel + 1, c => do
    let p ← ld r c 0
    if p = 0 then pure c
    else if p + 16 ≠ ptr then A_free_scan r ptr fuel (p + 8) else pure c

/-- The second loop of `A_free` (arena.h:218-221): walk to the last free chunk. -/
def A_free_last (r : Region) : Nat → Nat → Except Fault Nat
  | 0, _ => .error .outOfFuel
  | fuel + 1, free =>
    if free = 0 then pure free else do
      let n ← ld r free 8
      if n ≠ 0 then A_free_last r fuel n else pure free

/-- The function `A_free(a, ptr)` (arena.h:200-229). -/
def A_free (fuel : Nat) (r : Region) (ptr : Nat) : Except Fault Region :=
  if r.base = 0 ∨ ptr = 0 then pure r else do
    let c ← A_free_scan r ptr fuel (r.base + 16)
    let p ← ld r c 0
    if p = 0 then pure r else do
      let f0 ← ld r r.base 8
      let free ← A_free_last r fuel f0
      let p ← ld r c 0
      let r ← st r free 8 p
      let p ← ld r c 0
      let nx ← ld r p 8
      let r ← st r c 0 nx
      let fn ← ld r free 8
      let r ← st r fn 8 0
      pure r

/-- The loop of `A_realloc` (arena.h:166-169), cursor of type `struct chunk *`. -/
def A_realloc_scan (r : Region) (ptr : Nat) : Nat → Nat → Except Fault Nat
  | 0, _ => .error .outOfFuel
  | fuel + 1, c =>
    if c = 0 then pure c
    else if c + 16 ≠ ptr then do
      let n ← ld r c 8
      A_realloc_scan r ptr fuel n
    else pure c

/-- The function `A_realloc(a, ptr, sz)` (arena.h:159-198). -/
def A_realloc (fuel : Nat) (r : Region) (ptr sz : Nat) : Except Fault (Nat × Region) :=
  if r.base = 0 ∨ ptr = 0 ∨ sz < 1 then pure (ptr, r) else do
    let u ← ld r r.base 16
    let c ← A_realloc_scan r ptr fuel u
    if c = 0 then pure (0, r) else do
      let csz ← ld r c 0
      if csz ≥ sz then pure (ptr, r) else do
        let (new, r) ← A_alloc fuel r sz
        if new = 0 then pure (0, r) else do
          let r ← memcpy r new (c + 16) sz
          let r ← A_free fuel r ptr
          pure (new, r)

/-! ## The byte string (arena.h:267-318)

`struct a_string { sz @0; data @8 }`.  The caller's buffer `carr` is given by its
contents. -/

/-- The function `AS_create_from_char_array(a, carr, sz)` (arena.h:272-283). -/
def AS_create_from_char_array (fuel : Nat) (r : Region) (carr : List Nat) (sz : Nat) :
    Except Fault (Nat × Region) := do
  let (astr, r) ← A_alloc fuel r (add64 8 sz)
  if astr = 0 then pure (0, r) else do
    let r ← st r astr 0 sz
    let n ← ld r astr 0
    let r ← memcpyIn r (astr + 8) carr n
    pure (astr, r)

/-- The function `AS_append_char_array(a, astr, carr, sz)` (arena.h:292-309). -/
def AS_append_char_array (fuel : Nat) (r : Region) (astr : Nat) (carr : List Nat) (sz : Nat) :
    Except Fault (Nat × Region) := do
  let n ← ld r astr 0
  let (realloced, r) ← A_realloc fuel r astr (add64 (add64 8 n) sz)
  if realloced = 0 then pure (0, r) else do
    let n ← ld r realloced 0
    let r ← memcpyIn r (realloced + 8 + n) carr sz
    let n ← ld r realloced 0
    let newsz := add64 n sz
    let r ← st r realloced 0 newsz
    pure (realloced, r)

/-- The function `AS_data(astr)`: the address of `astr->data`. -/
def AS_data (astr : Nat) : Nat := astr + 8

/-- The function `AS_sz(astr)`: a load of `astr->sz`. -/
def AS_sz (r : Region) (astr : Nat) : Except Fault Nat := ld r astr 0


/-! ## Representation predicates -/

/-- The chunk pointers `l` form a linked list (through the `next` fields stored in `m`)
that starts at the pointer `p` and whose last `next` field holds `t`. -/
def Lst (m : Mem) : Nat → List Nat → Nat → Prop
  | p, [], t => p = t
  | p, c :: cs, t => p = c ∧ c ≠ 0 ∧ Lst m (readU64 m (c + 8)) cs t

instance Lst.instDecidable (m : Mem) : (p : Nat) → (l : List Nat) → (t : Nat) → Decidable (Lst m p l t)
  | p, [], t => inferInstanceAs (Decidable (p = t))
  | p, c :: cs, t =>
    have := Lst.instDecidable m (readU64 m (c + 8)) cs t
    inferInstanceAs (Decidable (p = c ∧ c ≠ 0 ∧ Lst m (readU64 m (c + 8)) cs t))

/-- The value of a cursor of type `struct chunk **` that started at the cell `cell` and
stepped over the chunks `l` (each step is `c = &(*c)->next`). -/
def lastCell : Nat → List Nat → Nat
  | cell, [] => cell
  | _, c :: cs => lastCell (c + 8) cs

/-- Well-formed arena state: the handle is not null and the block lies in the address
space, `fl` and `ul` are the chunk headers of the free list and of the used list in list
order, both lists end in a null `next`, every chunk lies in the block after the arena
header, no chunk occurs twice, and the header-plus-data spans `[c, c + 16 + c->sz)` of
the chunks do not overlap. -/
structure WF (r : Region) (fl ul : List Nat) : Prop where
  base_ne : r.base ≠ 0
  no_wrap : r.base + r.cap < 2 ^ 64
  hdr : 24 ≤ r.cap
  free_list : Lst r.mem (readU64 r.mem (r.base + 8)) fl 0
  used_list : Lst r.mem (readU64 r.mem (r.base + 16)) ul 0
  inside : ∀ c ∈ fl ++ ul, r.base + 24 ≤ c ∧ c + 16 + readU64 r.mem c ≤ r.base + r.cap
  nodup : (fl ++ ul).Nodup
  sep : ∀ c ∈ fl ++ ul, ∀ d ∈ fl ++ ul, c ≠ d →
    c + 16 + readU64 r.mem c ≤ d ∨ d + 16 + readU64 r.mem d ≤ c

/-- Bytes outside the arena header and outside the `next` fields of the chunks in `l`
are the same in `m2` as in `m`. -/
def NextFrame (base : Nat) (l : List Nat) (m m2 : Mem) : Prop :=
  ∀ x, (x < base ∨ base + 24 ≤ x) → (∀ c ∈ l, x < c + 8 ∨ c + 16 ≤ x) → m2 x = m x

instance WF.instDecidable (r : Region) (fl ul : List Nat) : Decidable (WF r fl ul) :=
  decidable_of_iff
    (r.base ≠ 0 ∧ r.base + r.cap < 2 ^ 64 ∧ 24 ≤ r.cap ∧
      Lst r.mem (readU64 r.mem (r.base + 8)) fl 0 ∧
      Lst r.mem (readU64 r.mem (r.base + 16)) ul 0 ∧
      (∀ c ∈ fl ++ ul, r.base + 24 ≤ c ∧ c + 16 + readU64 r.mem c ≤ r.base + r.cap) ∧
      (fl ++ ul).Nodup ∧
      (∀ c ∈ fl ++ ul, ∀ d ∈ fl ++ ul, c ≠ d →
        c + 16 + readU64 r.mem c ≤ d ∨ d + 16 + readU64 r.mem d ≤ c))
    ⟨fun ⟨h1, h2, h3, h4, h5, h6, h7, h8⟩ => ⟨h1, h2, h3, h4, h5, h6, h7, h8⟩,
     fun h => ⟨h.1, h.2, h.3, h.4, h.5, h.6, h.7, h.8⟩⟩

/-- Total length of the header-plus-data spans of the chunks in `l`. -/
def spanSum (m : Mem) (l : List Nat) : Nat := (l.map (fun c => 16 + readU64 m c)).sum

/-- The region-partition invariant: a well-formed state whose chunk spans add up to the
whole block after the 24-byte arena header. -/
def Partition (r : Region) (fl ul : List Nat) : Prop :=
  WF r fl ul ∧ spanSum r.mem (fl ++ ul) + 24 = r.cap

/-- One returning call of `A_alloc`, `A_realloc` or `A_free`, with any arguments (the
call returns when the model does so with some amount of fuel). -/
inductive Step : Region → Region → Prop
  | alloc (r r2 : Region) (sz res fuel : Nat) :
      A_alloc fuel r sz = .ok (res, r2) → Step r r2
  | realloc (r r2 : Region) (ptr sz res fuel : Nat) :
      A_realloc fuel r ptr sz = .ok (res, r2) → Step r r2
  | free (r r2 : Region) (ptr fuel : Nat) :
      A_free fuel r ptr = .ok r2 → Step r r2

/-- The states reachable from `A_create(cap)`, where `malloc` returned the address `a`
of a block with contents `m0`, by any sequence of returning calls. -/
inductive Reach (m0 : Mem) (a cap : Nat) : Region → Prop
  | create (r : Region) : A_create m0 a cap = .ok (some r) → Reach m0 a cap r
  | step (r r2 : Region) : Reach m0 a cap r → Step r r2 → Reach m0 a cap r2

/-- The least multiple of 8 that is at least `x`. -/
def roundUp8 (x : Nat) : Nat := (x + 7) / 8 * 8

/-- A run of `A_alloc` calls, one per requested size, collecting the returned addresses. -/
def allocSeq (fuel : Nat) : Region → List Nat → Except Fault (List Nat × Region)
  | r, [] => pure ([], r)
  | r, s :: ss => do
    let (p, r) ← A_alloc fuel r s
    let (ps, r) ← allocSeq fuel r ss
    pure (p :: ps, r)

/-- The data addresses of blocks laid out one after the other from the data address `p`:
each block takes its aligned size plus the 16-byte header of the next. -/
def seqAddrs : Nat → List Nat → List Nat
  | _, [] => []
  | p, s :: ss => p :: seqAddrs (p + roundUp8 s + 16) ss

/-- The block right after a successful `A_create(sz)` at address `a`, written out. -/
def created (m0 : Mem) (a sz : Nat) : Region :=
  { base := a, cap := sz,
    mem := writeU64 (writeU64 (writeU64 (writeU64 (writeU64 m0 a sz) (a + 8) (a + 24))
      (a + 16) 0) (a + 24) (sz - 40)) (a + 32) 0 }

/-! ## Concrete runs

The runs below start from a block that `malloc` placed at address 4096 and that held
zero bytes. -/

/-- Memory that holds zero everywhere. -/
def zeroMem : Mem := fun _ => 0

/-- The block an operation leaves behind (`dflt` if it did not return). -/
def stateOf (x : Except Fault (Nat × Region)) (dflt : Region) : Region :=
  match x with
  | .ok (_, r) => r
  | .error _ => dflt

/-- The state after `A_create(80)` and `A_alloc(a, 16)`: used list `[4120]` (size 16), free list
`[4152]` (size 8). -/
def arena80 : Region := stateOf (A_alloc 1 (created zeroMem 4096 80) 16) (created zeroMem 4096 80)

/-- The state after `A_create(80)` and `A_alloc(a, 8)`: used list `[4120]` (size 8), free list
`[4144]` (size 16). -/
def arena80b : Region := stateOf (A_alloc 1 (created zeroMem 4096 80) 8) (created zeroMem 4096 80)

/-- The state after `A_create(48)` and `A_alloc(a, 8)`: used list `[4120]` (size 8), free list
empty. -/
def arena48 : Region := stateOf (A_alloc 1 (created zeroMem 4096 48) 8) (created zeroMem 4096 48)

/-- The scenario of the specification in an arena of capacity 256, up to the free:
`p = A_alloc(a, 8)`, fill with 65 (the letter A), `q = A_alloc(a, 3)`, fill with 66 (the
letter B), `A_free(a, p)`.  Returns `p` and the state. -/
def scenario256 (fuel : Nat) : Except Fault (Nat × Region) := do
  let r := created zeroMem 4096 256
  let (p, r) ← A_alloc fuel r 8
  let r ← memset r p 65 8
  let (q, r) ← A_alloc fuel r 3
  let r ← memset r q 66 3
  let r ← A_free fuel r p
  pure (p, r)

/-- The state the scenario leaves behind: free list `[4168, 4120]` (sizes 168 and 8), used
list `[4144]`. -/
def arena256 : Region := stateOf (scenario256 4) (created zeroMem 4096 256)

/-- The `n` bytes stored from the address `p` on. -/
def readBytes (m : Mem) (p n : Nat) : List Nat := (List.range n).map (fun i => m (p + i) % 256)

/-- The handle `h` is a live string with the bytes `s`: it is the data address of a chunk of
the used list `ul`, the chunk has room for the length field and the bytes, the length field
holds `len s` and the bytes follow it. -/
def IsString (r : Region) (ul : List Nat) (h : Nat) (s : List Nat) : Prop :=
  ∃ c ∈ ul, h = c + 16 ∧ 8 + s.length ≤ readU64 r.mem c ∧ readU64 r.mem h = s.length ∧
    readBytes r.mem (h + 8) s.length = s

/-- Alignment of the chunks in `l`: every header lies at an address congruent to the arena
base modulo 8, and every size is a multiple of 8 or congruent to `k` modulo 8 (`k` is the
capacity, whose remainder the first chunk inherits). -/
def Aligned (r : Region) (k : Nat) (l : List Nat) : Prop :=
  ∀ c ∈ l, c % 8 = r.base % 8 ∧ (readU64 r.mem c % 8 = 0 ∨ readU64 r.mem c % 8 = k % 8)

/-- The state after `A_create(256)`, `p = A_alloc(a, 8)` (so `p = 4136`) and `A_free(a, p)`:
free list `[4144, 4120]` (sizes 192 and 8), used list empty. -/
def arena256f : Region :=
  match A_alloc 1 (created zeroMem 4096 256) 8 with
  | .ok (p, r) =>
    match A_free 1 r p with
    | .ok r2 => r2
    | .error _ => r
  | .error _ => created zeroMem 4096 256

/-- The state after `A_create(256)` and `AS_create_from_char_array(a, "ASDF", 4)`: the string
handle is 4136, its chunk 4120 has size 16. -/
def arenaStr : Region :=
  stateOf (AS_create_from_char_array 1 (created zeroMem 4096 256) [65, 83, 68, 70] 4)
    (created zeroMem 4096 256)

/-- The state after `A_create(100)` and `A_alloc(a, 40)`: the only chunk, of size 60, is
handed out whole; used list `[4120]`, free list empty. -/
def arena100 : Region :=
  stateOf (A_alloc 1 (created zeroMem 4096 100) 40) (created zeroMem 4096 100)

/-- The state after `A_create(100)` and `A_alloc(a, 8)`: used list `[4120]` (size 8), free
list `[4144]` (size 36). -/
def arena100s : Region :=
  stateOf (A_alloc 1 (created zeroMem 4096 100) 8) (created zeroMem 4096 100)

/-- The run `AS_create_from_char_array(a, A)`, then `AS_append_char_array` with `B` and with
`C` on the handle returned before, on a fresh arena of capacity `cap` at address 4096. -/
def createAppendAppend (fuel cap : Nat) (A B C : List Nat) : Except Fault (Nat × Region) := do
  let r := created zeroMem 4096 cap
  let (h1, r) ← AS_create_from_char_array fuel r A A.length
  let (h2, r) ← AS_append_char_array fuel r h1 B B.length
  AS_append_char_array fuel r h2 C C.length

/-- The state after `A_create(96)` and `AS_create_from_char_array(a, "ASDF", 4)`: used list
`[4120]` (size 16, the string handle is 4136), free list `[4152]` (size 24). -/
def arena96 : Region :=
  stateOf (AS_create_from_char_array 1 (created zeroMem 4096 96) [65, 83, 68, 70] 4)
    (created zeroMem 4096 96)

/-- The state after `A_create(128)` and `A_alloc(a, 8)`: used list `[4120]` (size 8), free
list `[4144]` (size 64). -/
def arena128 : Region :=
  stateOf (A_alloc 1 (created zeroMem 4096 128) 8) (created zeroMem 4096 128)

/-! ## Words, bytes and `size_t` arithmetic -/

theorem readU64_lt (m : Mem) (p : Nat) : readU64 m p < 2 ^ 64 := by
  unfold readU64; omega

theorem readU64_writeU64_same (m : Mem) (p v : Nat) (hv : v < 2 ^ 64) :
    readU64 (writeU64 m p v) p = v := by
  unfold readU64 writeU64
  simp
  omega

theorem writeU64_out (m : Mem) (p v x : Nat) (h : x < p ∨ p + 8 ≤ x) :
    writeU64 m p v x = m x := by
  unfold writeU64
  rw [if_neg]; omega

theorem readU64_congr (m m2 : Mem) (q : Nat) (h : ∀ x, q ≤ x → x < q + 8 → m2 x = m x) :
    readU64 m2 q = readU64 m q := by
  unfold readU64
  rw [h q (by omega) (by omega), h (q+1) (by omega) (by omega), h (q+2) (by omega) (by omega),
    h (q+3) (by omega) (by omega), h (q+4) (by omega) (by omega), h (q+5) (by omega) (by omega),
    h (q+6) (by omega) (by omega), h (q+7) (by omega) (by omega)]

theorem readU64_writeU64_disj (m : Mem) (p q v : Nat) (h : q + 8 ≤ p ∨ p + 8 ≤ q) :
    readU64 (writeU64 m p v) q = readU64 m q := by
  apply readU64_congr
  intro x h1 h2
  apply writeU64_out; omega

theorem sub64_eq (x y : Nat) (hx : x < 2 ^ 64) (hy : y ≤ x) : sub64 x y = x - y := by
  unfold sub64; omega

theorem add64_eq (x y : Nat) (h : x + y < 2 ^ 64) : add64 x y = x + y := by
  unfold add64; omega

theorem A_align_one : _A_align 1 = 8 := by decide

theorem A_align_lt (x : Nat) (hx : x < 2 ^ 64) : _A_align x < 2 ^ 64 := by
  unfold _A_align sub64 add64; split <;> omega

theorem A_align_mod (x : Nat) : _A_align x % 8 = 0 := by
  unfold _A_align sub64 add64; split <;> omega

theorem A_align_ge (x : Nat) (hx : x + 8 ≤ 2 ^ 64) : x ≤ _A_align x ∧ _A_align x < x + 8 := by
  unfold _A_align sub64 add64; split <;> omega

theorem A_align_wrap (x : Nat) (hx : x < 2 ^ 64) (h : 2 ^ 64 < x + 8) : _A_align x = 0 := by
  unfold _A_align sub64 add64; split <;> omega

/-! ## Checked accesses -/

theorem ok_bind {α β : Type} (a : α) (f : α → Except Fault β) :
    (Except.ok a >>= f) = f a := rfl

theorem err_bind {α β : Type} (e : Fault) (f : α → Except Fault β) :
    ((Except.error e : Except Fault α) >>= f) = Except.error e := rfl

theorem ld_ok {r : Region} {q off : Nat} (h0 : q ≠ 0) (h1 : r.base ≤ q + off)
    (h2 : q + off + 8 ≤ r.base + r.cap) : ld r q off = .ok (readU64 r.mem (q + off)) := by
  simp [ld, h0, h1, h2]

theorem ld_ok0 {r : Region} {q : Nat} (h0 : q ≠ 0) (h1 : r.base ≤ q)
    (h2 : q + 8 ≤ r.base + r.cap) : ld r q 0 = .ok (readU64 r.mem q) := by
  simp [ld, h0, h1, h2]

theorem st_ok0 {r : Region} {q v : Nat} (h0 : q ≠ 0) (h1 : r.base ≤ q)
    (h2 : q + 8 ≤ r.base + r.cap) :
    st r q 0 v = .ok { r with mem := writeU64 r.mem q v } := by
  simp [st, h0, h1, h2]

theorem ld_null (r : Region) (off : Nat) : ld r 0 off = .error .nullDeref := by
  simp [ld]

theorem st_ok {r : Region} {q off v : Nat} (h0 : q ≠ 0) (h1 : r.base ≤ q + off)
    (h2 : q + off + 8 ≤ r.base + r.cap) :
    st r q off v = .ok { r with mem := writeU64 r.mem (q + off) v } := by
  simp [st, h0, h1, h2]

theorem st_null (r : Region) (off v : Nat) : st r 0 off v = .error .nullDeref := by
  simp [st]

/-! ## Linked lists in memory -/

theorem Lst_nil {m : Mem} {p t : Nat} : Lst m p [] t ↔ p = t := Iff.rfl

theorem Lst_cons {m : Mem} {p c t : Nat} {cs : List Nat} :
    Lst m p (c :: cs) t ↔ p = c ∧ c ≠ 0 ∧ Lst m (readU64 m (c + 8)) cs t := Iff.rfl

theorem Lst_frame {m m2 : Mem} : ∀ (l : List Nat) (p t : Nat),
    (∀ c ∈ l, readU64 m2 (c + 8) = readU64 m (c + 8)) → Lst m p l t → Lst m2 p l t := by
  intro l
  induction l with
  | nil => intro p t _ h; exact h
  | cons c cs ih =>
    intro p t hf h
    obtain ⟨h1, h2, h3⟩ := h
    refine ⟨h1, h2, ?_⟩
    rw [hf c (List.mem_cons_self _ _)]
    exact ih _ _ (fun d hd => hf d (List.mem_cons_of_mem _ hd)) h3

theorem Lst_head {m : Mem} {l : List Nat} {p t : Nat} (h : Lst m p l t) : p = l.headD t := by
  cases l with
  | nil => exact h
  | cons c cs => exact h.1

theorem Lst_ne_zero {m : Mem} : ∀ (l : List Nat) (p t : Nat), Lst m p l t → ∀ c ∈ l, c ≠ 0 := by
  intro l
  induction l with
  | nil => intro p t _ c hc; simp at hc
  | cons d ds ih =>
    intro p t h c hc
    obtain ⟨_, h2, h3⟩ := h
    rcases List.mem_cons.1 hc with rfl | hc
    · exact h2
    · exact ih _ _ h3 c hc

theorem Lst_append {m : Mem} : ∀ (l1 l2 : List Nat) (p t : Nat),
    Lst m p (l1 ++ l2) t ↔ Lst m p l1 (l2.headD t) ∧ Lst m (l2.headD t) l2 t := by
  intro l1
  induction l1 with
  | nil =>
    intro l2 p t
    constructor
    · intro h
      have := Lst_head h
      simp only [List.nil_append] at h this
      exact ⟨this, this ▸ h⟩
    · rintro ⟨h1, h2⟩
      have h1 : p = l2.headD t := h1
      simpa [h1] using h2
  | cons c cs ih =>
    intro l2 p t
    rw [List.cons_append, Lst_cons, Lst_cons, ih]
    tauto

theorem Lst_snoc {m : Mem} (l : List Nat) (c p t : Nat) :
    Lst m p (l ++ [c]) t ↔ Lst m p l c ∧ c ≠ 0 ∧ readU64 m (c + 8) = t := by
  rw [Lst_append]
  simp [Lst_cons, Lst_nil]

theorem Lst_unique {m : Mem} : ∀ (l l2 : List Nat) (p : Nat),
    Lst m p l 0 → Lst m p l2 0 → l = l2 := by
  intro l
  induction l with
  | nil =>
    intro l2 p h h2
    cases l2 with
    | nil => rfl
    | cons d ds =>
      have h : p = 0 := h
      obtain ⟨h3, h4, _⟩ := h2
      omega
  | cons c cs ih =>
    intro l2 p h h2
    cases l2 with
    | nil =>
      have h2 : p = 0 := h2
      obtain ⟨h3, h4, _⟩ := h
      omega
    | cons d ds =>
      obtain ⟨h3, h4, h5⟩ := h
      obtain ⟨h6, h7, h8⟩ := h2
      have : c = d := by omega
      subst this
      rw [ih ds _ h5 h8]

theorem lastCell_nil (cell : Nat) : lastCell cell [] = cell := rfl

theorem lastCell_cons (cell c : Nat) (l : List Nat) :
    lastCell cell (c :: l) = lastCell (c + 8) l := rfl

theorem lastCell_snoc : ∀ (l : List Nat) (cell c : Nat), lastCell cell (l ++ [c]) = c + 8 := by
  intro l
  induction l with
  | nil => intro cell c; rfl
  | cons d ds ih => intro cell c; exact ih (d + 8) c

/-- The cell the cursor stops at holds the pointer to the rest of the list. -/
theorem readU64_lastCell {m : Mem} : ∀ (l1 l2 : List Nat) (cell t : Nat),
    Lst m (readU64 m cell) (l1 ++ l2) t → readU64 m (lastCell cell l1) = l2.headD t := by
  intro l1
  induction l1 with
  | nil => intro l2 cell t h; exact Lst_head h
  | cons c cs ih =>
    intro l2 cell t h
    obtain ⟨_, _, h3⟩ := h
    exact ih l2 (c + 8) t h3

/-! ## The loops -/

theorem A_alloc_scan_succ (r : Region) (need fuel c : Nat) :
    A_alloc_scan r need (fuel + 1) c =
      (ld r c 0 >>= fun p => if p = 0 then pure c else
        ld r p 0 >>= fun psz =>
          if psz < need then A_alloc_scan r need fuel (p + 8) else pure c) := rfl

theorem A_alloc_scan_ok (r : Region) (need : Nat) : ∀ (l1 l2 : List Nat) (fuel cell : Nat),
    cell ≠ 0 → r.base ≤ cell → cell + 8 ≤ r.base + r.cap →
    Lst r.mem (readU64 r.mem cell) (l1 ++ l2) 0 →
    (∀ c ∈ l1 ++ l2, r.base ≤ c ∧ c + 16 ≤ r.base + r.cap) →
    (∀ c ∈ l1, readU64 r.mem c < need) →
    (∀ c, l2.head? = some c → ¬ readU64 r.mem c < need) →
    l1.length < fuel →
    A_alloc_scan r need fuel cell = .ok (lastCell cell l1) := by
  intro l1
  induction l1 with
  | nil =>
    intro l2 fuel cell hc0 hc1 hc2 hl hin _ hfit hfuel
    obtain ⟨fuel, rfl⟩ : ∃ k, fuel = k + 1 := ⟨fuel - 1, by simp at hfuel; omega⟩
    rw [List.nil_append] at hl hin
    rw [A_alloc_scan_succ, ld_ok hc0 (by omega) (by omega), ok_bind, Nat.add_zero, lastCell_nil]
    cases l2 with
    | nil =>
      have hl : readU64 r.mem cell = 0 := hl
      rw [hl, if_pos rfl]; rfl
    | cons p l2 =>
      obtain ⟨h1, h2, _⟩ := hl
      have hp := hin p (List.mem_cons_self _ _)
      rw [h1, if_neg h2, ld_ok h2 (by omega) (by omega), ok_bind, Nat.add_zero,
        if_neg (hfit p rfl)]
      rfl
  | cons c cs ih =>
    intro l2 fuel cell hc0 hc1 hc2 hl hin hsm hfit hfuel
    obtain ⟨fuel, rfl⟩ : ∃ k, fuel = k + 1 := ⟨fuel - 1, by simp at hfuel; omega⟩
    obtain ⟨h1, h2, h3⟩ := hl
    have hp := hin c (List.mem_cons_self _ _)
    rw [A_alloc_scan_succ, ld_ok hc0 (by omega) (by omega), ok_bind, Nat.add_zero,
      h1, if_neg h2, ld_ok h2 (by omega) (by omega), ok_bind, Nat.add_zero,
      if_pos (hsm c (List.mem_cons_self _ _)), lastCell_cons]
    apply ih l2 fuel (c + 8) (by omega) (by omega) (by omega) h3
    · intro d hd; exact hin d (List.mem_cons_of_mem _ hd)
    · intro d hd; exact hsm d (List.mem_cons_of_mem _ hd)
    · exact hfit
    · simp at hfuel; omega

/-! ## `_A_split_chunk` -/

theorem split_none (r : Region) (p sz : Nat) (hp : p ≠ 0) (hsz : 1 ≤ sz)
    (hb : r.base ≤ p) (hin : p + 16 + readU64 r.mem p ≤ r.base + r.cap)
    (hw : _A_align sz + 24 < 2 ^ 64) (hs : readU64 r.mem p < _A_align sz + 24) :
    _A_split_chunk r p sz = .ok (false, r) := by
  unfold _A_split_chunk
  rw [if_neg (by omega), ld_ok hp (by omega) (by omega), ok_bind, Nat.add_zero,
    A_align_one, add64_eq 16 _ (by omega), add64_eq _ 8 (by omega), if_pos (by omega)]
  rfl

theorem split_some (r : Region) (p sz : Nat) (hp : p ≠ 0) (hsz : 1 ≤ sz)
    (hb : r.base ≤ p) (hin : p + 16 + readU64 r.mem p ≤ r.base + r.cap)
    (hnw : r.base + r.cap < 2 ^ 64)
    (hs : _A_align sz + 24 ≤ readU64 r.mem p) :
    ∃ r2, _A_split_chunk r p sz = .ok (true, r2) ∧ r2.base = r.base ∧ r2.cap = r.cap ∧
      readU64 r2.mem p = _A_align sz ∧
      readU64 r2.mem (p + 8) = p + 16 + _A_align sz ∧
      readU64 r2.mem (p + 16 + _A_align sz) = readU64 r.mem p - 16 - _A_align sz ∧
      readU64 r2.mem (p + 16 + _A_align sz + 8) = readU64 r.mem (p + 8) ∧
      ∀ x, (x < p ∨ p + 16 ≤ x) →
        (x < p + 16 + _A_align sz ∨ p + 16 + _A_align sz + 16 ≤ x) → r2.mem x = r.mem x := by
  have hS := readU64_lt r.mem p
  have hN := readU64_lt r.mem (p + 8)
  generalize hal : _A_align sz = al at *
  generalize hSe : readU64 r.mem p = S at *
  unfold _A_split_chunk
  rw [if_neg (by omega), ld_ok hp (by omega) (by omega), ok_bind, Nat.add_zero, hal,
    A_align_one, add64_eq 16 _ (by omega), add64_eq _ 8 (by omega), if_neg (by omega)]
  simp only []
  rw [hSe, ok_bind, sub64_eq S 16 (by omega) (by omega), sub64_eq _ al (by omega) (by omega)]
  rw [st_ok (by omega) (by first | omega | (simp only []; omega)) (by first | omega | (simp only []; omega)), ok_bind]
  rw [ld_ok hp (by first | omega | (simp only []; omega)) (by first | omega | (simp only []; omega)), ok_bind]
  simp only []
  rw [readU64_writeU64_disj _ _ _ _ (by omega)]
  rw [st_ok (by omega) (by first | omega | (simp only []; omega)) (by first | omega | (simp only []; omega)), ok_bind]
  rw [st_ok hp (by first | omega | (simp only []; omega)) (by first | omega | (simp only []; omega)), ok_bind]
  rw [st_ok hp (by first | omega | (simp only []; omega)) (by first | omega | (simp only []; omega)), ok_bind]
  refine ⟨_, rfl, rfl, rfl, ?_, ?_, ?_, ?_, ?_⟩
  · simp only [Nat.add_zero]
    rw [readU64_writeU64_disj _ _ _ _ (by omega), readU64_writeU64_same _ _ _ (by omega)]
  · simp only [Nat.add_zero]
    rw [readU64_writeU64_same _ _ _ (by omega)]
  · simp only [Nat.add_zero]
    rw [readU64_writeU64_disj _ _ _ _ (by omega), readU64_writeU64_disj _ _ _ _ (by omega),
      readU64_writeU64_disj _ _ _ _ (by omega), readU64_writeU64_same _ _ _ (by omega)]
  · simp only [Nat.add_zero]
    rw [readU64_writeU64_disj _ _ _ _ (by omega), readU64_writeU64_disj _ _ _ _ (by omega),
      readU64_writeU64_same _ _ _ (by omega)]
  · intro x hx1 hx2
    simp only [Nat.add_zero]
    rw [writeU64_out _ _ _ _ (by omega), writeU64_out _ _ _ _ (by omega),
      writeU64_out _ _ _ _ (by omega), writeU64_out _ _ _ _ (by omega)]

theorem lastCell_mem : ∀ (l : List Nat) (cell : Nat),
    lastCell cell l = cell ∨ ∃ c ∈ l, lastCell cell l = c + 8 := by
  intro l
  induction l with
  | nil => intro cell; exact Or.inl rfl
  | cons c cs ih =>
    intro cell
    right
    rcases ih (c + 8) with h | ⟨d, hd, h⟩
    · exact ⟨c, List.mem_cons_self _ _, h⟩
    · exact ⟨d, List.mem_cons_of_mem _ hd, h⟩

/-- Taking the node `p` out of a list: the cell the cursor stopped at receives `p->next`,
the other cells of the list keep their contents. -/
theorem Lst_unlink {m m2 : Mem} (p t : Nat) (L2 : List Nat) : ∀ (L1 : List Nat) (hc : Nat),
    Lst m (readU64 m hc) (L1 ++ p :: L2) t →
    (L1 ++ p :: L2).Nodup →
    (∀ d ∈ L1 ++ L2, hc ≠ d + 8) →
    readU64 m2 (lastCell hc L1) = readU64 m (p + 8) →
    (∀ d ∈ L1 ++ L2, d + 8 ≠ lastCell hc L1 → readU64 m2 (d + 8) = readU64 m (d + 8)) →
    (lastCell hc L1 ≠ hc → readU64 m2 hc = readU64 m hc) →
    Lst m2 (readU64 m2 hc) (L1 ++ L2) t := by
  intro L1
  induction L1 with
  | nil =>
    intro hc hl hnd hhc hcell hfr _
    simp only [List.nil_append, lastCell_nil] at *
    obtain ⟨_, _, h3⟩ := hl
    rw [hcell]
    refine Lst_frame L2 _ _ ?_ h3
    intro d hd
    exact hfr d hd (fun h => hhc d hd h.symm)
  | cons c cs ih =>
    intro hc hl hnd hhc hcell hfr hhead
    rw [List.cons_append] at hl hnd
    obtain ⟨h1, h2, h3⟩ := hl
    rw [lastCell_cons] at hcell hfr hhead
    have hne : lastCell (c + 8) cs ≠ hc := by
      rcases lastCell_mem cs (c + 8) with h | ⟨d, hd, h⟩
      · rw [h]; exact fun e => hhc c (by simp) e.symm
      · rw [h]; exact fun e => hhc d (by simp [hd]) e.symm
    rw [List.cons_append, hhead hne, h1]
    refine ⟨rfl, h2, ?_⟩
    have hnd2 := List.nodup_cons.1 hnd
    apply ih (c + 8) h3 hnd2.2
    · intro d hd e
      have : c = d := by omega
      subst this
      apply hnd2.1
      simp only [List.mem_append, List.mem_cons] at hd ⊢
      rcases hd with h | h
      · exact Or.inl h
      · exact Or.inr (Or.inr h)
    · exact hcell
    · intro d hd hne2
      exact hfr d (by simp only [List.cons_append, List.mem_cons]; exact Or.inr hd) hne2
    · intro hne3
      exact hfr c (by simp) (fun e => hne3 e.symm)

theorem WF.mem_ne_zero {r : Region} {fl ul : List Nat} (h : WF r fl ul) {c : Nat}
    (hc : c ∈ fl ++ ul) : c ≠ 0 := by
  have := h.inside c hc
  have := h.base_ne
  omega

/-- The size fields survive a change that is confined to `next` fields. -/
theorem WF.size_frame {r : Region} {fl ul : List Nat} (h : WF r fl ul) {m2 : Mem}
    (hf : NextFrame r.base (fl ++ ul) r.mem m2) :
    ∀ c ∈ fl ++ ul, readU64 m2 c = readU64 r.mem c := by
  intro c hc
  apply readU64_congr
  intro x hx1 hx2
  apply hf x
  · have := h.inside c hc; omega
  · intro d hd
    by_cases hcd : c = d
    · subst hcd; omega
    · have := h.sep c hc d hd hcd
      omega

/-- The data bytes survive a change that is confined to `next` fields. -/
theorem WF.data_frame {r : Region} {fl ul : List Nat} (h : WF r fl ul) {m2 : Mem}
    (hf : NextFrame r.base (fl ++ ul) r.mem m2) :
    ∀ c ∈ fl ++ ul, ∀ x, c + 16 ≤ x → x < c + 16 + readU64 r.mem c → m2 x = r.mem x := by
  intro c hc x hx1 hx2
  apply hf x
  · have := h.inside c hc; omega
  · intro d hd
    by_cases hcd : c = d
    · subst hcd; omega
    · have := h.sep c hc d hd hcd
      omega

/-! ## `A_alloc`: unlinking the chosen chunk -/

theorem A_alloc_link_ok (r : Region) (L1 L2 ul : List Nat) (p : Nat)
    (h : WF r (L1 ++ p :: L2) ul) :
    ∃ r2, A_alloc_link r (lastCell (r.base + 8) L1) = .ok (p + 16, r2) ∧
      r2.base = r.base ∧ r2.cap = r.cap ∧
      WF r2 (L1 ++ L2) (p :: ul) ∧
      NextFrame r.base ((L1 ++ p :: L2) ++ ul) r.mem r2.mem := by
  have hb := h.base_ne
  have hnw := h.no_wrap
  have hhdr := h.hdr
  have hpm : p ∈ (L1 ++ p :: L2) ++ ul := by simp
  have hpi := h.inside p hpm
  have hcv : readU64 r.mem (lastCell (r.base + 8) L1) = p :=
    readU64_lastCell L1 (p :: L2) (r.base + 8) 0 h.free_list
  have hnd := h.nodup
  -- where the cursor is
  have hcell : lastCell (r.base + 8) L1 = r.base + 8 ∨
      ∃ c ∈ L1, lastCell (r.base + 8) L1 = c + 8 := lastCell_mem L1 (r.base + 8)
  have hL1 : ∀ c ∈ L1, r.base + 24 ≤ c ∧ c + 16 ≤ r.base + r.cap ∧ (c + 16 ≤ p ∨ p + 16 ≤ c) := by
    intro c hc
    have hcm : c ∈ (L1 ++ p :: L2) ++ ul := by simp [hc]
    have h1 := h.inside c hcm
    have hne : c ≠ p := by
      rintro rfl
      have := (List.nodup_append.1 (List.nodup_append.1 hnd).1).2.2
      exact this hc (List.mem_cons_self _ _)
    have h2 := h.sep c hcm p hpm hne
    omega
  generalize hce : lastCell (r.base + 8) L1 = cell at *
  have hc1 : r.base + 8 ≤ cell ∧ cell + 8 ≤ r.base + r.cap ∧
      (cell + 8 ≤ r.base + 16 ∨ r.base + 24 ≤ cell) ∧ (cell + 8 ≤ p ∨ p + 16 ≤ cell) := by
    rcases hcell with e | ⟨c, hc, e⟩
    · omega
    · have := hL1 c hc; omega
  have hu0 := readU64_lt r.mem (r.base + 16)
  have hnx := readU64_lt r.mem (p + 8)
  have hp64 : p < 2 ^ 64 := by omega
  -- run the statements
  unfold A_alloc_link
  rw [ld_ok0 (by omega) (by omega) (by omega), ok_bind, hcv]
  rw [ld_ok hb (by omega) (by omega), ok_bind, ok_bind]
  rw [st_ok hb (by omega) (by omega), ok_bind]
  rw [ld_ok0 (by omega) (by first | omega | (simp only []; omega)) (by first | omega | (simp only []; omega)), ok_bind]
  simp only []
  rw [readU64_writeU64_disj _ _ _ _ (by omega), hcv]
  rw [ld_ok (by omega) (by first | omega | (simp only []; omega)) (by first | omega | (simp only []; omega)), ok_bind]
  simp only []
  rw [readU64_writeU64_disj _ _ _ _ (by omega)]
  rw [st_ok0 (by omega) (by first | omega | (simp only []; omega)) (by first | omega | (simp only []; omega)), ok_bind]
  rw [ld_ok hb (by first | omega | (simp only []; omega)) (by first | omega | (simp only []; omega)), ok_bind]
  simp only []
  rw [readU64_writeU64_disj _ _ _ _ (by omega), readU64_writeU64_same _ _ _ hp64]
  rw [st_ok (by omega) (by first | omega | (simp only []; omega)) (by first | omega | (simp only []; omega)), ok_bind]
  simp only []
  generalize hm2 : writeU64 (writeU64 (writeU64 r.mem (r.base + 16) p) cell (readU64 r.mem (p + 8)))
    (p + 8) (readU64 r.mem (r.base + 16)) = m2
  -- what the three stores did
  have hfr : NextFrame r.base ((L1 ++ p :: L2) ++ ul) r.mem m2 := by
    intro x hx1 hx2
    rw [← hm2]
    have hxp := hx2 p hpm
    rw [writeU64_out _ _ _ _ (by omega)]
    have hxc : x < cell ∨ cell + 8 ≤ x := by
      rcases hcell with e | ⟨c, hc, e⟩
      · omega
      · have := hx2 c (by simp [hc]); omega
    rw [writeU64_out _ _ _ _ hxc, writeU64_out _ _ _ _ (by omega)]
  have hsz := h.size_frame hfr
  have hused : readU64 m2 (r.base + 16) = p := by
    rw [← hm2, readU64_writeU64_disj _ _ _ _ (by omega), readU64_writeU64_disj _ _ _ _ (by omega),
      readU64_writeU64_same _ _ _ hp64]
  have hpn : readU64 m2 (p + 8) = readU64 r.mem (r.base + 16) := by
    rw [← hm2, readU64_writeU64_same _ _ _ hu0]
  have hcn : readU64 m2 cell = readU64 r.mem (p + 8) := by
    rw [← hm2, readU64_writeU64_disj _ _ _ _ (by omega), readU64_writeU64_same _ _ _ hnx]
  -- next fields of the other chunks
  have hnext : ∀ d ∈ (L1 ++ p :: L2) ++ ul, d ≠ p → d + 8 ≠ cell →
      readU64 m2 (d + 8) = readU64 r.mem (d + 8) := by
    intro d hd hdp hdc
    have h1 := h.inside d hd
    have h2 := h.sep d hd p hpm hdp
    have hdcell : d + 16 ≤ cell ∨ cell + 8 ≤ d + 8 := by
      rcases hcell with e | ⟨c, hc, e⟩
      · omega
      · have hcm : c ∈ (L1 ++ p :: L2) ++ ul := by simp [hc]
        have hne : d ≠ c := by rintro rfl; omega
        have := h.sep d hd c hcm hne
        omega
    rw [← hm2, readU64_writeU64_disj _ _ _ _ (by omega), readU64_writeU64_disj _ _ _ _ (by omega),
      readU64_writeU64_disj _ _ _ _ (by omega)]
  have hndf := (List.nodup_append.1 hnd).1
  have hdisj := (List.nodup_append.1 hnd).2.2
  have hperm : ((L1 ++ L2) ++ (p :: ul)).Perm ((L1 ++ p :: L2) ++ ul) := by
    simp only [List.append_assoc]
    apply List.Perm.append_left
    exact List.perm_middle
  refine ⟨_, rfl, rfl, rfl, ?_, hfr⟩
  refine ⟨hb, hnw, hhdr, ?_, ?_, ?_, ?_, ?_⟩
  · -- free list
    show Lst m2 (readU64 m2 (r.base + 8)) (L1 ++ L2) 0
    apply Lst_unlink p 0 L2 L1 (r.base + 8) h.free_list hndf
    · intro d hd e
      have hdm : d ∈ (L1 ++ p :: L2) ++ ul := by
        simp only [List.mem_append, List.mem_cons] at hd ⊢
        rcases hd with h | h
        · exact Or.inl (Or.inl h)
        · exact Or.inl (Or.inr (Or.inr h))
      have := h.inside d hdm
      omega
    · rw [hce]; exact hcn
    · intro d hd hdc
      rw [hce] at hdc
      have hdm : d ∈ (L1 ++ p :: L2) ++ ul := by
        simp only [List.mem_append, List.mem_cons] at hd ⊢
        rcases hd with h | h
        · exact Or.inl (Or.inl h)
        · exact Or.inl (Or.inr (Or.inr h))
      have hdp : d ≠ p := by
        rintro rfl
        have := List.nodup_middle.1 hndf
        simp only [List.nodup_cons] at this
        exact this.1 hd
      exact hnext d hdm hdp hdc
    · intro hne
      rw [hce] at hne
      have : r.base + 24 ≤ cell := by
        rcases hcell with e | ⟨c, hc, e⟩
        · exact absurd e hne
        · have := hL1 c hc; omega
      rw [← hm2, readU64_writeU64_disj _ _ _ _ (by omega), readU64_writeU64_disj _ _ _ _ (by omega),
        readU64_writeU64_disj _ _ _ _ (by omega)]
  · -- used list
    show Lst m2 (readU64 m2 (r.base + 16)) (p :: ul) 0
    rw [hused]
    refine ⟨rfl, by omega, ?_⟩
    rw [hpn]
    refine Lst_frame ul _ _ ?_ h.used_list
    intro d hd
    have hdm : d ∈ (L1 ++ p :: L2) ++ ul := by simp [hd]
    have hdp : d ≠ p := by
      rintro rfl
      exact hdisj (List.mem_append_right _ (List.mem_cons_self _ _)) hd
    apply hnext d hdm hdp
    rcases hcell with e | ⟨c, hc, e⟩
    · have := h.inside d hdm; omega
    · intro e2
      have : d = c := by omega
      subst this
      exact hdisj (List.mem_append_left _ hc) hd
  · -- inside
    intro c hc
    have hcm : c ∈ (L1 ++ p :: L2) ++ ul := hperm.mem_iff.1 hc
    show r.base + 24 ≤ c ∧ c + 16 + readU64 m2 c ≤ r.base + r.cap
    rw [hsz c hcm]
    exact h.inside c hcm
  · -- nodup
    exact hperm.nodup_iff.2 hnd
  · -- sep
    intro c hc d hd hcd
    have hcm : c ∈ (L1 ++ p :: L2) ++ ul := hperm.mem_iff.1 hc
    have hdm : d ∈ (L1 ++ p :: L2) ++ ul := hperm.mem_iff.1 hd
    show c + 16 + readU64 m2 c ≤ d ∨ d + 16 + readU64 m2 d ≤ c
    rw [hsz c hcm, hsz d hdm]
    exact h.sep c hcm d hdm hcd

/-! ## `A_alloc`: splitting the chosen chunk -/

theorem split_WF (r : Region) (l1 l2 ul : List Nat) (p sz : Nat)
    (h : WF r (l1 ++ p :: l2) ul) (hsz : 1 ≤ sz)
    (hs : _A_align sz + 24 ≤ readU64 r.mem p) :
    ∃ r1, _A_split_chunk r p sz = .ok (true, r1) ∧ r1.base = r.base ∧ r1.cap = r.cap ∧
      WF r1 (l1 ++ p :: (p + 16 + _A_align sz) :: l2) ul ∧
      readU64 r1.mem p = _A_align sz ∧
      readU64 r1.mem (p + 16 + _A_align sz) = readU64 r.mem p - 16 - _A_align sz ∧
      (∀ c ∈ (l1 ++ p :: l2) ++ ul, c ≠ p → readU64 r1.mem c = readU64 r.mem c) ∧
      (∀ x, (x < p ∨ p + 16 ≤ x) →
        (x < p + 16 + _A_align sz ∨ p + 16 + _A_align sz + 16 ≤ x) → r1.mem x = r.mem x) := by
  have hb := h.base_ne
  have hnw := h.no_wrap
  have hhdr := h.hdr
  have hpm : p ∈ (l1 ++ p :: l2) ++ ul := by simp
  have hpi := h.inside p hpm
  have hnd := h.nodup
  obtain ⟨r1, hrun, hbase, hcap, hpsz, hpnx, htsz, htnx, hfr⟩ :=
    split_some r p sz (by omega) hsz (by omega) hpi.2 hnw hs
  refine ⟨r1, hrun, hbase, hcap, ?_, hpsz, htsz, ?_, hfr⟩
  · generalize hal : _A_align sz = al at *
    generalize hSe : readU64 r.mem p = S at *
    -- headers of the other chunks are untouched
    have hoth : ∀ c ∈ (l1 ++ p :: l2) ++ ul, c ≠ p →
        readU64 r1.mem c = readU64 r.mem c ∧ readU64 r1.mem (c + 8) = readU64 r.mem (c + 8) ∧
        (c + 16 + readU64 r.mem c ≤ p ∨ p + 16 + S ≤ c) := by
      intro c hc hcp
      have h1 := h.sep c hc p hpm hcp
      rw [hSe] at h1
      refine ⟨?_, ?_, h1⟩
      · apply readU64_congr; intro x hx1 hx2; apply hfr x <;> omega
      · apply readU64_congr; intro x hx1 hx2; apply hfr x <;> omega
    have hfl := (Lst_append l1 (p :: l2) _ 0).1 h.free_list
    simp only [List.headD_cons] at hfl
    obtain ⟨hfl1, _, hp0, hfl2⟩ := hfl
    have hndf := (List.nodup_append.1 hnd).1
    have hdisj := (List.nodup_append.1 hnd).2.2
    have hpl1 : p ∉ l1 := fun hm =>
      (List.nodup_append.1 hndf).2.2 hm (List.mem_cons_self _ _)
    have hpl2 : p ∉ l2 := (List.nodup_cons.1 (List.nodup_append.1 hndf).2.1).1
    have hpul : p ∉ ul := fun hm => hdisj (by simp) hm
    have hmem : ∀ c, c ∈ (l1 ++ p :: (p + 16 + al) :: l2) ++ ul →
        c = p ∨ c = p + 16 + al ∨ (c ∈ (l1 ++ p :: l2) ++ ul ∧ c ≠ p) := by
      intro c hc
      simp only [List.mem_append, List.mem_cons] at hc ⊢
      by_cases hcp : c = p
      · exact Or.inl hcp
      · rcases hc with (h1 | h1 | h1 | h1) | h1
        · exact Or.inr (Or.inr ⟨Or.inl (Or.inl h1), hcp⟩)
        · exact absurd h1 hcp
        · exact Or.inr (Or.inl h1)
        · exact Or.inr (Or.inr ⟨Or.inl (Or.inr (Or.inr h1)), hcp⟩)
        · exact Or.inr (Or.inr ⟨Or.inr h1, hcp⟩)
    have htnew : p + 16 + al ∉ (l1 ++ p :: l2) ++ ul := by
      intro hm
      have h1 := h.sep _ hm p hpm (by omega)
      have h2 := h.inside _ hm
      rw [hSe] at h1
      omega
    refine ⟨by rw [hbase]; exact hb, by rw [hbase, hcap]; exact hnw, by rw [hcap]; exact hhdr,
      ?_, ?_, ?_, ?_, ?_⟩
    · -- free list
      have hf : readU64 r1.mem (r1.base + 8) = readU64 r.mem (r.base + 8) := by
        rw [hbase]; apply readU64_congr; intro x hx1 hx2; apply hfr x <;> omega
      rw [hf]
      refine (Lst_append l1 _ _ 0).2 ⟨?_, ?_⟩
      · simp only [List.headD_cons]
        refine Lst_frame l1 _ _ ?_ hfl1
        intro c hc
        exact (hoth c (by simp [hc]) (fun e => hpl1 (e ▸ hc))).2.1
      · simp only [List.headD_cons]
        refine ⟨rfl, hp0, ?_⟩
        rw [hpnx]
        refine ⟨rfl, by omega, ?_⟩
        rw [htnx]
        refine Lst_frame l2 _ _ ?_ hfl2
        intro c hc
        exact (hoth c (by simp [hc]) (fun e => hpl2 (e ▸ hc))).2.1
    · -- used list
      have hu : readU64 r1.mem (r1.base + 16) = readU64 r.mem (r.base + 16) := by
        rw [hbase]; apply readU64_congr; intro x hx1 hx2; apply hfr x <;> omega
      rw [hu]
      refine Lst_frame ul _ _ ?_ h.used_list
      intro c hc
      exact (hoth c (by simp [hc]) (fun e => hpul (e ▸ hc))).2.1
    · -- inside
      intro c hc
      rw [hbase, hcap]
      rcases hmem c hc with rfl | rfl | ⟨hc1, hc2⟩
      · rw [hpsz]; omega
      · rw [htsz]; omega
      · rw [(hoth c hc1 hc2).1]; exact h.inside c hc1
    · -- nodup
      have hperm : ((l1 ++ p :: (p + 16 + al) :: l2) ++ ul).Perm
          ((p + 16 + al) :: ((l1 ++ p :: l2) ++ ul)) := by
        rw [← List.cons_append]
        have : (l1 ++ p :: (p + 16 + al) :: l2).Perm (l1 ++ (p + 16 + al) :: p :: l2) :=
          List.Perm.append_left l1 (List.Perm.swap _ _ _)
        exact List.Perm.append_right ul (this.trans List.perm_middle)
      exact hperm.nodup_iff.2 (List.nodup_cons.2 ⟨htnew, hnd⟩)
    · -- sep
      intro c hc d hd hcd
      rcases hmem c hc with rfl | rfl | ⟨hc1, hc2⟩ <;>
        rcases hmem d hd with rfl | rfl | ⟨hd1, hd2⟩
      · exact absurd rfl hcd
      · rw [hpsz, htsz]; omega
      · rw [hpsz, (hoth d hd1 hd2).1]; have := (hoth d hd1 hd2).2.2; omega
      · rw [hpsz, htsz]; omega
      · exact absurd rfl hcd
      · rw [htsz, (hoth d hd1 hd2).1]; have := (hoth d hd1 hd2).2.2; omega
      · rw [hpsz, (hoth c hc1 hc2).1]; have := (hoth c hc1 hc2).2.2; omega
      · rw [htsz, (hoth c hc1 hc2).1]; have := (hoth c hc1 hc2).2.2; omega
      · rw [(hoth c hc1 hc2).1, (hoth d hd1 hd2).1]; exact h.sep c hc1 d hd1 hcd
  · intro c hc hcp
    have h1 := h.sep c hc p hpm hcp
    apply readU64_congr; intro x hx1 hx2; apply hfr x <;> omega

/-! ## `A_alloc` -/

theorem WF.free_bounds {r : Region} {fl ul : List Nat} (h : WF r fl ul) :
    ∀ c ∈ fl, r.base ≤ c ∧ c + 16 ≤ r.base + r.cap := by
  intro c hc
  have := h.inside c (List.mem_append_left _ hc)
  omega

theorem WF.used_bounds {r : Region} {fl ul : List Nat} (h : WF r fl ul) :
    ∀ c ∈ ul, r.base ≤ c ∧ c + 16 ≤ r.base + r.cap := by
  intro c hc
  have := h.inside c (List.mem_append_right _ hc)
  omega

/-- No free chunk is large enough: `A_alloc` returns `NULL` and changes nothing. -/
theorem A_alloc_none (fuel : Nat) (r : Region) (fl ul : List Nat) (sz : Nat)
    (h : WF r fl ul) (hsz : 1 ≤ sz)
    (hsm : ∀ c ∈ fl, readU64 r.mem c < _A_align sz) (hfuel : fl.length < fuel) :
    A_alloc fuel r sz = .ok (0, r) := by
  have hb := h.base_ne
  have hhdr := h.hdr
  have hscan := A_alloc_scan_ok r (_A_align sz) fl [] fuel (r.base + 8) (by omega) (by omega)
    (by omega) (by rw [List.append_nil]; exact h.free_list)
    (by rw [List.append_nil]; exact h.free_bounds) hsm (by simp) hfuel
  have hcv : readU64 r.mem (lastCell (r.base + 8) fl) = 0 :=
    readU64_lastCell fl [] (r.base + 8) 0 (by rw [List.append_nil]; exact h.free_list)
  have hcell := lastCell_mem fl (r.base + 8)
  have hc1 : r.base + 8 ≤ lastCell (r.base + 8) fl ∧
      lastCell (r.base + 8) fl + 8 ≤ r.base + r.cap := by
    rcases hcell with e | ⟨c, hc, e⟩
    · omega
    · have := h.free_bounds c hc; omega
  unfold A_alloc
  rw [if_neg (by omega), hscan, ok_bind, ld_ok0 (by omega) (by omega) (by omega), ok_bind, hcv,
    if_pos rfl]
  rfl

/-- The common first part of a successful `A_alloc`: the scan stops at the first chunk
that is large enough. -/
theorem A_alloc_found (fuel : Nat) (r : Region) (l1 l2 ul : List Nat) (p sz : Nat)
    (h : WF r (l1 ++ p :: l2) ul) (hsz : 1 ≤ sz)
    (hsm : ∀ c ∈ l1, readU64 r.mem c < _A_align sz)
    (hfit : _A_align sz ≤ readU64 r.mem p) (hfuel : l1.length < fuel) :
    A_alloc fuel r sz =
      (_A_split_chunk r p sz >>= fun x => A_alloc_link x.2 (lastCell (r.base + 8) l1)) := by
  have hb := h.base_ne
  have hhdr := h.hdr
  have hscan := A_alloc_scan_ok r (_A_align sz) l1 (p :: l2) fuel (r.base + 8) (by omega)
    (by omega) (by omega) h.free_list h.free_bounds hsm
    (by intro c hc; simp at hc; subst hc; omega) hfuel
  have hcv : readU64 r.mem (lastCell (r.base + 8) l1) = p :=
    readU64_lastCell l1 (p :: l2) (r.base + 8) 0 h.free_list
  have hcell := lastCell_mem l1 (r.base + 8)
  have hc1 : r.base + 8 ≤ lastCell (r.base + 8) l1 ∧
      lastCell (r.base + 8) l1 + 8 ≤ r.base + r.cap := by
    rcases hcell with e | ⟨c, hc, e⟩
    · omega
    · have := h.free_bounds c (by simp [hc]); omega
  have hp0 : p ≠ 0 := h.mem_ne_zero (c := p) (by simp)
  unfold A_alloc
  rw [if_neg (by omega), hscan, ok_bind, ld_ok0 (by omega) (by omega) (by omega), ok_bind, hcv,
    if_neg hp0]

/-- The chosen chunk is too small to be split: it moves to the used list whole. -/
theorem A_alloc_whole (r : Region) (l1 l2 ul : List Nat) (p sz : Nat)
    (h : WF r (l1 ++ p :: l2) ul) (hsz : 1 ≤ sz)
    (hsm : ∀ c ∈ l1, readU64 r.mem c < _A_align sz)
    (hfit : _A_align sz ≤ readU64 r.mem p) (hns : readU64 r.mem p < _A_align sz + 24) :
    ∃ r2, (∀ fuel, l1.length < fuel → A_alloc fuel r sz = .ok (p + 16, r2)) ∧
      r2.base = r.base ∧ r2.cap = r.cap ∧
      WF r2 (l1 ++ l2) (p :: ul) ∧
      NextFrame r.base ((l1 ++ p :: l2) ++ ul) r.mem r2.mem := by
  have hpi := h.inside p (by simp)
  have hnw := h.no_wrap
  have hp0 : p ≠ 0 := h.mem_ne_zero (c := p) (by simp)
  obtain ⟨r2, hrun, hrest⟩ := A_alloc_link_ok r l1 l2 ul p h
  refine ⟨r2, ?_, hrest⟩
  intro fuel hfuel
  rw [A_alloc_found fuel r l1 l2 ul p sz h hsz hsm hfit hfuel,
    split_none r p sz hp0 hsz (by omega) hpi.2 (by omega) hns, ok_bind]
  exact hrun

/-- The chosen chunk is split: it keeps the aligned request size, the rest becomes a new
free chunk at its place in the free list. -/
theorem A_alloc_split (r : Region) (l1 l2 ul : List Nat) (p sz : Nat)
    (h : WF r (l1 ++ p :: l2) ul) (hsz : 1 ≤ sz)
    (hsm : ∀ c ∈ l1, readU64 r.mem c < _A_align sz)
    (hs : _A_align sz + 24 ≤ readU64 r.mem p) :
    ∃ r2, (∀ fuel, l1.length < fuel → A_alloc fuel r sz = .ok (p + 16, r2)) ∧
      r2.base = r.base ∧ r2.cap = r.cap ∧
      WF r2 (l1 ++ (p + 16 + _A_align sz) :: l2) (p :: ul) ∧
      readU64 r2.mem p = _A_align sz ∧
      readU64 r2.mem (p + 16 + _A_align sz) = readU64 r.mem p - 16 - _A_align sz ∧
      (∀ c ∈ (l1 ++ p :: l2) ++ ul, c ≠ p → readU64 r2.mem c = readU64 r.mem c) ∧
      (∀ x, (x < r.base ∨ r.base + 24 ≤ x) →
        (∀ c ∈ (l1 ++ p :: l2) ++ ul, x < c ∨ c + 16 ≤ x) →
        (x < p + 16 + _A_align sz ∨ p + 16 + _A_align sz + 16 ≤ x) → r2.mem x = r.mem x) := by
  obtain ⟨r1, hrun, hbase, hcap, hwf1, hpsz, htsz, hoth, hfr1⟩ :=
    split_WF r l1 l2 ul p sz h hsz hs
  obtain ⟨r2, hrun2, hbase2, hcap2, hwf2, hfr2⟩ :=
    A_alloc_link_ok r1 l1 ((p + 16 + _A_align sz) :: l2) ul p hwf1
  have hsz2 := hwf1.size_frame hfr2
  refine ⟨r2, ?_, by rw [hbase2, hbase], by rw [hcap2, hcap], hwf2, ?_, ?_, ?_, ?_⟩
  · intro fuel hfuel
    rw [A_alloc_found fuel r l1 l2 ul p sz h hsz hsm (by omega) hfuel, hrun, ok_bind]
    rw [← hbase]
    exact hrun2
  · rw [hsz2 p (by simp), hpsz]
  · rw [hsz2 _ (by simp), htsz]
  · intro c hc hcp
    have hc1 : c ∈ (l1 ++ p :: (p + 16 + _A_align sz) :: l2) ++ ul := by
      simp only [List.mem_append, List.mem_cons] at hc ⊢
      rcases hc with (h1 | h1 | h1) | h1
      · exact Or.inl (Or.inl h1)
      · exact Or.inl (Or.inr (Or.inl h1))
      · exact Or.inl (Or.inr (Or.inr (Or.inr h1)))
      · exact Or.inr h1
    rw [hsz2 c hc1, hoth c hc hcp]
  · intro x hx1 hx2 hx3
    have hxp := hx2 p (by simp)
    rw [hfr2 x (by rw [hbase]; exact hx1), hfr1 x hxp hx3]
    intro c hc
    simp only [List.mem_append, List.mem_cons] at hc
    rcases hc with (h1 | h1 | h1 | h1) | h1
    · have := hx2 c (by simp [h1]); omega
    · subst h1; omega
    · subst h1; omega
    · have := hx2 c (by simp [h1]); omega
    · have := hx2 c (by simp [h1]); omega

/-! ## `A_create` -/

theorem A_create_ok (m0 : Mem) (a sz : Nat) (ha : a ≠ 0) (hsz : 40 ≤ sz)
    (hnw : a + sz < 2 ^ 64) : A_create m0 a sz = .ok (some (created m0 a sz)) := by
  unfold A_create
  rw [if_neg ha]
  simp only []
  rw [st_ok0 ha (by first | omega | (simp only []; omega)) (by first | omega | (simp only []; omega)), ok_bind]
  rw [st_ok ha (by first | omega | (simp only []; omega)) (by first | omega | (simp only []; omega)), ok_bind]
  rw [st_ok ha (by first | omega | (simp only []; omega)) (by first | omega | (simp only []; omega)), ok_bind]
  rw [ld_ok ha (by first | omega | (simp only []; omega)) (by first | omega | (simp only []; omega)), ok_bind]
  simp only []
  rw [readU64_writeU64_disj _ _ _ _ (by omega), readU64_writeU64_same _ _ _ (by omega)]
  rw [st_ok0 (by omega) (by first | omega | (simp only []; omega)) (by first | omega | (simp only []; omega)), ok_bind]
  rw [ld_ok ha (by first | omega | (simp only []; omega)) (by first | omega | (simp only []; omega)), ok_bind]
  simp only []
  rw [readU64_writeU64_disj _ _ _ _ (by omega), readU64_writeU64_disj _ _ _ _ (by omega),
    readU64_writeU64_same _ _ _ (by omega)]
  rw [st_ok (by omega) (by first | omega | (simp only []; omega)) (by first | omega | (simp only []; omega)), ok_bind]
  rw [sub64_eq sz 24 (by omega) (by omega), sub64_eq _ 16 (by omega) (by omega)]
  rfl

theorem created_free (m0 : Mem) (a sz : Nat) (hsz : 40 ≤ sz) (hnw : a + sz < 2 ^ 64) :
    readU64 (created m0 a sz).mem (a + 8) = a + 24 := by
  unfold created
  simp only []
  rw [readU64_writeU64_disj _ _ _ _ (by omega), readU64_writeU64_disj _ _ _ _ (by omega),
    readU64_writeU64_disj _ _ _ _ (by omega), readU64_writeU64_same _ _ _ (by omega)]

theorem created_used (m0 : Mem) (a sz : Nat) :
    readU64 (created m0 a sz).mem (a + 16) = 0 := by
  unfold created
  simp only []
  rw [readU64_writeU64_disj _ _ _ _ (by omega), readU64_writeU64_disj _ _ _ _ (by omega),
    readU64_writeU64_same _ _ _ (by omega)]

theorem created_size (m0 : Mem) (a sz : Nat) (hnw : a + sz < 2 ^ 64) :
    readU64 (created m0 a sz).mem (a + 24) = sz - 40 := by
  unfold created
  simp only []
  rw [readU64_writeU64_disj _ _ _ _ (by omega), readU64_writeU64_same _ _ _ (by omega)]

theorem created_next (m0 : Mem) (a sz : Nat) :
    readU64 (created m0 a sz).mem (a + 24 + 8) = 0 := by
  unfold created
  simp only []
  rw [readU64_writeU64_same _ _ _ (by omega)]

theorem created_frame (m0 : Mem) (a sz x : Nat) (hx : x < a ∨ a + 40 ≤ x) :
    (created m0 a sz).mem x = m0 x := by
  unfold created
  simp only []
  rw [writeU64_out _ _ _ _ (by omega), writeU64_out _ _ _ _ (by omega),
    writeU64_out _ _ _ _ (by omega), writeU64_out _ _ _ _ (by omega),
    writeU64_out _ _ _ _ (by omega)]

theorem created_WF (m0 : Mem) (a sz : Nat) (ha : a ≠ 0) (hsz : 40 ≤ sz)
    (hnw : a + sz < 2 ^ 64) : WF (created m0 a sz) [a + 24] [] := by
  have hf := created_free m0 a sz hsz hnw
  have hu := created_used m0 a sz
  have hs := created_size m0 a sz hnw
  have hn := created_next m0 a sz
  refine ⟨ha, hnw, by show 24 ≤ sz; omega, ?_, ?_, ?_, by simp, ?_⟩
  · show Lst _ (readU64 _ (a + 8)) [a + 24] 0
    rw [hf]
    exact ⟨rfl, by omega, hn⟩
  · show Lst _ (readU64 _ (a + 16)) [] 0
    rw [hu]; rfl
  · intro c hc
    simp only [List.append_nil, List.mem_singleton] at hc
    subst hc
    show a + 24 ≤ a + 24 ∧ a + 24 + 16 + readU64 _ (a + 24) ≤ a + sz
    rw [hs]; omega
  · intro c hc d hd hcd
    simp only [List.append_nil, List.mem_singleton] at hc hd
    omega

/-! ## `A_free` -/

theorem A_free_scan_succ (r : Region) (ptr fuel c : Nat) :
    A_free_scan r ptr (fuel + 1) c =
      (ld r c 0 >>= fun p => if p = 0 then pure c
        else if p + 16 ≠ ptr then A_free_scan r ptr fuel (p + 8) else pure c) := rfl

theorem A_free_scan_ok (r : Region) (ptr : Nat) : ∀ (u1 u2 : List Nat) (fuel cell : Nat),
    cell ≠ 0 → r.base ≤ cell → cell + 8 ≤ r.base + r.cap →
    Lst r.mem (readU64 r.mem cell) (u1 ++ u2) 0 →
    (∀ c ∈ u1, r.base ≤ c ∧ c + 16 ≤ r.base + r.cap) →
    (∀ c ∈ u1, c + 16 ≠ ptr) →
    (∀ c, u2.head? = some c → c + 16 = ptr) →
    u1.length < fuel →
    A_free_scan r ptr fuel cell = .ok (lastCell cell u1) := by
  intro u1
  induction u1 with
  | nil =>
    intro u2 fuel cell hc0 hc1 hc2 hl _ _ hhit hfuel
    obtain ⟨fuel, rfl⟩ : ∃ k, fuel = k + 1 := ⟨fuel - 1, by simp at hfuel; omega⟩
    rw [List.nil_append] at hl
    rw [A_free_scan_succ, ld_ok0 hc0 (by omega) (by omega), ok_bind, lastCell_nil]
    cases u2 with
    | nil =>
      have hl : readU64 r.mem cell = 0 := hl
      rw [hl, if_pos rfl]; rfl
    | cons p u2 =>
      obtain ⟨h1, h2, _⟩ := hl
      rw [h1, if_neg h2, if_neg (by rw [hhit p rfl]; simp)]
      rfl
  | cons c cs ih =>
    intro u2 fuel cell hc0 hc1 hc2 hl hin hne hhit hfuel
    obtain ⟨fuel, rfl⟩ : ∃ k, fuel = k + 1 := ⟨fuel - 1, by simp at hfuel; omega⟩
    obtain ⟨h1, h2, h3⟩ := hl
    have hp := hin c (List.mem_cons_self _ _)
    rw [A_free_scan_succ, ld_ok0 hc0 (by omega) (by omega), ok_bind,
      h1, if_neg h2, if_pos (hne c (List.mem_cons_self _ _)), lastCell_cons]
    apply ih u2 fuel (c + 8) (by omega) (by omega) (by omega) h3
    · intro d hd; exact hin d (List.mem_cons_of_mem _ hd)
    · intro d hd; exact hne d (List.mem_cons_of_mem _ hd)
    · exact hhit
    · simp at hfuel; omega

theorem A_free_last_succ (r : Region) (fuel free : Nat) :
    A_free_last r (fuel + 1) free =
      if free = 0 then pure free else
        (ld r free 8 >>= fun n => if n ≠ 0 then A_free_last r fuel n else pure free) := rfl

theorem A_free_last_ok (r : Region) : ∀ (l : List Nat) (fuel f c : Nat),
    Lst r.mem f (l ++ [c]) 0 →
    (∀ d ∈ l ++ [c], r.base ≤ d ∧ d + 16 ≤ r.base + r.cap) →
    l.length < fuel →
    A_free_last r fuel f = .ok c := by
  intro l
  induction l with
  | nil =>
    intro fuel f c hl hin hfuel
    obtain ⟨fuel, rfl⟩ : ∃ k, fuel = k + 1 := ⟨fuel - 1, by simp at hfuel; omega⟩
    obtain ⟨h1, h2, h3⟩ := hl
    have h3 : readU64 r.mem (c + 8) = 0 := h3
    have hc := hin c (by simp)
    subst h1
    rw [A_free_last_succ, if_neg h2, ld_ok h2 (by omega) (by omega), ok_bind, h3,
      if_neg (by simp)]
    rfl
  | cons d ds ih =>
    intro fuel f c hl hin hfuel
    obtain ⟨fuel, rfl⟩ : ∃ k, fuel = k + 1 := ⟨fuel - 1, by simp at hfuel; omega⟩
    obtain ⟨h1, h2, h3⟩ := hl
    have hd := hin d (by simp)
    subst h1
    have hn : readU64 r.mem (f + 8) ≠ 0 := by
      have e := Lst_head h3
      have hne := Lst_ne_zero _ _ _ h3
      cases ds with
      | nil => rw [e]; exact hne c (by simp)
      | cons x xs => rw [e]; exact hne x (by simp)
    rw [A_free_last_succ, if_neg h2, ld_ok h2 (by omega) (by omega), ok_bind, if_pos hn]
    apply ih fuel _ c h3
    · intro x hx; exact hin x (List.mem_cons_of_mem _ hx)
    · simp at hfuel; omega

/-- The scan of the used list for an address that no used chunk has as its data
address ends at the null link. -/
theorem A_free_noop (fuel : Nat) (r : Region) (fl ul : List Nat) (ptr : Nat)
    (h : WF r fl ul) (hno : ∀ c ∈ ul, c + 16 ≠ ptr) (hfuel : ul.length < fuel) :
    A_free fuel r ptr = .ok r := by
  have hb := h.base_ne
  have hhdr := h.hdr
  unfold A_free
  by_cases hp : ptr = 0
  · rw [if_pos (Or.inr hp)]; rfl
  rw [if_neg (by omega)]
  have hscan := A_free_scan_ok r ptr ul [] fuel (r.base + 16) (by omega) (by omega)
    (by omega) (by rw [List.append_nil]; exact h.used_list) h.used_bounds hno (by simp) hfuel
  have hcv : readU64 r.mem (lastCell (r.base + 16) ul) = 0 :=
    readU64_lastCell ul [] (r.base + 16) 0 (by rw [List.append_nil]; exact h.used_list)
  have hc1 : r.base + 8 ≤ lastCell (r.base + 16) ul ∧
      lastCell (r.base + 16) ul + 8 ≤ r.base + r.cap := by
    rcases lastCell_mem ul (r.base + 16) with e | ⟨c, hc, e⟩
    · omega
    · have := h.used_bounds c hc; omega
  rw [hscan, ok_bind, ld_ok0 (by omega) (by omega) (by omega), ok_bind, hcv, if_pos rfl]
  rfl

/-- The part of `A_free` up to the second loop, for an address that is the data address
of the used chunk `p`. -/
theorem A_free_found (fuel : Nat) (r : Region) (fl u1 u2 : List Nat) (p : Nat)
    (h : WF r fl (u1 ++ p :: u2)) (hfuel : u1.length < fuel) :
    A_free fuel r (p + 16) =
      (A_free_last r fuel (readU64 r.mem (r.base + 8)) >>= fun free =>
        ld r (lastCell (r.base + 16) u1) 0 >>= fun q =>
        st r free 8 q >>= fun r1 =>
        ld r1 (lastCell (r.base + 16) u1) 0 >>= fun q =>
        ld r1 q 8 >>= fun nx =>
        st r1 (lastCell (r.base + 16) u1) 0 nx >>= fun r2 =>
        ld r2 free 8 >>= fun fn =>
        st r2 fn 8 0 >>= fun r3 => pure r3) := by
  have hb := h.base_ne
  have hhdr := h.hdr
  have hnd := (List.nodup_append.1 h.nodup).2.1
  have hub : ∀ c ∈ u1, r.base ≤ c ∧ c + 16 ≤ r.base + r.cap := by
    intro c hc; exact h.used_bounds c (by simp [hc])
  have hscan := A_free_scan_ok r (p + 16) u1 (p :: u2) fuel (r.base + 16) (by omega) (by omega)
    (by omega) h.used_list hub
    (by
      intro c hc e
      have : c = p := by omega
      subst this
      exact (List.nodup_append.1 hnd).2.2 hc (List.mem_cons_self _ _))
    (by intro c hc; simp at hc; subst hc; rfl) hfuel
  have hcv : readU64 r.mem (lastCell (r.base + 16) u1) = p :=
    readU64_lastCell u1 (p :: u2) (r.base + 16) 0 h.used_list
  have hc1 : r.base + 8 ≤ lastCell (r.base + 16) u1 ∧
      lastCell (r.base + 16) u1 + 8 ≤ r.base + r.cap := by
    rcases lastCell_mem u1 (r.base + 16) with e | ⟨c, hc, e⟩
    · omega
    · have := hub c hc; omega
  have hp0 : p ≠ 0 := h.mem_ne_zero (c := p) (by simp)
  unfold A_free
  rw [if_neg (by omega), hscan, ok_bind, ld_ok0 (by omega) (by omega) (by omega), ok_bind, hcv,
    if_neg hp0, ld_ok hb (by omega) (by omega), ok_bind]

/-- With an empty free list `A_free` writes through the null pointer
(`free->next = *c` with `free == NULL`, arena.h:222). -/
theorem A_free_empty (fuel : Nat) (r : Region) (u1 u2 : List Nat) (p : Nat)
    (h : WF r [] (u1 ++ p :: u2)) (hfuel : u1.length < fuel) :
    A_free fuel r (p + 16) = .error .nullDeref := by
  have hb := h.base_ne
  have hhdr := h.hdr
  have hub : ∀ c ∈ u1, r.base ≤ c ∧ c + 16 ≤ r.base + r.cap := by
    intro c hc; exact h.used_bounds c (by simp [hc])
  have hc1 : r.base + 8 ≤ lastCell (r.base + 16) u1 ∧
      lastCell (r.base + 16) u1 + 8 ≤ r.base + r.cap := by
    rcases lastCell_mem u1 (r.base + 16) with e | ⟨c, hc, e⟩
    · omega
    · have := hub c hc; omega
  have hf : readU64 r.mem (r.base + 8) = 0 := h.free_list
  obtain ⟨fuel, rfl⟩ : ∃ k, fuel = k + 1 := ⟨fuel - 1, by omega⟩
  rw [A_free_found (fuel + 1) r [] u1 u2 p h hfuel, hf, A_free_last_succ, if_pos rfl]
  show (Except.ok 0 >>= _) = _
  rw [ok_bind, ld_ok0 (by omega) (by omega) (by omega), ok_bind, st_null, err_bind]

/-- With a non-empty free list `A_free` moves the chunk from the used list to the end of
the free list; only `next` fields and `a->used` are written. -/
theorem A_free_ok (r : Region) (fl u1 u2 : List Nat) (p : Nat)
    (h : WF r fl (u1 ++ p :: u2)) (hne : fl ≠ []) :
    ∃ r2, (∀ fuel, u1.length < fuel → fl.length ≤ fuel → A_free fuel r (p + 16) = .ok r2) ∧
      r2.base = r.base ∧ r2.cap = r.cap ∧
      WF r2 (fl ++ [p]) (u1 ++ u2) ∧
      NextFrame r.base (fl ++ (u1 ++ p :: u2)) r.mem r2.mem := by
  have hb := h.base_ne
  have hnw := h.no_wrap
  have hhdr := h.hdr
  have hnd := h.nodup
  have hndu := (List.nodup_append.1 hnd).2.1
  have hndf := (List.nodup_append.1 hnd).1
  have hdisj := (List.nodup_append.1 hnd).2.2
  rcases List.eq_nil_or_concat fl with e | ⟨fl0, last, rfl⟩
  · exact absurd e hne
  rw [List.concat_eq_append] at *
  have hpm : p ∈ (fl0 ++ [last]) ++ (u1 ++ p :: u2) := by simp
  have hlm : last ∈ (fl0 ++ [last]) ++ (u1 ++ p :: u2) := by simp
  have hpi := h.inside p hpm
  have hli := h.inside last hlm
  have hlp : last ≠ p := by
    intro e
    exact hdisj (a := last) (by simp) (by rw [e]; simp)
  have hsep := h.sep last hlm p hpm hlp
  have hcv : readU64 r.mem (lastCell (r.base + 16) u1) = p :=
    readU64_lastCell u1 (p :: u2) (r.base + 16) 0 h.used_list
  have hU1 : ∀ c ∈ u1, r.base + 24 ≤ c ∧ c + 16 ≤ r.base + r.cap ∧
      (c + 16 ≤ p ∨ p + 16 ≤ c) ∧ (c + 16 ≤ last ∨ last + 16 ≤ c) := by
    intro c hc
    have hcm : c ∈ (fl0 ++ [last]) ++ (u1 ++ p :: u2) := by simp [hc]
    have h1 := h.inside c hcm
    have hne1 : c ≠ p := by
      rintro rfl
      exact (List.nodup_append.1 hndu).2.2 hc (List.mem_cons_self _ _)
    have hne2 : c ≠ last := by
      rintro rfl
      exact hdisj (by simp) (List.mem_append_left _ hc)
    have h2 := h.sep c hcm p hpm hne1
    have h3 := h.sep c hcm last hlm hne2
    omega
  have hcell0 : ∀ P : Prop, (lastCell (r.base + 16) u1 = r.base + 16 → P) →
      (∀ c ∈ u1, lastCell (r.base + 16) u1 = c + 8 → P) → P := by
    intro P h1 h2
    rcases lastCell_mem u1 (r.base + 16) with e | ⟨c, hc, e⟩
    · exact h1 e
    · exact h2 c hc e
  have hfound := fun fuel hf => A_free_found fuel r (fl0 ++ [last]) u1 u2 p h hf
  have hlast := fun fuel hf => A_free_last_ok r fl0 fuel (readU64 r.mem (r.base + 8)) last
    h.free_list h.free_bounds hf
  generalize hce : lastCell (r.base + 16) u1 = cell at *
  have hc1 : r.base + 16 ≤ cell ∧ cell + 8 ≤ r.base + r.cap ∧
      (cell + 8 ≤ r.base + 24 ∨ r.base + 24 ≤ cell) ∧ (cell + 8 ≤ p ∨ p + 16 ≤ cell) ∧
      (cell + 8 ≤ last ∨ last + 16 ≤ cell) := by
    apply hcell0
    · intro e; omega
    · intro c hc e; have := hU1 c hc; omega
  have hnx := readU64_lt r.mem (p + 8)
  have hp64 : p < 2 ^ 64 := by omega
  have hrun : ∀ fuel, u1.length < fuel → (fl0 ++ [last]).length ≤ fuel →
      A_free fuel r (p + 16) = .ok { r with mem := writeU64 (writeU64 (writeU64 r.mem
        (last + 8) p) cell (readU64 r.mem (p + 8))) (p + 8) 0 } := by
    intro fuel hf1 hf2
    rw [hfound fuel hf1, hlast fuel (by simp at hf2; omega), ok_bind]
    rw [ld_ok0 (by omega) (by omega) (by omega), ok_bind, hcv]
    rw [st_ok (by omega) (by omega) (by omega), ok_bind]
    rw [ld_ok0 (by omega) (by first | omega | (simp only []; omega)) (by first | omega | (simp only []; omega)), ok_bind]
    simp only []
    rw [readU64_writeU64_disj _ _ _ _ (by omega), hcv]
    rw [ld_ok (by omega) (by first | omega | (simp only []; omega)) (by first | omega | (simp only []; omega)), ok_bind]
    simp only []
    rw [readU64_writeU64_disj _ _ _ _ (by omega)]
    rw [st_ok0 (by omega) (by first | omega | (simp only []; omega)) (by first | omega | (simp only []; omega)), ok_bind]
    rw [ld_ok (by omega) (by first | omega | (simp only []; omega)) (by first | omega | (simp only []; omega)), ok_bind]
    simp only []
    rw [readU64_writeU64_disj _ _ _ _ (by omega), readU64_writeU64_same _ _ _ hp64]
    rw [st_ok (by omega) (by first | omega | (simp only []; omega)) (by first | omega | (simp only []; omega)), ok_bind]
    rfl
  refine ⟨_, hrun, rfl, rfl, ?_⟩
  clear hrun hfound hlast
  simp only []
  generalize hm2 : writeU64 (writeU64 (writeU64 r.mem (last + 8) p) cell (readU64 r.mem (p + 8)))
    (p + 8) 0 = m2
  have hfr : NextFrame r.base ((fl0 ++ [last]) ++ (u1 ++ p :: u2)) r.mem m2 := by
    intro x hx1 hx2
    rw [← hm2]
    have hxp := hx2 p hpm
    have hxl := hx2 last hlm
    rw [writeU64_out _ _ _ _ (by omega)]
    have hxc : x < cell ∨ cell + 8 ≤ x := by
      apply hcell0
      · intro e; omega
      · intro c hc e; have := hx2 c (by simp [hc]); omega
    rw [writeU64_out _ _ _ _ hxc, writeU64_out _ _ _ _ (by omega)]
  have hsz := h.size_frame hfr
  have hfree : readU64 m2 (r.base + 8) = readU64 r.mem (r.base + 8) := by
    rw [← hm2, readU64_writeU64_disj _ _ _ _ (by omega), readU64_writeU64_disj _ _ _ _ (by omega),
      readU64_writeU64_disj _ _ _ _ (by omega)]
  have hln : readU64 m2 (last + 8) = p := by
    rw [← hm2, readU64_writeU64_disj _ _ _ _ (by omega), readU64_writeU64_disj _ _ _ _ (by omega),
      readU64_writeU64_same _ _ _ hp64]
  have hpn : readU64 m2 (p + 8) = 0 := by
    rw [← hm2, readU64_writeU64_same _ _ _ (by omega)]
  have hcn : readU64 m2 cell = readU64 r.mem (p + 8) := by
    rw [← hm2, readU64_writeU64_disj _ _ _ _ (by omega), readU64_writeU64_same _ _ _ hnx]
  have hnext : ∀ d ∈ (fl0 ++ [last]) ++ (u1 ++ p :: u2), d ≠ p → d ≠ last → d + 8 ≠ cell →
      readU64 m2 (d + 8) = readU64 r.mem (d + 8) := by
    intro d hd hdp hdl hdc
    have h1 := h.inside d hd
    have h2 := h.sep d hd p hpm hdp
    have h3 := h.sep d hd last hlm hdl
    have hdcell : d + 16 ≤ cell ∨ cell + 8 ≤ d + 8 := by
      apply hcell0
      · intro e; omega
      · intro c hc e
        have hcm : c ∈ (fl0 ++ [last]) ++ (u1 ++ p :: u2) := by simp [hc]
        have hne : d ≠ c := by rintro rfl; omega
        have := h.sep d hd c hcm hne
        omega
    rw [← hm2, readU64_writeU64_disj _ _ _ _ (by omega), readU64_writeU64_disj _ _ _ _ (by omega),
      readU64_writeU64_disj _ _ _ _ (by omega)]
  have hperm : (((fl0 ++ [last]) ++ [p]) ++ (u1 ++ u2)).Perm
      ((fl0 ++ [last]) ++ (u1 ++ p :: u2)) := by
    rw [List.append_assoc (fl0 ++ [last])]
    apply List.Perm.append_left
    exact (@List.perm_middle _ p u1 u2).symm
  refine ⟨?_, hfr⟩
  refine ⟨hb, hnw, hhdr, ?_, ?_, ?_, ?_, ?_⟩
  · -- free list
    show Lst m2 (readU64 m2 (r.base + 8)) ((fl0 ++ [last]) ++ [p]) 0
    rw [hfree]
    have hold := (Lst_snoc fl0 last _ 0).1 h.free_list
    refine (Lst_snoc _ p _ 0).2 ⟨(Lst_snoc fl0 last _ p).2 ⟨?_, hold.2.1, hln⟩, by omega, hpn⟩
    refine Lst_frame fl0 _ _ ?_ hold.1
    intro d hd
    have hdm : d ∈ (fl0 ++ [last]) ++ (u1 ++ p :: u2) := by simp [hd]
    have hdl : d ≠ last := by
      rintro rfl
      exact (List.nodup_append.1 hndf).2.2 hd (by simp)
    have hdp : d ≠ p := by
      intro e
      exact hdisj (a := d) (by simp [hd]) (by rw [e]; simp)
    apply hnext d hdm hdp hdl
    apply hcell0
    · intro e; have := h.inside d hdm; omega
    · intro c hc e e2
      have : d = c := by omega
      subst this
      exact hdisj (a := d) (by simp [hd]) (by simp [hc])
  · -- used list
    show Lst m2 (readU64 m2 (r.base + 16)) (u1 ++ u2) 0
    apply Lst_unlink p 0 u2 u1 (r.base + 16) h.used_list hndu
    · intro d hd e
      have hdm : d ∈ (fl0 ++ [last]) ++ (u1 ++ p :: u2) := by
        simp only [List.mem_append, List.mem_cons] at hd ⊢
        rcases hd with h | h
        · exact Or.inr (Or.inl h)
        · exact Or.inr (Or.inr (Or.inr h))
      have := h.inside d hdm
      omega
    · rw [hce]; exact hcn
    · intro d hd hdc
      rw [hce] at hdc
      have hdu : d ∈ u1 ++ p :: u2 := by
        simp only [List.mem_append, List.mem_cons] at hd ⊢
        rcases hd with h | h
        · exact Or.inl h
        · exact Or.inr (Or.inr h)
      have hdm : d ∈ (fl0 ++ [last]) ++ (u1 ++ p :: u2) := List.mem_append_right _ hdu
      have hdp : d ≠ p := by
        rintro rfl
        have := List.nodup_middle.1 hndu
        simp only [List.nodup_cons] at this
        exact this.1 hd
      have hdl : d ≠ last := by
        rintro rfl
        exact hdisj (by simp) hdu
      exact hnext d hdm hdp hdl hdc
    · intro hne2
      rw [hce] at hne2
      have : r.base + 24 ≤ cell := by
        apply hcell0
        · intro e; exact absurd e hne2
        · intro c hc e; have := hU1 c hc; omega
      rw [← hm2, readU64_writeU64_disj _ _ _ _ (by omega), readU64_writeU64_disj _ _ _ _ (by omega),
        readU64_writeU64_disj _ _ _ _ (by omega)]
  · intro c hc
    have hcm := hperm.mem_iff.1 hc
    show r.base + 24 ≤ c ∧ c + 16 + readU64 m2 c ≤ r.base + r.cap
    rw [hsz c hcm]
    exact h.inside c hcm
  · exact hperm.nodup_iff.2 hnd
  · intro c hc d hd hcd
    have hcm := hperm.mem_iff.1 hc
    have hdm := hperm.mem_iff.1 hd
    show c + 16 + readU64 m2 c ≤ d ∨ d + 16 + readU64 m2 d ≤ c
    rw [hsz c hcm, hsz d hdm]
    exact h.sep c hcm d hdm hcd

/-! ## `A_realloc` -/

theorem A_realloc_scan_succ (r : Region) (ptr fuel c : Nat) :
    A_realloc_scan r ptr (fuel + 1) c =
      if c = 0 then pure c
      else if c + 16 ≠ ptr then (ld r c 8 >>= fun n => A_realloc_scan r ptr fuel n)
      else pure c := rfl

theorem A_realloc_scan_ok (r : Region) (ptr : Nat) : ∀ (u1 u2 : List Nat) (fuel u : Nat),
    Lst r.mem u (u1 ++ u2) 0 →
    (∀ c ∈ u1, r.base ≤ c ∧ c + 16 ≤ r.base + r.cap) →
    (∀ c ∈ u1, c + 16 ≠ ptr) →
    (∀ c, u2.head? = some c → c + 16 = ptr) →
    u1.length < fuel →
    A_realloc_scan r ptr fuel u = .ok (u2.headD 0) := by
  intro u1
  induction u1 with
  | nil =>
    intro u2 fuel u hl _ _ hhit hfuel
    obtain ⟨fuel, rfl⟩ : ∃ k, fuel = k + 1 := ⟨fuel - 1, by simp at hfuel; omega⟩
    rw [List.nil_append] at hl
    rw [A_realloc_scan_succ]
    cases u2 with
    | nil =>
      have hl : u = 0 := hl
      rw [if_pos hl, hl]; rfl
    | cons p u2 =>
      obtain ⟨h1, h2, _⟩ := hl
      subst h1
      rw [if_neg h2, if_neg (by rw [hhit u rfl]; simp)]
      rfl
  | cons c cs ih =>
    intro u2 fuel u hl hin hne hhit hfuel
    obtain ⟨fuel, rfl⟩ : ∃ k, fuel = k + 1 := ⟨fuel - 1, by simp at hfuel; omega⟩
    obtain ⟨h1, h2, h3⟩ := hl
    subst h1
    have hp := hin u (List.mem_cons_self _ _)
    rw [A_realloc_scan_succ, if_neg h2, if_pos (hne u (List.mem_cons_self _ _)),
      ld_ok h2 (by omega) (by omega), ok_bind]
    apply ih u2 fuel _ h3
    · intro d hd; exact hin d (List.mem_cons_of_mem _ hd)
    · intro d hd; exact hne d (List.mem_cons_of_mem _ hd)
    · exact hhit
    · simp at hfuel; omega

/-- An address that is not the data address of a used chunk: `NULL`, nothing changes. -/
theorem A_realloc_unknown (fuel : Nat) (r : Region) (fl ul : List Nat) (ptr sz : Nat)
    (h : WF r fl ul) (hptr : ptr ≠ 0) (hsz : 1 ≤ sz)
    (hno : ∀ c ∈ ul, c + 16 ≠ ptr) (hfuel : ul.length < fuel) :
    A_realloc fuel r ptr sz = .ok (0, r) := by
  have hb := h.base_ne
  have hhdr := h.hdr
  have hscan := A_realloc_scan_ok r ptr ul [] fuel (readU64 r.mem (r.base + 16))
    (by rw [List.append_nil]; exact h.used_list) h.used_bounds hno (by simp) hfuel
  unfold A_realloc
  rw [if_neg (by omega), ld_ok hb (by omega) (by omega), ok_bind, hscan, ok_bind]
  rfl

/-- The part of `A_realloc` up to the size comparison, for the data address of the used
chunk `p`. -/
theorem A_realloc_found (fuel : Nat) (r : Region) (fl u1 u2 : List Nat) (p sz : Nat)
    (h : WF r fl (u1 ++ p :: u2)) (hsz : 1 ≤ sz) (hfuel : u1.length < fuel) :
    A_realloc fuel r (p + 16) sz =
      if readU64 r.mem p ≥ sz then pure (p + 16, r)
      else (A_alloc fuel r sz >>= fun x =>
        if x.1 = 0 then pure (0, x.2)
        else (memcpy x.2 x.1 (p + 16) sz >>= fun r2 =>
          A_free fuel r2 (p + 16) >>= fun r3 => pure (x.1, r3))) := by
  have hb := h.base_ne
  have hhdr := h.hdr
  have hnd := (List.nodup_append.1 h.nodup).2.1
  have hub : ∀ c ∈ u1, r.base ≤ c ∧ c + 16 ≤ r.base + r.cap := by
    intro c hc; exact h.used_bounds c (by simp [hc])
  have hscan := A_realloc_scan_ok r (p + 16) u1 (p :: u2) fuel (readU64 r.mem (r.base + 16))
    h.used_list hub
    (by
      intro c hc e
      have : c = p := by omega
      subst this
      exact (List.nodup_append.1 hnd).2.2 hc (List.mem_cons_self _ _))
    (by intro c hc; simp at hc; subst hc; rfl) hfuel
  have hp0 : p ≠ 0 := h.mem_ne_zero (c := p) (by simp)
  have hpi := h.inside p (by simp)
  unfold A_realloc
  rw [if_neg (by omega), ld_ok hb (by omega) (by omega), ok_bind, hscan, ok_bind]
  simp only [List.headD_cons]
  rw [if_neg hp0, ld_ok0 hp0 (by omega) (by omega), ok_bind]

/-- The new size fits the chunk: the same address, nothing changes. -/
theorem A_realloc_fits (fuel : Nat) (r : Region) (fl u1 u2 : List Nat) (p sz : Nat)
    (h : WF r fl (u1 ++ p :: u2)) (hsz : 1 ≤ sz) (hfit : sz ≤ readU64 r.mem p)
    (hfuel : u1.length < fuel) :
    A_realloc fuel r (p + 16) sz = .ok (p + 16, r) := by
  rw [A_realloc_found fuel r fl u1 u2 p sz h hsz hfuel, if_pos hfit]
  rfl

/-! ## The partition invariant is kept by every operation -/

theorem first_split {α : Type} (P : α → Prop) [DecidablePred P] : ∀ (l : List α),
    (∀ x ∈ l, ¬ P x) ∨ ∃ l1 p l2, l = l1 ++ p :: l2 ∧ (∀ x ∈ l1, ¬ P x) ∧ P p := by
  intro l
  induction l with
  | nil => left; intro x hx; simp at hx
  | cons a as ih =>
    by_cases ha : P a
    · right; exact ⟨[], a, as, rfl, by simp, ha⟩
    · rcases ih with h | ⟨l1, p, l2, e, h1, h2⟩
      · left
        intro x hx
        rcases List.mem_cons.1 hx with rfl | hx
        · exact ha
        · exact h x hx
      · right
        refine ⟨a :: l1, p, l2, by rw [e]; rfl, ?_, h2⟩
        intro x hx
        rcases List.mem_cons.1 hx with rfl | hx
        · exact ha
        · exact h1 x hx

theorem spanSum_congr {m m2 : Mem} {l : List Nat}
    (h : ∀ c ∈ l, readU64 m2 c = readU64 m c) : spanSum m2 l = spanSum m l := by
  unfold spanSum
  congr 1
  apply List.map_congr_left
  intro c hc
  rw [h c hc]

theorem spanSum_perm {m : Mem} {l l2 : List Nat} (h : l.Perm l2) :
    spanSum m l = spanSum m l2 := by
  unfold spanSum
  exact (h.map _).sum_eq

theorem spanSum_append (m : Mem) (l l2 : List Nat) :
    spanSum m (l ++ l2) = spanSum m l + spanSum m l2 := by
  unfold spanSum
  rw [List.map_append, List.sum_append]

theorem spanSum_cons (m : Mem) (c : Nat) (l : List Nat) :
    spanSum m (c :: l) = 16 + readU64 m c + spanSum m l := by
  unfold spanSum
  rw [List.map_cons, List.sum_cons]

/-- A change of memory that leaves the arena header and all chunk headers alone keeps
the state well formed, with the same lists and sizes. -/
theorem WF.of_hdr_frame {r r2 : Region} {fl ul : List Nat} (h : WF r fl ul)
    (hbase : r2.base = r.base) (hcap : r2.cap = r.cap)
    (hf : ∀ x, (r.base ≤ x ∧ x < r.base + 24) ∨ (∃ c ∈ fl ++ ul, c ≤ x ∧ x < c + 16) →
      r2.mem x = r.mem x) :
    WF r2 fl ul ∧ ∀ c ∈ fl ++ ul, readU64 r2.mem c = readU64 r.mem c := by
  have hsz : ∀ c ∈ fl ++ ul, readU64 r2.mem c = readU64 r.mem c := by
    intro c hc
    apply readU64_congr
    intro x hx1 hx2
    exact hf x (Or.inr ⟨c, hc, by omega, by omega⟩)
  have hnx : ∀ c ∈ fl ++ ul, readU64 r2.mem (c + 8) = readU64 r.mem (c + 8) := by
    intro c hc
    apply readU64_congr
    intro x hx1 hx2
    exact hf x (Or.inr ⟨c, hc, by omega, by omega⟩)
  refine ⟨⟨by rw [hbase]; exact h.base_ne, by rw [hbase, hcap]; exact h.no_wrap,
    by rw [hcap]; exact h.hdr, ?_, ?_, ?_, h.nodup, ?_⟩, hsz⟩
  · have e : readU64 r2.mem (r2.base + 8) = readU64 r.mem (r.base + 8) := by
      rw [hbase]; apply readU64_congr; intro x hx1 hx2
      exact hf x (Or.inl ⟨by omega, by omega⟩)
    rw [e]
    exact Lst_frame fl _ _ (fun c hc => hnx c (List.mem_append_left _ hc)) h.free_list
  · have e : readU64 r2.mem (r2.base + 16) = readU64 r.mem (r.base + 16) := by
      rw [hbase]; apply readU64_congr; intro x hx1 hx2
      exact hf x (Or.inl ⟨by omega, by omega⟩)
    rw [e]
    exact Lst_frame ul _ _ (fun c hc => hnx c (List.mem_append_right _ hc)) h.used_list
  · intro c hc
    rw [hbase, hcap, hsz c hc]
    exact h.inside c hc
  · intro c hc d hd hcd
    rw [hsz c hc, hsz d hd]
    exact h.sep c hc d hd hcd

/-- What a returning `A_alloc` did to a state that satisfies the invariant. -/
theorem A_alloc_cases (fuel : Nat) (r : Region) (fl ul : List Nat) (sz res : Nat) (r2 : Region)
    (h : Partition r fl ul) (hfuel : fl.length < fuel)
    (hrun : A_alloc fuel r sz = .ok (res, r2)) :
    (res = 0 ∧ r2 = r) ∨
    (∃ n fl2, res = n + 16 ∧ Partition r2 fl2 (n :: ul) ∧ r2.base = r.base ∧ r2.cap = r.cap ∧
      1 ≤ sz ∧ _A_align sz ≤ readU64 r2.mem n ∧ fl2.length ≤ fl.length) := by
  obtain ⟨hwf, hsum⟩ := h
  by_cases hsz : sz < 1
  · have : A_alloc fuel r sz = .ok (0, r) := by
      unfold A_alloc; rw [if_pos (Or.inr hsz)]; rfl
    rw [this] at hrun
    injection hrun with e; injection e with e1 e2
    exact Or.inl ⟨e1.symm, e2.symm⟩
  rcases first_split (fun c => _A_align sz ≤ readU64 r.mem c) fl with hno | ⟨l1, p, l2, e, hsm, hfit⟩
  · rw [A_alloc_none fuel r fl ul sz hwf (by omega) (fun c hc => by have := hno c hc; omega)
      hfuel] at hrun
    injection hrun with e; injection e with e1 e2
    exact Or.inl ⟨e1.symm, e2.symm⟩
  · subst e
    right
    have hsm2 : ∀ c ∈ l1, readU64 r.mem c < _A_align sz := fun c hc => by
      have := hsm c hc; omega
    have hfuel1 : l1.length < fuel := by simp at hfuel; omega
    by_cases hs : _A_align sz + 24 ≤ readU64 r.mem p
    · obtain ⟨r3, hrun3, hb3, hc3, hwf3, hp3, ht3, hoth3, _⟩ :=
        A_alloc_split r l1 l2 ul p sz hwf (by omega) hsm2 hs
      rw [hrun3 fuel hfuel1] at hrun
      injection hrun with e; injection e with e1 e2
      subst e2
      refine ⟨p, _, e1.symm, ⟨hwf3, ?_⟩, hb3, hc3, by omega, by rw [hp3], by simp⟩
      rw [hc3, ← hsum]
      have hnd := hwf.nodup
      have hpl1 : p ∉ l1 := fun hm =>
        (List.nodup_append.1 (List.nodup_append.1 hnd).1).2.2 hm (List.mem_cons_self _ _)
      have hpl2 : p ∉ l2 :=
        (List.nodup_cons.1 (List.nodup_append.1 (List.nodup_append.1 hnd).1).2.1).1
      have hpul : p ∉ ul := fun hm => (List.nodup_append.1 hnd).2.2 (by simp) hm
      have e1 : spanSum r3.mem l1 = spanSum r.mem l1 :=
        spanSum_congr (fun c hc => hoth3 c (by simp [hc]) (fun e => hpl1 (e ▸ hc)))
      have e2 : spanSum r3.mem l2 = spanSum r.mem l2 :=
        spanSum_congr (fun c hc => hoth3 c (by simp [hc]) (fun e => hpl2 (e ▸ hc)))
      have e3 : spanSum r3.mem ul = spanSum r.mem ul :=
        spanSum_congr (fun c hc => hoth3 c (by simp [hc]) (fun e => hpul (e ▸ hc)))
      simp only [spanSum_append, spanSum_cons, e1, e2, e3, hp3, ht3]
      omega
    · obtain ⟨r3, hrun3, hb3, hc3, hwf3, hfr3⟩ :=
        A_alloc_whole r l1 l2 ul p sz hwf (by omega) hsm2 hfit (by omega)
      rw [hrun3 fuel hfuel1] at hrun
      injection hrun with e; injection e with e1 e2
      subst e2
      have hsz3 := hwf.size_frame hfr3
      refine ⟨p, _, e1.symm, ⟨hwf3, ?_⟩, hb3, hc3, by omega,
        by rw [hsz3 p (by simp)]; exact hfit, by simp⟩
      rw [hc3, ← hsum]
      have hperm : ((l1 ++ l2) ++ (p :: ul)).Perm ((l1 ++ p :: l2) ++ ul) := by
        simp only [List.append_assoc]
        apply List.Perm.append_left
        exact List.perm_middle
      rw [spanSum_perm hperm, spanSum_congr hsz3]

theorem A_alloc_inv (fuel : Nat) (r : Region) (fl ul : List Nat) (sz res : Nat) (r2 : Region)
    (h : Partition r fl ul) (hfuel : fl.length < fuel)
    (hrun : A_alloc fuel r sz = .ok (res, r2)) :
    ∃ fl2 ul2, Partition r2 fl2 ul2 ∧ r2.base = r.base ∧ r2.cap = r.cap ∧
      fl2.length + ul2.length ≤ fl.length + ul.length + 1 := by
  rcases A_alloc_cases fuel r fl ul sz res r2 h hfuel hrun with ⟨_, e⟩ |
    ⟨n, fl2, _, hp, hb, hc, _, _, hl⟩
  · subst e
    exact ⟨fl, ul, h, rfl, rfl, by omega⟩
  · exact ⟨fl2, n :: ul, hp, hb, hc, by simp; omega⟩

theorem A_free_inv (fuel : Nat) (r : Region) (fl ul : List Nat) (ptr : Nat) (r2 : Region)
    (h : Partition r fl ul) (hfuel : fl.length + ul.length < fuel)
    (hrun : A_free fuel r ptr = .ok r2) :
    ∃ fl2 ul2, Partition r2 fl2 ul2 ∧ r2.base = r.base ∧ r2.cap = r.cap ∧
      fl2.length + ul2.length = fl.length + ul.length := by
  obtain ⟨hwf, hsum⟩ := h
  rcases first_split (fun c => c + 16 = ptr) ul with hno | ⟨u1, p, u2, e, _, hhit⟩
  · rw [A_free_noop fuel r fl ul ptr hwf hno (by omega)] at hrun
    injection hrun with e
    subst e
    exact ⟨fl, ul, ⟨hwf, hsum⟩, rfl, rfl, rfl⟩
  · subst e
    have hhit : p + 16 = ptr := hhit
    subst hhit
    have hfuel1 : u1.length < fuel := by simp at hfuel; omega
    by_cases hne : fl = []
    · subst hne
      rw [A_free_empty fuel r u1 u2 p hwf hfuel1] at hrun
      cases hrun
    · obtain ⟨r3, hrun3, hb3, hc3, hwf3, hfr3⟩ :=
        A_free_ok r fl u1 u2 p hwf hne
      rw [hrun3 fuel hfuel1 (by omega)] at hrun
      injection hrun with e
      subst e
      refine ⟨_, _, ⟨hwf3, ?_⟩, hb3, hc3, by simp; omega⟩
      rw [hc3, ← hsum]
      have hperm : ((fl ++ [p]) ++ (u1 ++ u2)).Perm (fl ++ (u1 ++ p :: u2)) := by
        rw [List.append_assoc]
        apply List.Perm.append_left
        exact (@List.perm_middle _ p u1 u2).symm
      rw [spanSum_perm hperm, spanSum_congr (hwf.size_frame hfr3)]

theorem ok_of_bind {α β : Type} {x : Except Fault α} {f : α → Except Fault β} {b : β}
    (h : (x >>= f) = .ok b) : ∃ a, x = .ok a ∧ f a = .ok b := by
  cases x with
  | error e => cases h
  | ok a => exact ⟨a, rfl, h⟩

theorem memcpy_ok {r r2 : Region} {dst src n : Nat} (hn : n ≠ 0)
    (h : memcpy r dst src n = .ok r2) :
    r2.base = r.base ∧ r2.cap = r.cap ∧ dst + n ≤ r.base + r.cap ∧
      ∀ x, (x < dst ∨ dst + n ≤ x) → r2.mem x = r.mem x := by
  unfold memcpy at h
  rw [if_neg hn] at h
  split at h
  · cases h
  · split at h
    · rename_i hb
      injection h with e
      subst e
      refine ⟨rfl, rfl, hb.2.1, ?_⟩
      intro x hx
      show (if dst ≤ x ∧ x < dst + n then _ else _) = _
      rw [if_neg (by omega)]
    · cases h

theorem A_realloc_inv (fuel : Nat) (r : Region) (fl ul : List Nat) (ptr sz res : Nat)
    (r2 : Region) (h : Partition r fl ul) (hfuel : fl.length + ul.length + 1 < fuel)
    (hrun : A_realloc fuel r ptr sz = .ok (res, r2)) :
    ∃ fl2 ul2, Partition r2 fl2 ul2 ∧ r2.base = r.base ∧ r2.cap = r.cap ∧
      fl2.length + ul2.length ≤ fl.length + ul.length + 1 := by
  have hwf := h.1
  by_cases h0 : r.base = 0 ∨ ptr = 0 ∨ sz < 1
  · have : A_realloc fuel r ptr sz = .ok (ptr, r) := by
      unfold A_realloc; rw [if_pos h0]; rfl
    rw [this] at hrun
    injection hrun with e; injection e with e1 e2
    subst e2
    exact ⟨fl, ul, h, rfl, rfl, by omega⟩
  have hptr : ptr ≠ 0 := fun e => h0 (Or.inr (Or.inl e))
  have hsz : 1 ≤ sz := by
    by_contra hc
    exact h0 (Or.inr (Or.inr (by omega)))
  rcases first_split (fun c => c + 16 = ptr) ul with hno | ⟨u1, p, u2, e, _, hhit⟩
  · rw [A_realloc_unknown fuel r fl ul ptr sz hwf hptr hsz hno (by omega)] at hrun
    injection hrun with e; injection e with e1 e2
    subst e2
    exact ⟨fl, ul, h, rfl, rfl, by omega⟩
  · subst e
    have hhit : p + 16 = ptr := hhit
    subst hhit
    have hfuel1 : u1.length < fuel := by simp at hfuel; omega
    rw [A_realloc_found fuel r fl u1 u2 p sz hwf hsz hfuel1] at hrun
    by_cases hfit : readU64 r.mem p ≥ sz
    · rw [if_pos hfit] at hrun
      injection hrun with e; injection e with e1 e2
      subst e2
      exact ⟨fl, _, h, rfl, rfl, by omega⟩
    · rw [if_neg hfit] at hrun
      obtain ⟨⟨new, r1⟩, hA, hrun1⟩ := ok_of_bind hrun
      simp only [] at hrun1
      rcases A_alloc_cases fuel r fl _ sz new r1 h (by omega) hA with ⟨e1, e2⟩ |
        ⟨n, fl1, e1, hp1, hb1, hc1, _, hn1, hl1⟩
      · subst e1 e2
        rw [if_pos rfl] at hrun1
        injection hrun1 with e; injection e with e1 e2
        subst e2
        exact ⟨fl, _, h, rfl, rfl, by omega⟩
      · subst e1
        rw [if_neg (by omega)] at hrun1
        obtain ⟨r3, hM, hrun2⟩ := ok_of_bind hrun1
        obtain ⟨r4, hF, hrun3⟩ := ok_of_bind hrun2
        injection hrun3 with e; injection e with e1 e2
        subst e2
        obtain ⟨hb3, hc3, hin3, hfr3⟩ := memcpy_ok (by omega) hM
        have hwf1 := hp1.1
        have hni := hwf1.inside n (by simp)
        have hnw := hwf1.no_wrap
        have hal := A_align_ge sz (by omega)
        obtain ⟨hwf3, hsz3⟩ := hwf1.of_hdr_frame hb3 hc3 (by
          intro x hx
          apply hfr3
          rcases hx with hx | ⟨c, hc, hx⟩
          · omega
          · by_cases hcn : c = n
            · subst hcn; omega
            · have := hwf1.sep c hc n (by simp) hcn
              omega)
        have hp3 : Partition r3 fl1 (n :: (u1 ++ p :: u2)) := by
          refine ⟨hwf3, ?_⟩
          rw [hc3, ← hp1.2, spanSum_congr hsz3]
        obtain ⟨fl4, ul4, hp4, hb4, hc4, hl4⟩ :=
          A_free_inv fuel r3 fl1 _ (p + 16) r4 hp3 (by simp at hfuel ⊢; omega) hF
        refine ⟨fl4, ul4, hp4, by rw [hb4, hb3, hb1], by rw [hc4, hc3, hc1], ?_⟩
        simp at hl4 hfuel ⊢
        omega

/-! ## More fuel does not change a result -/

theorem A_alloc_scan_mono (r : Region) (need : Nat) : ∀ (fuel c x : Nat),
    A_alloc_scan r need fuel c = .ok x → A_alloc_scan r need (fuel + 1) c = .ok x := by
  intro fuel
  induction fuel with
  | zero =>
    intro c x h
    have h2 : (Except.error Fault.outOfFuel : Except Fault Nat) = .ok x := h
    cases h2
  | succ k ih =>
    intro c x h
    rw [A_alloc_scan_succ] at h ⊢
    obtain ⟨p, hp, h⟩ := ok_of_bind h
    rw [hp, ok_bind]
    by_cases hp0 : p = 0
    · rw [if_pos hp0] at h ⊢; exact h
    · rw [if_neg hp0] at h ⊢
      obtain ⟨psz, hs, h⟩ := ok_of_bind h
      rw [hs, ok_bind]
      by_cases hlt : psz < need
      · rw [if_pos hlt] at h ⊢; exact ih _ _ h
      · rw [if_neg hlt] at h ⊢; exact h

theorem A_free_scan_mono (r : Region) (ptr : Nat) : ∀ (fuel c x : Nat),
    A_free_scan r ptr fuel c = .ok x → A_free_scan r ptr (fuel + 1) c = .ok x := by
  intro fuel
  induction fuel with
  | zero =>
    intro c x h
    have h2 : (Except.error Fault.outOfFuel : Except Fault Nat) = .ok x := h
    cases h2
  | succ k ih =>
    intro c x h
    rw [A_free_scan_succ] at h ⊢
    obtain ⟨p, hp, h⟩ := ok_of_bind h
    rw [hp, ok_bind]
    by_cases hp0 : p = 0
    · rw [if_pos hp0] at h ⊢; exact h
    · rw [if_neg hp0] at h ⊢
      by_cases hne : p + 16 ≠ ptr
      · rw [if_pos hne] at h ⊢; exact ih _ _ h
      · rw [if_neg hne] at h ⊢; exact h

theorem A_free_last_mono (r : Region) : ∀ (fuel f x : Nat),
    A_free_last r fuel f = .ok x → A_free_last r (fuel + 1) f = .ok x := by
  intro fuel
  induction fuel with
  | zero =>
    intro f x h
    have h2 : (Except.error Fault.outOfFuel : Except Fault Nat) = .ok x := h
    cases h2
  | succ k ih =>
    intro f x h
    rw [A_free_last_succ] at h ⊢
    by_cases hf0 : f = 0
    · rw [if_pos hf0] at h ⊢; exact h
    · rw [if_neg hf0] at h ⊢
      obtain ⟨n, hn, h⟩ := ok_of_bind h
      rw [hn, ok_bind]
      by_cases hne : n ≠ 0
      · rw [if_pos hne] at h ⊢; exact ih _ _ h
      · rw [if_neg hne] at h ⊢; exact h

theorem A_realloc_scan_mono (r : Region) (ptr : Nat) : ∀ (fuel c x : Nat),
    A_realloc_scan r ptr fuel c = .ok x → A_realloc_scan r ptr (fuel + 1) c = .ok x := by
  intro fuel
  induction fuel with
  | zero =>
    intro c x h
    have h2 : (Except.error Fault.outOfFuel : Except Fault Nat) = .ok x := h
    cases h2
  | succ k ih =>
    intro c x h
    rw [A_realloc_scan_succ] at h ⊢
    by_cases hc0 : c = 0
    · rw [if_pos hc0] at h ⊢; exact h
    · rw [if_neg hc0] at h ⊢
      by_cases hne : c + 16 ≠ ptr
      · rw [if_pos hne] at h ⊢
        obtain ⟨n, hn, h⟩ := ok_of_bind h
        rw [hn, ok_bind]
        exact ih _ _ h
      · rw [if_neg hne] at h ⊢; exact h

theorem A_alloc_mono {fuel : Nat} {r : Region} {sz : Nat} {x : Nat × Region}
    (h : A_alloc fuel r sz = .ok x) : A_alloc (fuel + 1) r sz = .ok x := by
  unfold A_alloc at h ⊢
  by_cases h0 : r.base = 0 ∨ sz < 1
  · rw [if_pos h0] at h ⊢; exact h
  · rw [if_neg h0] at h ⊢
    obtain ⟨c, hc, h⟩ := ok_of_bind h
    rw [A_alloc_scan_mono _ _ _ _ _ hc, ok_bind]
    exact h

theorem A_free_mono {fuel : Nat} {r : Region} {ptr : Nat} {x : Region}
    (h : A_free fuel r ptr = .ok x) : A_free (fuel + 1) r ptr = .ok x := by
  unfold A_free at h ⊢
  by_cases h0 : r.base = 0 ∨ ptr = 0
  · rw [if_pos h0] at h ⊢; exact h
  · rw [if_neg h0] at h ⊢
    obtain ⟨c, hc, h⟩ := ok_of_bind h
    rw [A_free_scan_mono _ _ _ _ _ hc, ok_bind]
    obtain ⟨p, hp, h⟩ := ok_of_bind h
    rw [hp, ok_bind]
    rw [hp] at h
    by_cases hp0 : p = 0
    · rw [if_pos hp0] at h ⊢; exact h
    · rw [if_neg hp0] at h ⊢
      obtain ⟨f0, hf0, h⟩ := ok_of_bind h
      rw [hf0, ok_bind]
      obtain ⟨free, hfree, h⟩ := ok_of_bind h
      rw [A_free_last_mono _ _ _ _ hfree, ok_bind]
      exact h

theorem A_realloc_mono {fuel : Nat} {r : Region} {ptr sz : Nat} {x : Nat × Region}
    (h : A_realloc fuel r ptr sz = .ok x) : A_realloc (fuel + 1) r ptr sz = .ok x := by
  unfold A_realloc at h ⊢
  by_cases h0 : r.base = 0 ∨ ptr = 0 ∨ sz < 1
  · rw [if_pos h0] at h ⊢; exact h
  · rw [if_neg h0] at h ⊢
    obtain ⟨u, hu, h⟩ := ok_of_bind h
    rw [hu, ok_bind]
    obtain ⟨c, hc, h⟩ := ok_of_bind h
    rw [A_realloc_scan_mono _ _ _ _ _ hc, ok_bind]
    by_cases hc0 : c = 0
    · rw [if_pos hc0] at h ⊢; exact h
    · rw [if_neg hc0] at h ⊢
      obtain ⟨csz, hcsz, h⟩ := ok_of_bind h
      rw [hcsz, ok_bind]
      by_cases hfit : csz ≥ sz
      · rw [if_pos hfit] at h ⊢; exact h
      · rw [if_neg hfit] at h ⊢
        obtain ⟨⟨new, r1⟩, hA, h⟩ := ok_of_bind h
        rw [A_alloc_mono hA, ok_bind]
        simp only [] at h ⊢
        by_cases hnew : new = 0
        · rw [if_pos hnew] at h ⊢; exact h
        · rw [if_neg hnew] at h ⊢
          obtain ⟨r2, hM, h⟩ := ok_of_bind h
          rw [hM, ok_bind]
          obtain ⟨r3, hF, h⟩ := ok_of_bind h
          rw [A_free_mono hF, ok_bind]
          exact h

/-- A result obtained with some fuel is the result for every larger amount of fuel. -/
theorem ok_of_le {α : Type} {f : Nat → Except Fault α}
    (hmono : ∀ n x, f n = .ok x → f (n + 1) = .ok x) {n m : Nat} {x : α}
    (h : f n = .ok x) (hle : n ≤ m) : f m = .ok x := by
  induction m with
  | zero =>
    have : n = 0 := by omega
    subst this; exact h
  | succ k ih =>
    by_cases hk : n ≤ k
    · exact hmono k x (ih hk)
    · have : n = k + 1 := by omega
      subst this; exact h

/-! ## Reachable states -/

theorem A_create_some {m0 : Mem} {a cap : Nat} {r : Region} (hcap : 40 ≤ cap)
    (hnw : a + cap < 2 ^ 64) (h : A_create m0 a cap = .ok (some r)) :
    a ≠ 0 ∧ r = created m0 a cap := by
  by_cases ha : a = 0
  · unfold A_create at h
    rw [if_pos ha] at h
    cases h
  · rw [A_create_ok m0 a cap ha hcap hnw] at h
    injection h with e; injection e with e
    exact ⟨ha, e.symm⟩

theorem created_Partition (m0 : Mem) (a cap : Nat) (ha : a ≠ 0) (hcap : 40 ≤ cap)
    (hnw : a + cap < 2 ^ 64) : Partition (created m0 a cap) [a + 24] [] := by
  refine ⟨created_WF m0 a cap ha hcap hnw, ?_⟩
  show spanSum _ ([a + 24] ++ []) + 24 = cap
  rw [List.append_nil, spanSum_cons, created_size m0 a cap hnw]
  simp only [spanSum, List.map_nil, List.sum_nil]
  omega

theorem Step_inv {r r2 : Region} {fl ul : List Nat} (h : Partition r fl ul) (hs : Step r r2) :
    ∃ fl2 ul2, Partition r2 fl2 ul2 ∧ r2.base = r.base ∧ r2.cap = r.cap := by
  cases hs with
  | alloc sz res fuel hrun =>
    have hrun2 := ok_of_le (f := fun n => A_alloc n r sz) (fun n x hx => A_alloc_mono hx) hrun
      (le_max_left fuel (fl.length + ul.length + 2))
    obtain ⟨fl2, ul2, hp, hb, hc, _⟩ := A_alloc_inv _ r fl ul sz res r2 h
      (by have := le_max_right fuel (fl.length + ul.length + 2); omega) hrun2
    exact ⟨fl2, ul2, hp, hb, hc⟩
  | realloc ptr sz res fuel hrun =>
    have hrun2 := ok_of_le (f := fun n => A_realloc n r ptr sz) (fun n x hx => A_realloc_mono hx)
      hrun (le_max_left fuel (fl.length + ul.length + 2))
    obtain ⟨fl2, ul2, hp, hb, hc, _⟩ := A_realloc_inv _ r fl ul ptr sz res r2 h
      (by have := le_max_right fuel (fl.length + ul.length + 2); omega) hrun2
    exact ⟨fl2, ul2, hp, hb, hc⟩
  | free ptr fuel hrun =>
    have hrun2 := ok_of_le (f := fun n => A_free n r ptr) (fun n x hx => A_free_mono hx) hrun
      (le_max_left fuel (fl.length + ul.length + 2))
    obtain ⟨fl2, ul2, hp, hb, hc, _⟩ := A_free_inv _ r fl ul ptr r2 h
      (by have := le_max_right fuel (fl.length + ul.length + 2); omega) hrun2
    exact ⟨fl2, ul2, hp, hb, hc⟩

theorem Reach_inv {m0 : Mem} {a cap : Nat} {r : Region} (hcap : 40 ≤ cap)
    (hnw : a + cap < 2 ^ 64) (h : Reach m0 a cap r) :
    ∃ fl ul, Partition r fl ul ∧ r.base = a ∧ r.cap = cap := by
  induction h with
  | create r hc =>
    obtain ⟨ha, e⟩ := A_create_some hcap hnw hc
    subst e
    exact ⟨[a + 24], [], created_Partition m0 a cap ha hcap hnw, rfl, rfl⟩
  | step r r2 _ hs ih =>
    obtain ⟨fl, ul, hp, hb, hc⟩ := ih
    obtain ⟨fl2, ul2, hp2, hb2, hc2⟩ := Step_inv hp hs
    exact ⟨fl2, ul2, hp2, by rw [hb2, hb], by rw [hc2, hc]⟩

/-! ## A run of allocations on a fresh arena -/

theorem A_align_eq_roundUp8 (x : Nat) (hx : x + 8 ≤ 2 ^ 64) : _A_align x = roundUp8 x := by
  unfold _A_align roundUp8 sub64 add64
  split <;> omega

theorem roundUp8_ge (x : Nat) : x ≤ roundUp8 x := by
  unfold roundUp8; omega

theorem roundUp8_pos (x : Nat) (hx : 1 ≤ x) : 8 ≤ roundUp8 x := by
  unfold roundUp8; omega

theorem allocSeq_cons (fuel : Nat) (r : Region) (s : Nat) (ss : List Nat) :
    allocSeq fuel r (s :: ss) =
      (A_alloc fuel r s >>= fun x => allocSeq fuel x.2 ss >>= fun y => pure (x.1 :: y.1, y.2)) :=
  rfl

/-- On a state whose free list is a single chunk `f`, requests that fit into `f` together
with their headers are served one after the other out of `f`. -/
theorem allocSeq_single (fuel : Nat) (hfuel : 1 ≤ fuel) : ∀ (sizes : List Nat) (r : Region)
    (f : Nat) (ul : List Nat),
    WF r [f] ul → (∀ s ∈ sizes, 1 ≤ s) →
    (sizes.map (fun s => 16 + roundUp8 s)).sum ≤ 16 + readU64 r.mem f →
    ∃ r2, allocSeq fuel r sizes = .ok (seqAddrs (f + 16) sizes, r2) := by
  intro sizes
  induction sizes with
  | nil => intro r f ul _ _ _; exact ⟨r, rfl⟩
  | cons s ss ih =>
    intro r f ul hwf hpos hsum
    have hs1 := hpos s (List.mem_cons_self _ _)
    have hfi := hwf.inside f (by simp)
    have hnw := hwf.no_wrap
    have hb := hwf.base_ne
    rw [List.map_cons, List.sum_cons] at hsum
    have hge := roundUp8_ge s
    have hal : _A_align s = roundUp8 s := A_align_eq_roundUp8 s (by omega)
    rw [allocSeq_cons]
    by_cases hsp : _A_align s + 24 ≤ readU64 r.mem f
    · obtain ⟨r3, hrun3, hb3, hc3, hwf3, hp3, ht3, _, _⟩ :=
        A_alloc_split r [] [] ul f s hwf hs1 (by simp) hsp
      rw [hrun3 fuel (by simpa using hfuel), ok_bind]
      simp only [List.nil_append] at hwf3
      obtain ⟨r4, hrun4⟩ := ih r3 (f + 16 + _A_align s) (f :: ul) hwf3
        (fun x hx => hpos x (List.mem_cons_of_mem _ hx)) (by rw [ht3]; omega)
      rw [hrun4, ok_bind]
      refine ⟨r4, ?_⟩
      show Except.ok _ = Except.ok _
      rw [seqAddrs, hal]
    · obtain ⟨r3, hrun3, hb3, hc3, hwf3, _⟩ :=
        A_alloc_whole r [] [] ul f s hwf hs1 (by simp) (by omega) (by omega)
      rw [hrun3 fuel (by simpa using hfuel), ok_bind]
      have hss : ss = [] := by
        cases ss with
        | nil => rfl
        | cons t ts =>
          exfalso
          have ht1 := hpos t (by simp)
          have := roundUp8_pos t ht1
          rw [List.map_cons, List.sum_cons] at hsum
          omega
      subst hss
      exact ⟨r3, rfl⟩

theorem seqAddrs_length : ∀ (sizes : List Nat) (p : Nat), (seqAddrs p sizes).length = sizes.length := by
  intro sizes
  induction sizes with
  | nil => intro p; rfl
  | cons s ss ih => intro p; simp [seqAddrs, ih]

/-- Every block of the layout starts at or after `p` and ends before the end of the space
the layout takes. -/
theorem seqAddrs_bounds : ∀ (sizes : List Nat) (p : Nat),
    ∀ x ∈ (seqAddrs p sizes).zip sizes,
      p ≤ x.1 ∧ x.1 + x.2 + 16 ≤ p + (sizes.map (fun s => 16 + roundUp8 s)).sum := by
  intro sizes
  induction sizes with
  | nil => intro p x hx; simp [seqAddrs] at hx
  | cons s ss ih =>
    intro p x hx
    rw [seqAddrs, List.zip_cons_cons, List.mem_cons] at hx
    rw [List.map_cons, List.sum_cons]
    have hge := roundUp8_ge s
    rcases hx with rfl | hx
    · simp only []
      omega
    · have := ih (p + roundUp8 s + 16) x hx
      omega

theorem seqAddrs_disjoint : ∀ (sizes : List Nat) (p : Nat),
    ((seqAddrs p sizes).zip sizes).Pairwise (fun x y => x.1 + x.2 ≤ y.1 ∨ y.1 + y.2 ≤ x.1) := by
  intro sizes
  induction sizes with
  | nil => intro p; simp [seqAddrs]
  | cons s ss ih =>
    intro p
    rw [seqAddrs, List.zip_cons_cons, List.pairwise_cons]
    refine ⟨?_, ih _⟩
    intro y hy
    have := seqAddrs_bounds ss (p + roundUp8 s + 16) y hy
    have hge := roundUp8_ge s
    left
    simp only []
    omega

/-! ## Allocation is first fit -/

theorem find?_first {α : Type} (P : α → Prop) [DecidablePred P] : ∀ (l : List α),
    match l.find? (fun c => decide (P c)) with
    | some p => ∃ l1 l2, l = l1 ++ p :: l2 ∧ (∀ x ∈ l1, ¬ P x) ∧ P p
    | none => ∀ x ∈ l, ¬ P x := by
  intro l
  induction l with
  | nil => simp
  | cons a as ih =>
    by_cases ha : P a
    · rw [List.find?_cons_of_pos _ (by simpa using ha)]
      exact ⟨[], as, rfl, by simp, ha⟩
    · rw [List.find?_cons_of_neg _ (by simpa using ha)]
      cases hf : as.find? (fun c => decide (P c)) with
      | none =>
        rw [hf] at ih
        intro x hx
        rcases List.mem_cons.1 hx with rfl | hx
        · exact ha
        · exact ih x hx
      | some p =>
        rw [hf] at ih
        obtain ⟨l1, l2, e, h1, h2⟩ := ih
        refine ⟨a :: l1, l2, by rw [e]; rfl, ?_, h2⟩
        intro x hx
        rcases List.mem_cons.1 hx with rfl | hx
        · exact ha
        · exact h1 x hx

/-- A successful `A_alloc` on a well-formed state, whichever way the chunk is taken. -/
theorem A_alloc_some (r : Region) (l1 l2 ul : List Nat) (p sz : Nat)
    (h : WF r (l1 ++ p :: l2) ul) (hsz : 1 ≤ sz)
    (hsm : ∀ c ∈ l1, readU64 r.mem c < _A_align sz) (hfit : _A_align sz ≤ readU64 r.mem p) :
    ∃ r2 fl2, (∀ fuel, l1.length < fuel → A_alloc fuel r sz = .ok (p + 16, r2)) ∧
      WF r2 fl2 (p :: ul) := by
  by_cases hs : _A_align sz + 24 ≤ readU64 r.mem p
  · obtain ⟨r2, hrun, _, _, hwf, _⟩ := A_alloc_split r l1 l2 ul p sz h hsz hsm hs
    exact ⟨r2, _, hrun, hwf⟩
  · obtain ⟨r2, hrun, _, _, hwf, _⟩ := A_alloc_whole r l1 l2 ul p sz h hsz hsm hfit (by omega)
    exact ⟨r2, _, hrun, hwf⟩

/-- First fit, in terms of the macro `_A_align`.  In every well-formed arena state and for
every size `sz ≥ 1`, `A_alloc` takes the first chunk in free-list order (`List.find?` over
the free list, whatever the addresses and sizes) whose size is at least `_A_align sz`; it
returns the data address `p + 16` of that chunk and the chunk becomes the head of the used
list.  It returns `NULL` (and leaves the state as it was) exactly when no chunk of the free
list has such a size.  `_A_align sz` is `sz` rounded up to a multiple of 8 as long as
`sz ≤ 2^64 - 8`; for the seven sizes above it wraps to 0. -/
theorem alloc_first_fit (fuel : Nat) (r : Region) (fl ul : List Nat) (sz : Nat)
    (h : WF r fl ul) (hsz : 1 ≤ sz) (hfuel : fl.length < fuel) :
    (match fl.find? (fun c => decide (_A_align sz ≤ readU64 r.mem c)) with
      | some p => ∃ r2 fl2, A_alloc fuel r sz = .ok (p + 16, r2) ∧ WF r2 fl2 (p :: ul)
      | none => A_alloc fuel r sz = .ok (0, r)) ∧
    ((∃ r2, A_alloc fuel r sz = .ok (0, r2)) ↔ ∀ c ∈ fl, readU64 r.mem c < _A_align sz) ∧
    (sz + 8 ≤ 2 ^ 64 → _A_align sz = roundUp8 sz) := by
  have hfirst := find?_first (fun c => _A_align sz ≤ readU64 r.mem c) fl
  cases hf : fl.find? (fun c => decide (_A_align sz ≤ readU64 r.mem c)) with
  | none =>
    rw [hf] at hfirst
    have hsm : ∀ c ∈ fl, readU64 r.mem c < _A_align sz := fun c hc => by
      have := hfirst c hc; omega
    have hrun := A_alloc_none fuel r fl ul sz h hsz hsm hfuel
    exact ⟨hrun, ⟨fun _ => hsm, fun _ => ⟨r, hrun⟩⟩, A_align_eq_roundUp8 sz⟩
  | some p =>
    rw [hf] at hfirst
    obtain ⟨l1, l2, e, hsm, hfit⟩ := hfirst
    subst e
    have hsm2 : ∀ c ∈ l1, readU64 r.mem c < _A_align sz := fun c hc => by
      have := hsm c hc; omega
    obtain ⟨r2, fl2, hrun, hwf⟩ := A_alloc_some r l1 l2 ul p sz h hsz hsm2 hfit
    have hrun2 := hrun fuel (by simp at hfuel; omega)
    refine ⟨⟨r2, fl2, hrun2, hwf⟩, ⟨?_, ?_⟩, A_align_eq_roundUp8 sz⟩
    · rintro ⟨r3, h3⟩
      rw [hrun2] at h3
      injection h3 with e; injection e with e1 e2
      omega
    · intro hall
      have := hall p (by simp)
      omega

/-- An instance of `alloc_first_fit`: a fresh arena of capacity 256 and a request of 5
bytes. -/
theorem alloc_first_fit_witness :
    (match [4120].find? (fun c =>
        decide (_A_align 5 ≤ readU64 (created zeroMem 4096 256).mem c)) with
      | some p => ∃ r2 fl2, A_alloc 2 (created zeroMem 4096 256) 5 = .ok (p + 16, r2) ∧
          WF r2 fl2 (p :: [])
      | none => A_alloc 2 (created zeroMem 4096 256) 5 = .ok (0, created zeroMem 4096 256)) ∧
    ((∃ r2, A_alloc 2 (created zeroMem 4096 256) 5 = .ok (0, r2)) ↔
      ∀ c ∈ [4120], readU64 (created zeroMem 4096 256).mem c < _A_align 5) ∧
    (5 + 8 ≤ 2 ^ 64 → _A_align 5 = roundUp8 5) :=
  alloc_first_fit 2 (created zeroMem 4096 256) [4120] [] 5 (by decide) (by decide) (by decide)

/-! ## Freeing and allocating again -/

/-- Claim C3 (defect in the code). The state `arena48` is the state after `A_create(48)` and
`A_alloc(a, 8)`: it is well formed, its free list is empty and its used list is the single
chunk 4120 (size 8, data address 4136).  `A_free(a, 4136)` does not move the chunk to
the free list: it stores through the null pointer (`free->next = *c` with
`free == NULL`, arena.h:218-222), whatever the fuel. -/
theorem free_with_empty_free_list_faults :
    A_create zeroMem 4096 48 = .ok (some (created zeroMem 4096 48)) ∧
      (A_alloc 1 (created zeroMem 4096 48) 8).map Prod.fst = .ok 4136 ∧
      WF arena48 [] [4120] ∧ readU64 arena48.mem 4120 = 8 ∧
      ∀ fuel, 0 < fuel → A_free fuel arena48 4136 = .error .nullDeref :=
  ⟨by rfl, by rfl, by decide, by decide,
    fun fuel hf => A_free_empty fuel arena48 [] [] 4120 (by decide) hf⟩

/-- Claim C4 (defect in the code). There is a state reachable from `A_create(64)` by one call
`A_alloc(a, 24)`, which hands out the only chunk whole and leaves the free list empty,
in which the call `A_free(a, p)` for the block just allocated dereferences the null
chunk pointer instead of completing. -/
theorem reachable_free_null_deref :
    ∃ r p, Reach zeroMem 4096 64 r ∧ WF r [] [p] ∧
      ∀ fuel, 0 < fuel → A_free fuel r (p + 16) = .error .nullDeref := by
  obtain ⟨r2, hrun, _, _, hwf, _⟩ := A_alloc_whole (created zeroMem 4096 64) [] [] [] 4120 24
    (by decide) (by decide) (by simp) (by decide) (by decide)
  refine ⟨r2, 4120, ?_, hwf, fun fuel hf => A_free_empty fuel r2 [] [] 4120 hwf hf⟩
  exact Reach.step _ _ (Reach.create _ (A_create_ok zeroMem 4096 64 (by decide) (by decide)
    (by decide))) (Step.alloc _ _ 24 (4120 + 16) 1 (hrun 1 (by decide)))

/-! ## `A_realloc` -/

/-- Claim C5 (defect in the code). The state `arena80b` is the state after `A_create(80)` and
`A_alloc(a, 8)`: the used chunk 4120 has size 8 and the free list is the single chunk
4144 of size 16.  `A_alloc(a, 16)` succeeds on it (it returns 4160), yet
`A_realloc(a, 4136, 16)` does not return: the inner allocation empties the free list and
the `A_free` of the old block then stores through the null pointer. -/
theorem realloc_grow_faults :
    A_create zeroMem 4096 80 = .ok (some (created zeroMem 4096 80)) ∧
      (A_alloc 1 (created zeroMem 4096 80) 8).map Prod.fst = .ok 4136 ∧
      WF arena80b [4144] [4120] ∧ readU64 arena80b.mem 4120 = 8 ∧
      readU64 arena80b.mem 4144 = 16 ∧
      (A_alloc 2 arena80b 16).map Prod.fst = .ok 4160 ∧
      (A_realloc 2 arena80b 4136 16).map Prod.fst = .error .nullDeref :=
  ⟨by rfl, by rfl, by decide, by decide, by decide, by rfl, by rfl⟩

/-- Claim C6. For the data address `p + 16` of a used chunk `p` and every size with
`1 ≤ sz ≤ p->sz`, `A_realloc` returns `p + 16` itself and the whole state (both lists,
every size, every byte) is the state before the call. -/
theorem realloc_in_place (fuel : Nat) (r : Region) (fl u1 u2 : List Nat) (p sz : Nat)
    (h : WF r fl (u1 ++ p :: u2)) (hsz : 1 ≤ sz) (hfit : sz ≤ readU64 r.mem p)
    (hfuel : u1.length < fuel) :
    A_realloc fuel r (p + 16) sz = .ok (p + 16, r) :=
  A_realloc_fits fuel r fl u1 u2 p sz h hsz hfit hfuel

/-- C6 at work: the 16-byte block of `arena80` reallocated to 10 bytes. -/
theorem realloc_in_place_witness :
    A_realloc 1 arena80 (4120 + 16) 10 = .ok (4120 + 16, arena80) :=
  realloc_in_place 1 arena80 [4152] [] [] 4120 10 (by decide) (by decide) (by decide)
    (by decide)

theorem A_alloc_link_ne_zero {r : Region} {c res : Nat} {r2 : Region}
    (h : A_alloc_link r c = .ok (res, r2)) : res ≠ 0 := by
  unfold A_alloc_link at h
  obtain ⟨p, _, h⟩ := ok_of_bind h
  obtain ⟨_, _, h⟩ := ok_of_bind h
  obtain ⟨_, _, h⟩ := ok_of_bind h
  obtain ⟨_, _, h⟩ := ok_of_bind h
  obtain ⟨_, _, h⟩ := ok_of_bind h
  obtain ⟨_, _, h⟩ := ok_of_bind h
  obtain ⟨_, _, h⟩ := ok_of_bind h
  obtain ⟨_, _, h⟩ := ok_of_bind h
  obtain ⟨_, _, h⟩ := ok_of_bind h
  injection h with e; injection e with e1 e2
  omega

/-- A `NULL` result of `A_alloc` comes with an unchanged state (no assumption on the
state). -/
theorem A_alloc_null {fuel : Nat} {r : Region} {sz : Nat} {r2 : Region}
    (h : A_alloc fuel r sz = .ok (0, r2)) : r2 = r := by
  unfold A_alloc at h
  split at h
  · injection h with e; injection e with e1 e2; exact e2.symm
  · obtain ⟨c, _, h⟩ := ok_of_bind h
    obtain ⟨p, _, h⟩ := ok_of_bind h
    split at h
    · injection h with e; injection e with e1 e2; exact e2.symm
    · obtain ⟨x, _, h⟩ := ok_of_bind h
      exact absurd rfl (A_alloc_link_ne_zero h)

/-- A `NULL` result of `A_realloc` comes with an unchanged state (no assumption on the
state). -/
theorem A_realloc_null {fuel : Nat} {r : Region} {ptr sz : Nat} {r2 : Region}
    (h : A_realloc fuel r ptr sz = .ok (0, r2)) : r2 = r := by
  unfold A_realloc at h
  split at h
  · injection h with e; injection e with e1 e2; exact e2.symm
  · obtain ⟨u, _, h⟩ := ok_of_bind h
    obtain ⟨c, _, h⟩ := ok_of_bind h
    split at h
    · injection h with e; injection e with e1 e2; exact e2.symm
    · obtain ⟨csz, _, h⟩ := ok_of_bind h
      split at h
      · injection h with e; injection e with e1 e2; exact e2.symm
      · obtain ⟨⟨new, r1⟩, hA, h⟩ := ok_of_bind h
        simp only [] at h
        split at h
        · rename_i hnew
          subst hnew
          injection h with e; injection e with e1 e2
          rw [← e2]
          exact A_alloc_null hA
        · rename_i hnew
          obtain ⟨_, _, h⟩ := ok_of_bind h
          obtain ⟨_, _, h⟩ := ok_of_bind h
          injection h with e; injection e with e1 e2
          exact absurd e1 hnew

/-- A `NULL` result of `AS_append_char_array` comes with an unchanged state. -/
theorem AS_append_null {fuel : Nat} {r : Region} {astr : Nat} {carr : List Nat} {sz : Nat}
    {r2 : Region} (h : AS_append_char_array fuel r astr carr sz = .ok (0, r2)) : r2 = r := by
  unfold AS_append_char_array at h
  obtain ⟨n, _, h⟩ := ok_of_bind h
  obtain ⟨⟨re, r1⟩, hR, h⟩ := ok_of_bind h
  simp only [] at h
  split at h
  · rename_i hre
    subst hre
    injection h with e; injection e with e1 e2
    rw [← e2]
    exact A_realloc_null hR
  · rename_i hre
    obtain ⟨_, _, h⟩ := ok_of_bind h
    obtain ⟨_, _, h⟩ := ok_of_bind h
    obtain ⟨_, _, h⟩ := ok_of_bind h
    obtain ⟨_, _, h⟩ := ok_of_bind h
    injection h with e; injection e with e1 e2
    exact absurd e1 hre

/-- The null result of `A_realloc`, in terms of the macro `_A_align`.  In a well-formed
state, for a non-null address `ptr` and a size `sz ≥ 1`, `A_realloc` returns `NULL` exactly
when `ptr` is not the data address of a used chunk, or it is the data address of a used
chunk smaller than `sz` and no free chunk has size at least `_A_align sz` (`sz` rounded up
to a multiple of 8 as long as `sz ≤ 2^64 - 8`, and 0 for the seven sizes above).  And
whenever `A_realloc`, or `AS_append_char_array` built on it, returns `NULL`, the state is
the state before the call, so the original block is still used, with its size and
bytes. -/
theorem realloc_null_iff (fuel : Nat) (r : Region) (fl ul : List Nat) (ptr sz : Nat)
    (h : WF r fl ul) (hptr : ptr ≠ 0) (hsz : 1 ≤ sz)
    (hfuel : fl.length + ul.length < fuel) :
    ((∃ r2, A_realloc fuel r ptr sz = .ok (0, r2)) ↔
      ((∀ c ∈ ul, c + 16 ≠ ptr) ∨
        (∃ c ∈ ul, c + 16 = ptr ∧ readU64 r.mem c < sz ∧
          ∀ f ∈ fl, readU64 r.mem f < _A_align sz))) ∧
    (∀ r2, A_realloc fuel r ptr sz = .ok (0, r2) → r2 = r) ∧
    (∀ astr carr n r2, AS_append_char_array fuel r astr carr n = .ok (0, r2) → r2 = r) := by
  refine ⟨⟨?_, ?_⟩, fun r2 h2 => A_realloc_null h2, fun astr carr n r2 h2 => AS_append_null h2⟩
  · rintro ⟨r2, hrun⟩
    rcases first_split (fun c => c + 16 = ptr) ul with hno | ⟨u1, p, u2, e, _, hhit⟩
    · exact Or.inl hno
    · right
      subst e
      have hhit : p + 16 = ptr := hhit
      subst hhit
      have hfuel1 : u1.length < fuel := by simp at hfuel; omega
      rw [A_realloc_found fuel r fl u1 u2 p sz h hsz hfuel1] at hrun
      by_cases hfit : readU64 r.mem p ≥ sz
      · rw [if_pos hfit] at hrun
        injection hrun with e; injection e with e1 e2
        omega
      · rw [if_neg hfit] at hrun
        refine ⟨p, by simp, rfl, by omega, ?_⟩
        rcases first_split (fun c => _A_align sz ≤ readU64 r.mem c) fl with hnf |
          ⟨l1, q, l2, e, hsm, hq⟩
        · intro f hf
          have := hnf f hf
          omega
        · exfalso
          subst e
          obtain ⟨r3, _, hrun3, _⟩ := A_alloc_some r l1 l2 _ q sz h hsz
            (fun c hc => by have := hsm c hc; omega) hq
          rw [hrun3 fuel (by simp at hfuel; omega), ok_bind] at hrun
          simp only [] at hrun
          rw [if_neg (by omega)] at hrun
          obtain ⟨_, _, hrun⟩ := ok_of_bind hrun
          obtain ⟨_, _, hrun⟩ := ok_of_bind hrun
          injection hrun with e; injection e with e1 e2
          omega
  · rintro (hno | ⟨c, hc, hhit, hsmall, hnf⟩)
    · exact ⟨r, A_realloc_unknown fuel r fl ul ptr sz h hptr hsz hno (by omega)⟩
    · obtain ⟨u1, u2, e⟩ := List.append_of_mem hc
      subst e
      subst hhit
      have hfuel1 : u1.length < fuel := by simp at hfuel; omega
      refine ⟨r, ?_⟩
      rw [A_realloc_found fuel r fl u1 u2 c sz h hsz hfuel1, if_neg (by omega),
        A_alloc_none fuel r fl _ sz h hsz hnf (by omega), ok_bind]
      rfl

/-- An instance of `realloc_null_iff`: in `arena80` (used chunk of 16 bytes, free chunk of 8
bytes) a request to grow the block to 64 bytes. -/
theorem realloc_null_iff_witness :
    ((∃ r2, A_realloc 3 arena80 4136 64 = .ok (0, r2)) ↔
      ((∀ c ∈ [4120], c + 16 ≠ 4136) ∨
        (∃ c ∈ [4120], c + 16 = 4136 ∧ readU64 arena80.mem c < 64 ∧
          ∀ f ∈ [4152], readU64 arena80.mem f < _A_align 64))) ∧
    (∀ r2, A_realloc 3 arena80 4136 64 = .ok (0, r2) → r2 = arena80) ∧
    (∀ astr carr n r2, AS_append_char_array 3 arena80 astr carr n = .ok (0, r2) →
      r2 = arena80) :=
  realloc_null_iff 3 arena80 [4152] [4120] 4136 64 (by decide) (by decide) (by decide)
    (by decide)

/-! ## Requests near `SIZE_MAX` -/

/-- Claim C8 (defect in the code). In the fresh arena of capacity 256 the only free chunk
has size 216.  The request `sz = 2^64 - 1` is larger than that, yet `A_alloc` does not
return `NULL`: `_A_align sz` wraps around to 0, the scan accepts the first chunk, and the
call returns its data address 4136 after shrinking the chunk to size 0 and moving it to
the used list. -/
theorem alloc_size_max_not_null :
    A_create zeroMem 4096 256 = .ok (some (created zeroMem 4096 256)) ∧
      WF (created zeroMem 4096 256) [4120] [] ∧
      readU64 (created zeroMem 4096 256).mem 4120 = 216 ∧
      _A_align (2 ^ 64 - 1) = 0 ∧
      (A_alloc 1 (created zeroMem 4096 256) (2 ^ 64 - 1)).map
        (fun x => (x.1, readU64 x.2.mem 4120, readU64 x.2.mem (4096 + 16))) =
        .ok (4136, 0, 4120) :=
  ⟨by rfl, by decide, by decide, by decide, by rfl⟩

/-! ## A run of allocations that fits the capacity -/

theorem seqAddrs_ge : ∀ (sizes : List Nat) (p : Nat), ∀ x ∈ seqAddrs p sizes, p ≤ x := by
  intro sizes
  induction sizes with
  | nil => intro p x hx; simp [seqAddrs] at hx
  | cons s ss ih =>
    intro p x hx
    rw [seqAddrs, List.mem_cons] at hx
    rcases hx with rfl | hx
    · exact le_refl _
    · have := ih _ x hx; omega

/-- Claim C9. On a fresh arena of capacity `C ≥ 40`, for every list of sizes, each at least
1, with `24 + Σ (16 + sᵢ rounded up to a multiple of 8) ≤ C`, the calls `A_alloc(a, sᵢ)`
made in turn all return a non-null address, and the ranges `[addrᵢ, addrᵢ + sᵢ)` lie
inside the block `[a, a + C)` and are pairwise disjoint (so a write into one block does
not touch a byte of another).  The block is assumed to lie in the address space:
`a + C < 2^64`. -/
theorem alloc_sequence_disjoint (fuel : Nat) (m0 : Mem) (a C : Nat) (sizes : List Nat)
    (ha : a ≠ 0) (hC : 40 ≤ C) (hnw : a + C < 2 ^ 64) (hpos : ∀ s ∈ sizes, 1 ≤ s)
    (hfit : 24 + (sizes.map (fun s => 16 + roundUp8 s)).sum ≤ C) (hfuel : 1 ≤ fuel) :
    ∃ r0 addrs r2, A_create m0 a C = .ok (some r0) ∧
      allocSeq fuel r0 sizes = .ok (addrs, r2) ∧
      addrs.length = sizes.length ∧
      (∀ p ∈ addrs, p ≠ 0) ∧
      (∀ x ∈ addrs.zip sizes, a ≤ x.1 ∧ x.1 + x.2 ≤ a + C) ∧
      (addrs.zip sizes).Pairwise (fun x y => x.1 + x.2 ≤ y.1 ∨ y.1 + y.2 ≤ x.1) := by
  have hwf := created_WF m0 a C ha hC hnw
  have hsize := created_size m0 a C hnw
  obtain ⟨r2, hrun⟩ := allocSeq_single fuel hfuel sizes (created m0 a C) (a + 24) [] hwf hpos
    (by rw [hsize]; omega)
  refine ⟨created m0 a C, _, r2, A_create_ok m0 a C ha hC hnw, hrun,
    seqAddrs_length sizes _, ?_, ?_, seqAddrs_disjoint sizes _⟩
  · intro p hp
    have := seqAddrs_ge sizes _ p hp
    omega
  · intro x hx
    have := seqAddrs_bounds sizes _ x hx
    omega

/-- C9 at work: the two allocations of the test `can_alloc_two_char_bufs` (5 and 3
bytes in an arena of capacity 256). -/
theorem alloc_sequence_disjoint_witness :
    ∃ r0 addrs r2, A_create zeroMem 4096 256 = .ok (some r0) ∧
      allocSeq 1 r0 [5, 3] = .ok (addrs, r2) ∧
      addrs.length = [5, 3].length ∧
      (∀ p ∈ addrs, p ≠ 0) ∧
      (∀ x ∈ addrs.zip [5, 3], 4096 ≤ x.1 ∧ x.1 + x.2 ≤ 4096 + 256) ∧
      (addrs.zip [5, 3]).Pairwise (fun x y => x.1 + x.2 ≤ y.1 ∨ y.1 + y.2 ≤ x.1) :=
  alloc_sequence_disjoint 1 zeroMem 4096 256 [5, 3] (by decide) (by decide) (by decide)
    (by decide) (by decide) (by decide)

/-! ## The region-partition invariant -/

/-- Pairwise disjoint intervals inside a finite set of addresses are no longer in total
than the set is large. -/
theorem spans_card_le (len : Nat → Nat) : ∀ (l : List Nat) (S : Finset Nat),
    l.Nodup →
    (∀ c ∈ l, ∀ d ∈ l, c ≠ d → c + len c ≤ d ∨ d + len d ≤ c) →
    (∀ c ∈ l, ∀ x, c ≤ x → x < c + len c → x ∈ S) →
    (l.map len).sum ≤ S.card := by
  intro l
  induction l with
  | nil => intro S _ _ _; simp
  | cons c cs ih =>
    intro S hnd hsep hin
    have hnd2 := List.nodup_cons.1 hnd
    have hsub : Finset.Ico c (c + len c) ⊆ S := by
      intro x hx
      rw [Finset.mem_Ico] at hx
      exact hin c (List.mem_cons_self _ _) x hx.1 hx.2
    have h1 := ih (S \ Finset.Ico c (c + len c)) hnd2.2
      (fun x hx y hy hxy => hsep x (List.mem_cons_of_mem _ hx) y (List.mem_cons_of_mem _ hy) hxy)
      (by
        intro d hd x hx1 hx2
        rw [Finset.mem_sdiff, Finset.mem_Ico]
        refine ⟨hin d (List.mem_cons_of_mem _ hd) x hx1 hx2, ?_⟩
        have hne : d ≠ c := fun e => hnd2.1 (e ▸ hd)
        have := hsep d (List.mem_cons_of_mem _ hd) c (List.mem_cons_self _ _) hne
        omega)
    rw [Finset.card_sdiff hsub, Nat.card_Ico] at h1
    have h2 := Finset.card_le_card hsub
    rw [Nat.card_Ico] at h2
    rw [List.map_cons, List.sum_cons]
    omega

/-- In a state that satisfies the partition invariant every byte after the arena header
lies in the span of a chunk. -/
theorem Partition.covers {r : Region} {fl ul : List Nat} (h : Partition r fl ul) (x : Nat)
    (hx1 : r.base + 24 ≤ x) (hx2 : x < r.base + r.cap) :
    ∃ c ∈ fl ++ ul, c ≤ x ∧ x < c + 16 + readU64 r.mem c := by
  by_contra hno
  push_neg at hno
  obtain ⟨hwf, hsum⟩ := h
  have hsep : ∀ c ∈ fl ++ ul, ∀ d ∈ fl ++ ul, c ≠ d →
      c + (16 + readU64 r.mem c) ≤ d ∨ d + (16 + readU64 r.mem d) ≤ c := by
    intro c hc d hd hcd
    have := hwf.sep c hc d hd hcd
    omega
  have hin : ∀ c ∈ fl ++ ul, ∀ y, c ≤ y → y < c + (16 + readU64 r.mem c) →
      y ∈ (Finset.Ico (r.base + 24) (r.base + r.cap)).erase x := by
    intro c hc y hy1 hy2
    rw [Finset.mem_erase, Finset.mem_Ico]
    have := hwf.inside c hc
    refine ⟨?_, by omega, by omega⟩
    rintro rfl
    have := hno c hc hy1
    omega
  have hle := spans_card_le (fun c => 16 + readU64 r.mem c) (fl ++ ul)
    ((Finset.Ico (r.base + 24) (r.base + r.cap)).erase x) hwf.nodup hsep hin
  rw [Finset.card_erase_of_mem (by rw [Finset.mem_Ico]; omega), Nat.card_Ico] at hle
  unfold spanSum at hsum
  omega

/-- Claim C10. In every state reachable from `A_create(cap)` with `cap ≥ 40` by any sequence
of returning `A_alloc`, `A_realloc` and `A_free` calls (the block lying in the address
space, `a + cap < 2^64`), the free list `fl` and the used list `ul` are null-terminated
lists of chunks whose header-plus-data spans `[c, c + 16 + c->sz)` lie after the arena
header inside the block, are pairwise disjoint, add up to `cap - 24` and cover every byte
after the header; no chunk occurs twice in `fl ++ ul`. -/
theorem partition_invariant (m0 : Mem) (a cap : Nat) (r : Region) (hcap : 40 ≤ cap)
    (hnw : a + cap < 2 ^ 64) (h : Reach m0 a cap r) :
    ∃ fl ul, WF r fl ul ∧ r.base = a ∧ r.cap = cap ∧
      (∀ c ∈ fl ++ ul, a + 24 ≤ c ∧ c + 16 + readU64 r.mem c ≤ a + cap) ∧
      (fl ++ ul).Pairwise
        (fun c d => c + 16 + readU64 r.mem c ≤ d ∨ d + 16 + readU64 r.mem d ≤ c) ∧
      spanSum r.mem (fl ++ ul) = cap - 24 ∧
      (∀ x, a + 24 ≤ x → x < a + cap →
        ∃ c ∈ fl ++ ul, c ≤ x ∧ x < c + 16 + readU64 r.mem c) ∧
      (fl ++ ul).Nodup := by
  obtain ⟨fl, ul, hp, hb, hc⟩ := Reach_inv hcap hnw h
  have hwf := hp.1
  refine ⟨fl, ul, hwf, hb, hc, ?_, ?_, ?_, ?_, hwf.nodup⟩
  · intro c hcm
    have := hwf.inside c hcm
    rw [hb, hc] at this
    exact this
  · exact hwf.nodup.pairwise_of_forall_ne (fun c hcm d hdm hcd => hwf.sep c hcm d hdm hcd)
  · have := hp.2
    omega
  · intro x hx1 hx2
    exact hp.covers x (by rw [hb]; exact hx1) (by rw [hb, hc]; exact hx2)

/-- C10 at work: the state after `A_create(256)` and `A_alloc(a, 8)`. -/
theorem partition_invariant_witness :
    ∃ r, Reach zeroMem 4096 256 r ∧ ∃ fl ul, WF r fl ul ∧ r.base = 4096 ∧ r.cap = 256 ∧
      (∀ c ∈ fl ++ ul, 4096 + 24 ≤ c ∧ c + 16 + readU64 r.mem c ≤ 4096 + 256) ∧
      (fl ++ ul).Pairwise
        (fun c d => c + 16 + readU64 r.mem c ≤ d ∨ d + 16 + readU64 r.mem d ≤ c) ∧
      spanSum r.mem (fl ++ ul) = 256 - 24 ∧
      (∀ x, 4096 + 24 ≤ x → x < 4096 + 256 →
        ∃ c ∈ fl ++ ul, c ≤ x ∧ x < c + 16 + readU64 r.mem c) ∧
      (fl ++ ul).Nodup := by
  obtain ⟨r2, hrun, _⟩ := A_alloc_split (created zeroMem 4096 256) [] [] [] 4120 8
    (by decide) (by decide) (by simp) (by decide)
  have hreach : Reach zeroMem 4096 256 r2 :=
    Reach.step _ _ (Reach.create _ (A_create_ok zeroMem 4096 256 (by decide) (by decide)
      (by decide))) (Step.alloc _ _ 8 (4120 + 16) 1 (hrun 1 (by decide)))
  exact ⟨r2, hreach, partition_invariant zeroMem 4096 256 r2 (by decide) (by decide) hreach⟩

/-! ## What a returning call did to a well-formed state -/

/-- The two lists of a well-formed state are determined by the memory. -/
theorem WF.unique {r : Region} {fl ul fl2 ul2 : List Nat} (h : WF r fl ul)
    (h2 : WF r fl2 ul2) : fl = fl2 ∧ ul = ul2 :=
  ⟨Lst_unique fl fl2 _ h.free_list h2.free_list, Lst_unique ul ul2 _ h.used_list h2.used_list⟩

/-- A returning `A_alloc` either returned `NULL` and changed nothing, or took the first
free chunk `p` that is large enough, split or whole. -/
theorem A_alloc_run (fuel : Nat) (r : Region) (fl ul : List Nat) (sz res : Nat) (r2 : Region)
    (h : WF r fl ul) (hfuel : fl.length < fuel)
    (hrun : A_alloc fuel r sz = .ok (res, r2)) :
    (res = 0 ∧ r2 = r) ∨
    ∃ l1 p l2, fl = l1 ++ p :: l2 ∧ res = p + 16 ∧ 1 ≤ sz ∧ r2.base = r.base ∧
      r2.cap = r.cap ∧
      (∀ c ∈ l1, readU64 r.mem c < _A_align sz) ∧ _A_align sz ≤ readU64 r.mem p ∧
      (∀ c ∈ fl ++ ul, c ≠ p → readU64 r2.mem c = readU64 r.mem c) ∧
      (∀ x, (x < r.base ∨ r.base + 24 ≤ x) → (∀ c ∈ fl ++ ul, x < c ∨ c + 16 ≤ x) →
        (_A_align sz + 24 ≤ readU64 r.mem p →
          x < p + 16 + _A_align sz ∨ p + 16 + _A_align sz + 16 ≤ x) → r2.mem x = r.mem x) ∧
      ((_A_align sz + 24 ≤ readU64 r.mem p ∧
          WF r2 (l1 ++ (p + 16 + _A_align sz) :: l2) (p :: ul) ∧
          readU64 r2.mem p = _A_align sz ∧
          readU64 r2.mem (p + 16 + _A_align sz) = readU64 r.mem p - 16 - _A_align sz) ∨
       (readU64 r.mem p < _A_align sz + 24 ∧ WF r2 (l1 ++ l2) (p :: ul) ∧
          readU64 r2.mem p = readU64 r.mem p)) := by
  by_cases hsz : sz < 1
  · have : A_alloc fuel r sz = .ok (0, r) := by
      unfold A_alloc; rw [if_pos (Or.inr hsz)]; rfl
    rw [this] at hrun
    injection hrun with e; injection e with e1 e2
    exact Or.inl ⟨e1.symm, e2.symm⟩
  rcases first_split (fun c => _A_align sz ≤ readU64 r.mem c) fl with
    hno | ⟨l1, p, l2, e, hsm, hfit⟩
  · rw [A_alloc_none fuel r fl ul sz h (by omega) (fun c hc => by have := hno c hc; omega)
      hfuel] at hrun
    injection hrun with e; injection e with e1 e2
    exact Or.inl ⟨e1.symm, e2.symm⟩
  · subst e
    right
    have hsm2 : ∀ c ∈ l1, readU64 r.mem c < _A_align sz := fun c hc => by
      have := hsm c hc; omega
    have hfit2 : _A_align sz ≤ readU64 r.mem p := hfit
    have hfuel1 : l1.length < fuel := by simp at hfuel; omega
    by_cases hs : _A_align sz + 24 ≤ readU64 r.mem p
    · obtain ⟨r3, hrun3, hb3, hc3, hwf3, hp3, ht3, hoth3, hfr3⟩ :=
        A_alloc_split r l1 l2 ul p sz h (by omega) hsm2 hs
      rw [hrun3 fuel hfuel1] at hrun
      injection hrun with e; injection e with e1 e2
      subst e2
      exact ⟨l1, p, l2, rfl, e1.symm, by omega, hb3, hc3, hsm2, hfit2, hoth3,
        fun x h1 h2 h3 => hfr3 x h1 h2 (h3 hs), Or.inl ⟨hs, hwf3, hp3, ht3⟩⟩
    · obtain ⟨r3, hrun3, hb3, hc3, hwf3, hfr3⟩ :=
        A_alloc_whole r l1 l2 ul p sz h (by omega) hsm2 hfit2 (by omega)
      rw [hrun3 fuel hfuel1] at hrun
      injection hrun with e; injection e with e1 e2
      subst e2
      have hsz3 := h.size_frame hfr3
      refine ⟨l1, p, l2, rfl, e1.symm, by omega, hb3, hc3, hsm2, hfit2,
        fun c hc _ => hsz3 c hc, ?_, Or.inr ⟨by omega, hwf3, hsz3 p (by simp)⟩⟩
      intro x hx1 hx2 _
      apply hfr3 x hx1
      intro c hc
      have := hx2 c hc
      omega

/-! ## Splitting, freeing an unknown address, creation -/

/-- Split or whole, in terms of the macro `_A_align`.  When `A_alloc(a, sz)` selects the
free chunk `p` (the first one whose size is at least `_A_align sz`), it returns `p`'s data
address and: if `p->sz ≥ 16 + _A_align sz + 8` the chunk is split, `p->sz` becomes exactly
`_A_align sz` and a new free chunk of size `old p->sz - 16 - _A_align sz` with header at
`p`'s data address `+ _A_align sz` takes `p`'s place in the free list; otherwise `p` keeps
its size and is just taken out of the free list.  In both cases the other free chunks keep
their order, `p` becomes the head of the used list in front of the previous used list, and
every other chunk keeps its size.  `_A_align sz` is `sz` rounded up to a multiple of 8 as
long as `sz ≤ 2^64 - 8`; for the seven sizes above it wraps to 0. -/
theorem alloc_split_or_whole (fuel : Nat) (r : Region) (l1 l2 ul : List Nat) (p sz : Nat)
    (h : WF r (l1 ++ p :: l2) ul) (hsz : 1 ≤ sz)
    (hsm : ∀ c ∈ l1, readU64 r.mem c < _A_align sz)
    (hfit : _A_align sz ≤ readU64 r.mem p) (hfuel : l1.length < fuel) :
    ∃ r2, A_alloc fuel r sz = .ok (p + 16, r2) ∧
      (16 + _A_align sz + 8 ≤ readU64 r.mem p →
        WF r2 (l1 ++ (p + 16 + _A_align sz) :: l2) (p :: ul) ∧
        readU64 r2.mem p = _A_align sz ∧
        readU64 r2.mem (p + 16 + _A_align sz) = readU64 r.mem p - 16 - _A_align sz) ∧
      (readU64 r.mem p < 16 + _A_align sz + 8 →
        WF r2 (l1 ++ l2) (p :: ul) ∧ readU64 r2.mem p = readU64 r.mem p) ∧
      (∀ c ∈ l1 ++ l2 ++ ul, readU64 r2.mem c = readU64 r.mem c) ∧
      (sz + 8 ≤ 2 ^ 64 → _A_align sz = roundUp8 sz) := by
  have hnd := h.nodup
  have hpl1 : p ∉ l1 := fun hm =>
    (List.nodup_append.1 (List.nodup_append.1 hnd).1).2.2 hm (List.mem_cons_self _ _)
  have hpl2 : p ∉ l2 :=
    (List.nodup_cons.1 (List.nodup_append.1 (List.nodup_append.1 hnd).1).2.1).1
  have hpul : p ∉ ul := fun hm => (List.nodup_append.1 hnd).2.2 (by simp) hm
  have hne : ∀ c ∈ l1 ++ l2 ++ ul, c ∈ (l1 ++ p :: l2) ++ ul ∧ c ≠ p := by
    intro c hc
    simp only [List.mem_append, List.mem_cons] at hc ⊢
    rcases hc with (hc | hc) | hc
    · exact ⟨Or.inl (Or.inl hc), fun e => hpl1 (e ▸ hc)⟩
    · exact ⟨Or.inl (Or.inr (Or.inr hc)), fun e => hpl2 (e ▸ hc)⟩
    · exact ⟨Or.inr hc, fun e => hpul (e ▸ hc)⟩
  by_cases hs : _A_align sz + 24 ≤ readU64 r.mem p
  · obtain ⟨r2, hrun, _, _, hwf2, hp2, ht2, hoth2, _⟩ :=
      A_alloc_split r l1 l2 ul p sz h hsz hsm hs
    exact ⟨r2, hrun fuel hfuel, fun _ => ⟨hwf2, hp2, ht2⟩, fun hc => by omega,
      fun c hc => hoth2 c (hne c hc).1 (hne c hc).2, A_align_eq_roundUp8 sz⟩
  · obtain ⟨r2, hrun, _, _, hwf2, hfr2⟩ :=
      A_alloc_whole r l1 l2 ul p sz h hsz hsm hfit (by omega)
    have hsz2 := h.size_frame hfr2
    exact ⟨r2, hrun fuel hfuel, fun hc => by omega, fun _ => ⟨hwf2, hsz2 p (by simp)⟩,
      fun c hc => hsz2 c (hne c hc).1, A_align_eq_roundUp8 sz⟩

/-- An instance of `alloc_split_or_whole`: in the state the 256-byte scenario leaves behind
(free list `[4168, 4120]` with sizes 168 and 8, used list `[4144]`), `A_alloc(a, 8)` selects
the chunk 4168 and splits it: it gets size 8 and the new free chunk 4192 of size 144 takes
its place in front of 4120. -/
theorem alloc_split_or_whole_witness :
    ∃ r2, A_alloc 1 arena256 8 = .ok (4168 + 16, r2) ∧
      (16 + _A_align 8 + 8 ≤ readU64 arena256.mem 4168 →
        WF r2 ([] ++ (4168 + 16 + _A_align 8) :: [4120]) (4168 :: [4144]) ∧
        readU64 r2.mem 4168 = _A_align 8 ∧
        readU64 r2.mem (4168 + 16 + _A_align 8) =
          readU64 arena256.mem 4168 - 16 - _A_align 8) ∧
      (readU64 arena256.mem 4168 < 16 + _A_align 8 + 8 →
        WF r2 ([] ++ [4120]) (4168 :: [4144]) ∧
        readU64 r2.mem 4168 = readU64 arena256.mem 4168) ∧
      (∀ c ∈ [] ++ [4120] ++ [4144], readU64 r2.mem c = readU64 arena256.mem c) ∧
      (8 + 8 ≤ 2 ^ 64 → _A_align 8 = roundUp8 8) :=
  alloc_split_or_whole 1 arena256 [] [4120] [4144] 4168 8 (by decide) (by decide)
    (by decide) (by decide) (by decide)

/-- Claim C13. For an address `ptr` that is not the data address of a chunk in the used
list (a foreign address, the null address, or the address of a block that was freed
before), `A_free(a, ptr)` returns and leaves the block as it is: the same free list, used
list, chunk sizes and bytes.  For the null address this holds in any state. -/
theorem free_unknown_noop (fuel : Nat) (r : Region) (fl ul : List Nat) (ptr : Nat)
    (h : WF r fl ul) (hno : ∀ c ∈ ul, c + 16 ≠ ptr) (hfuel : ul.length < fuel) :
    A_free fuel r ptr = .ok r ∧ ∀ (f : Nat) (s : Region), A_free f s 0 = .ok s := by
  refine ⟨A_free_noop fuel r fl ul ptr h hno hfuel, ?_⟩
  intro f s
  unfold A_free
  rw [if_pos (Or.inr rfl)]
  rfl

/-- C13 at work: in the state of the 256-byte scenario the block at 4136 was freed
already; freeing it a second time changes nothing. -/
theorem free_unknown_noop_witness :
    A_free 2 arena256 4136 = .ok arena256 ∧
      ∀ (f : Nat) (s : Region), A_free f s 0 = .ok s :=
  free_unknown_noop 2 arena256 [4168, 4120] [4144] 4136 (by decide) (by decide) (by decide)

theorem created_sz (m0 : Mem) (a sz : Nat) (hnw : a + sz < 2 ^ 64) :
    readU64 (created m0 a sz).mem a = sz := by
  unfold created
  simp only []
  rw [readU64_writeU64_disj _ _ _ _ (by omega), readU64_writeU64_disj _ _ _ _ (by omega),
    readU64_writeU64_disj _ _ _ _ (by omega), readU64_writeU64_disj _ _ _ _ (by omega),
    readU64_writeU64_same _ _ _ (by omega)]

/-- Claim C19. For a capacity `cap ≥ 40` and a successful `malloc` (address `a ≠ 0`, the
block inside the address space), `A_create(cap)` returns an arena whose used list is empty
and whose free list is the single chunk at `a + 24`, directly after the 24-byte arena
header, with a null `next` and size `cap - 24 - 16`.  The field `a->sz` holds `cap` and no
byte after the first 40 is written. -/
theorem create_initial_state (m0 : Mem) (a cap : Nat) (ha : a ≠ 0) (hcap : 40 ≤ cap)
    (hnw : a + cap < 2 ^ 64) :
    ∃ r, A_create m0 a cap = .ok (some r) ∧ r.base = a ∧ r.cap = cap ∧
      WF r [a + 24] [] ∧
      readU64 r.mem (a + 16) = 0 ∧
      readU64 r.mem (a + 8) = a + 24 ∧
      readU64 r.mem (a + 24 + 8) = 0 ∧
      readU64 r.mem (a + 24) = cap - 24 - 16 ∧
      readU64 r.mem a = cap ∧
      ∀ x, x < a ∨ a + 40 ≤ x → r.mem x = m0 x := by
  refine ⟨created m0 a cap, A_create_ok m0 a cap ha hcap hnw, rfl, rfl,
    created_WF m0 a cap ha hcap hnw, created_used m0 a cap, created_free m0 a cap hcap hnw,
    created_next m0 a cap, ?_, created_sz m0 a cap hnw, fun x hx => created_frame m0 a cap x hx⟩
  rw [created_size m0 a cap hnw]
  omega

/-- C19 at work: `A_create(256)` with the block at address 4096. -/
theorem create_initial_state_witness :
    ∃ r, A_create zeroMem 4096 256 = .ok (some r) ∧ r.base = 4096 ∧ r.cap = 256 ∧
      WF r [4096 + 24] [] ∧
      readU64 r.mem (4096 + 16) = 0 ∧
      readU64 r.mem (4096 + 8) = 4096 + 24 ∧
      readU64 r.mem (4096 + 24 + 8) = 0 ∧
      readU64 r.mem (4096 + 24) = 256 - 24 - 16 ∧
      readU64 r.mem 4096 = 256 ∧
      ∀ x, x < 4096 ∨ 4096 + 40 ≤ x → r.mem x = zeroMem x :=
  create_initial_state zeroMem 4096 256 (by decide) (by decide) (by decide)

/-! ## Loads, stores and copies that returned -/

theorem st_inv {r r2 : Region} {q off v : Nat} (h : st r q off v = .ok r2) :
    q ≠ 0 ∧ r.base ≤ q + off ∧ q + off + 8 ≤ r.base + r.cap ∧
      r2 = { r with mem := writeU64 r.mem (q + off) v } := by
  unfold st at h
  split at h
  · cases h
  · split at h
    · rename_i h0 hb
      injection h with e
      exact ⟨h0, hb.1, hb.2, e.symm⟩
    · cases h

theorem ld_inv {r : Region} {q off v : Nat} (h : ld r q off = .ok v) :
    q ≠ 0 ∧ r.base ≤ q + off ∧ q + off + 8 ≤ r.base + r.cap ∧ v = readU64 r.mem (q + off) := by
  unfold ld at h
  split at h
  · cases h
  · split at h
    · rename_i h0 hb
      injection h with e
      exact ⟨h0, hb.1, hb.2, e.symm⟩
    · cases h

theorem memcpyIn_inv {r r2 : Region} {dst n : Nat} {bytes : List Nat}
    (h : memcpyIn r dst bytes n = .ok r2) :
    r2.base = r.base ∧ r2.cap = r.cap ∧
      (n ≠ 0 → r.base ≤ dst ∧ dst + n ≤ r.base + r.cap ∧ n ≤ bytes.length) ∧
      (∀ x, dst ≤ x → x < dst + n → r2.mem x = bytes.getD (x - dst) 0 % 256) ∧
      (∀ x, (x < dst ∨ dst + n ≤ x) → r2.mem x = r.mem x) := by
  unfold memcpyIn at h
  split at h
  · rename_i hn
    injection h with e
    subst e
    exact ⟨rfl, rfl, fun h0 => absurd hn h0, fun x h1 h2 => by omega, fun x _ => rfl⟩
  · split at h
    · cases h
    · split at h
      · rename_i hb
        injection h with e
        subst e
        refine ⟨rfl, rfl, fun _ => hb, ?_, ?_⟩
        · intro x h1 h2
          show (if dst ≤ x ∧ x < dst + n then _ else _) = _
          rw [if_pos ⟨h1, h2⟩]
        · intro x hx
          show (if dst ≤ x ∧ x < dst + n then _ else _) = _
          rw [if_neg (by omega)]
      · cases h

theorem memcpyIn_ok {r : Region} {dst n : Nat} {bytes : List Nat}
    (h : n = 0 ∨ (dst ≠ 0 ∧ r.base ≤ dst ∧ dst + n ≤ r.base + r.cap ∧ n ≤ bytes.length)) :
    ∃ r2, memcpyIn r dst bytes n = .ok r2 := by
  unfold memcpyIn
  by_cases hn : n = 0
  · rw [if_pos hn]; exact ⟨_, rfl⟩
  · rcases h with h | ⟨h0, hb⟩
    · exact absurd h hn
    · rw [if_neg hn, if_neg h0, if_pos hb]; exact ⟨_, rfl⟩

theorem memset_ok {r : Region} {dst v n : Nat} (h0 : dst ≠ 0) (h1 : r.base ≤ dst)
    (h2 : dst + n ≤ r.base + r.cap) :
    ∃ r2, memset r dst v n = .ok r2 ∧ r2.base = r.base ∧ r2.cap = r.cap ∧
      (∀ x, dst ≤ x → x < dst + n → r2.mem x = v % 256) ∧
      (∀ x, (x < dst ∨ dst + n ≤ x) → r2.mem x = r.mem x) := by
  unfold memset
  by_cases hn : n = 0
  · rw [if_pos hn]
    exact ⟨r, rfl, rfl, rfl, fun x h1 h2 => by omega, fun x _ => rfl⟩
  · rw [if_neg hn, if_neg h0, if_pos ⟨h1, h2⟩]
    refine ⟨_, rfl, rfl, rfl, ?_, ?_⟩
    · intro x h1 h2
      show (if dst ≤ x ∧ x < dst + n then _ else _) = _
      rw [if_pos ⟨h1, h2⟩]
    · intro x hx
      show (if dst ≤ x ∧ x < dst + n then _ else _) = _
      rw [if_neg (by omega)]

/-! ## Allocation: totality and the size of the block handed out -/

/-- On a well-formed state `A_alloc` returns, given fuel for the free list. -/
theorem A_alloc_total (fuel : Nat) (r : Region) (fl ul : List Nat) (sz : Nat)
    (h : WF r fl ul) (hfuel : fl.length < fuel) :
    ∃ res r2, A_alloc fuel r sz = .ok (res, r2) := by
  by_cases hsz : sz < 1
  · refine ⟨0, r, ?_⟩
    unfold A_alloc; rw [if_pos (Or.inr hsz)]; rfl
  rcases first_split (fun c => _A_align sz ≤ readU64 r.mem c) fl with
    hno | ⟨l1, p, l2, e, hsm, hfit⟩
  · exact ⟨0, r, A_alloc_none fuel r fl ul sz h (by omega)
      (fun c hc => by have := hno c hc; omega) hfuel⟩
  · subst e
    have hsm2 : ∀ c ∈ l1, readU64 r.mem c < _A_align sz := fun c hc => by
      have := hsm c hc; omega
    obtain ⟨r2, fl2, hrun, _⟩ := A_alloc_some r l1 l2 ul p sz h (by omega) hsm2 hfit
    exact ⟨p + 16, r2, hrun fuel (by simp at hfuel; omega)⟩

/-- For a request that does not wrap in `_A_align`, the chunk handed out is at least as
large as the request. -/
theorem A_alloc_size_ge (fuel : Nat) (r : Region) (fl ul : List Nat) (sz res : Nat)
    (r2 : Region) (h : WF r fl ul) (hfuel : fl.length < fuel) (hsz8 : sz + 8 ≤ 2 ^ 64)
    (hrun : A_alloc fuel r sz = .ok (res, r2)) (hres : res ≠ 0) :
    ∃ p fl2, res = p + 16 ∧ p ∈ fl ∧ WF r2 fl2 (p :: ul) ∧ sz ≤ readU64 r2.mem p ∧
      _A_align sz ≤ readU64 r2.mem p ∧
      readU64 r2.mem p ≤ readU64 r.mem p ∧ r2.base = r.base ∧ r2.cap = r.cap := by
  rcases A_alloc_run fuel r fl ul sz res r2 h hfuel hrun with ⟨e, _⟩ |
    ⟨l1, p, l2, e, hres2, _, hb, hc, _, hfit, _, _, hcase⟩
  · exact absurd e hres
  · have hal := A_align_ge sz hsz8
    subst e
    rcases hcase with ⟨hs, hwf2, hp2, _⟩ | ⟨_, hwf2, hp2⟩
    · exact ⟨p, _, hres2, by simp, hwf2, by omega, by omega, by omega, hb, hc⟩
    · exact ⟨p, _, hres2, by simp, hwf2, by omega, by omega, by omega, hb, hc⟩

/-- A free chunk smaller than the aligned request is never the one handed out. -/
theorem A_alloc_skips_small (fuel : Nat) (r : Region) (fl ul : List Nat) (sz res p : Nat)
    (r2 : Region) (h : WF r fl ul) (hfuel : fl.length < fuel)
    (hsmall : readU64 r.mem p < _A_align sz)
    (hrun : A_alloc fuel r sz = .ok (res, r2)) : res ≠ p + 16 := by
  rcases A_alloc_run fuel r fl ul sz res r2 h hfuel hrun with ⟨e, _⟩ |
    ⟨l1, q, l2, e, hres2, _, _, _, _, hfit, _⟩
  · omega
  · intro e2
    have : q = p := by omega
    subst this
    omega

/-- The bytes of the block handed out are the bytes the region held there before. -/
theorem A_alloc_data (fuel : Nat) (r : Region) (fl ul : List Nat) (sz res : Nat)
    (r2 : Region) (h : WF r fl ul) (hfuel : fl.length < fuel)
    (hrun : A_alloc fuel r sz = .ok (res, r2)) (hres : res ≠ 0) :
    ∀ x, res ≤ x → x < res + _A_align sz → r2.mem x = r.mem x := by
  rcases A_alloc_run fuel r fl ul sz res r2 h hfuel hrun with ⟨e, _⟩ |
    ⟨l1, p, l2, e, hres2, _, hb, hc, _, hfit, _, hfr, _⟩
  · exact absurd e hres
  · intro x hx1 hx2
    have hpi := h.inside p (by rw [e]; simp)
    apply hfr x (by omega) ?_ (fun _ => by omega)
    intro c hc
    by_cases hcp : c = p
    · subst hcp; omega
    · have := h.sep c hc p (by rw [e]; simp) hcp
      omega

/-! ## `A_calloc` away from the wrap of `_A_align` -/

/-- For `1 ≤ cnt * sz ≤ 2^64 - 8` and `sz ≤ cnt * sz`, `A_calloc(a, cnt, sz)` returns the
address `A_alloc(a, cnt * sz)` returns; if it is not null the first `sz` bytes of the block
are zero and the bytes at the offsets `sz .. cnt * sz - 1` are the bytes the region held
before the call. -/
theorem A_calloc_spec (fuel : Nat) (r : Region) (fl ul : List Nat) (cnt sz : Nat)
    (h : WF r fl ul) (hfuel : fl.length < fuel) (hprod : cnt * sz + 8 ≤ 2 ^ 64)
    (hle : sz ≤ cnt * sz) :
    ∃ res r1 r2, A_alloc fuel r (cnt * sz) = .ok (res, r1) ∧
      A_calloc fuel r cnt sz = .ok (res, r2) ∧
      (res ≠ 0 → (∀ i, i < sz → r2.mem (res + i) = 0) ∧
        ∀ i, sz ≤ i → i < cnt * sz → r2.mem (res + i) = r.mem (res + i)) := by
  have hmul : mul64 cnt sz = cnt * sz := by
    unfold mul64; exact Nat.mod_eq_of_lt (by omega)
  generalize cnt * sz = n at hmul hprod hle ⊢
  obtain ⟨res, r1, hA⟩ := A_alloc_total fuel r fl ul n h hfuel
  by_cases hres : res = 0
  · subst hres
    refine ⟨0, r1, r1, hA, ?_, fun h0 => absurd rfl h0⟩
    unfold A_calloc
    rw [hmul, hA, ok_bind]
    rfl
  · obtain ⟨p, fl2, e, hpfl, hwf1, hsz1, hal1, hle1, hb1, hc1⟩ :=
      A_alloc_size_ge fuel r fl ul n res r1 h hfuel hprod hA hres
    have hpi := h.inside p (List.mem_append_left _ hpfl)
    have hdata := A_alloc_data fuel r fl ul n res r1 h hfuel hA hres
    have hal := A_align_ge n hprod
    obtain ⟨r2, hM, hb2, hc2, hin2, hout2⟩ :=
      @memset_ok r1 res 0 sz hres (by rw [hb1]; omega) (by rw [hb1, hc1]; omega)
    refine ⟨res, r1, r2, hA, ?_, fun _ => ⟨?_, ?_⟩⟩
    · unfold A_calloc
      rw [hmul, hA, ok_bind]
      simp only []
      rw [if_neg hres, hM, ok_bind]
      rfl
    · intro i hi
      rw [hin2 (res + i) (by omega) (by omega)]
    · intro i hi1 hi2
      rw [hout2 (res + i) (by omega)]
      exact hdata (res + i) (by omega) (by omega)

/-! ## The size of the block handed out, `A_calloc`, and the string round trip -/

/-- Claim C12 does not hold for the sizes at which `_A_align` wraps.  In an arena of
capacity 256, after `p = A_alloc(a, 8)` (`p = 4136`) and `A_free(a, p)` the free list is
`[4144, 4120]` with sizes 192 and 8.  `A_alloc(a, 9)` then returns 4160, not null and not
`p`, as the claim's witness says.  But `A_alloc(a, 2^64 - 1)` returns 4160 as well: the
chunk 4144 it hands out is in the used list with size 0, which is not `≥ 2^64 - 1`. -/
theorem alloc_size_max_small_chunk :
    A_create zeroMem 4096 256 = .ok (some (created zeroMem 4096 256)) ∧
      (∀ k, (A_alloc (k + 1) (created zeroMem 4096 256) 8).map Prod.fst = .ok 4136) ∧
      WF arena256f [4144, 4120] [] ∧
      readU64 arena256f.mem 4144 = 192 ∧ readU64 arena256f.mem 4120 = 8 ∧
      (∀ k, (A_alloc (k + 1) arena256f 9).map Prod.fst = .ok 4160) ∧
      (∀ k, (A_alloc (k + 1) arena256f (2 ^ 64 - 1)).map
        (fun x => (x.1, readU64 x.2.mem (x.1 - 16), readU64 x.2.mem (4096 + 16))) =
        .ok (4160, 0, 4144)) :=
  ⟨by rfl, fun _ => by rfl, by decide, by decide, by decide, fun _ => by rfl, fun _ => by rfl⟩

/-- Claim C14 does not hold for the products at which `_A_align` wraps.  On a fresh arena of
capacity 256, `count = 1` and `size = 2^64 - 1` have the product `2^64 - 1` without
overflow; `A_alloc(a, 2^64 - 1)` returns the address 4136, while `A_calloc(a, 1, 2^64 - 1)`
does not return: its `memset(m, 0, 2^64 - 1)` runs out of the block. -/
theorem calloc_size_max_faults :
    A_create zeroMem 4096 256 = .ok (some (created zeroMem 4096 256)) ∧
      1 * (2 ^ 64 - 1) < 2 ^ 64 ∧ mul64 1 (2 ^ 64 - 1) = 1 * (2 ^ 64 - 1) ∧
      (∀ k, (A_alloc (k + 1) (created zeroMem 4096 256) (1 * (2 ^ 64 - 1))).map Prod.fst =
        .ok 4136) ∧
      (∀ k, (A_calloc (k + 1) (created zeroMem 4096 256) 1 (2 ^ 64 - 1)).map Prod.fst =
        .error .outOfBounds) :=
  ⟨by rfl, by decide, by decide, fun _ => by rfl, fun _ => by rfl⟩

/-- What a returning `AS_create_from_char_array` with a non-null result did. -/
theorem AS_create_inv {fuel : Nat} {r : Region} {carr : List Nat} {sz h : Nat} {r2 : Region}
    (hsz : sz < 2 ^ 64)
    (hrun : AS_create_from_char_array fuel r carr sz = .ok (h, r2)) (hh : h ≠ 0) :
    ∃ r1, A_alloc fuel r (add64 8 sz) = .ok (h, r1) ∧ r2.base = r1.base ∧ r2.cap = r1.cap ∧
      r1.base ≤ h ∧ h + 8 ≤ r1.base + r1.cap ∧ readU64 r2.mem h = sz ∧
      (sz ≠ 0 → h + 8 + sz ≤ r1.base + r1.cap ∧ sz ≤ carr.length) ∧
      (∀ x, h + 8 ≤ x → x < h + 8 + sz → r2.mem x = carr.getD (x - (h + 8)) 0 % 256) ∧
      (∀ x, (x < h ∨ h + 8 + sz ≤ x) → r2.mem x = r1.mem x) := by
  unfold AS_create_from_char_array at hrun
  obtain ⟨⟨astr, r1⟩, hA, h1⟩ := ok_of_bind hrun
  simp only [] at h1
  by_cases h0 : astr = 0
  · rw [if_pos h0] at h1
    injection h1 with e; injection e with e1 e2
    exact absurd e1.symm hh
  rw [if_neg h0] at h1
  obtain ⟨r3, hS, h2⟩ := ok_of_bind h1
  obtain ⟨n, hL, h3⟩ := ok_of_bind h2
  obtain ⟨r4, hM, h4⟩ := ok_of_bind h3
  injection h4 with e; injection e with e1 e2
  subst e1 e2
  obtain ⟨_, hs1, hs2, hs3⟩ := st_inv hS
  obtain ⟨_, _, _, hl3⟩ := ld_inv hL
  subst hs3
  simp only [Nat.add_zero] at hl3 hs1 hs2
  rw [readU64_writeU64_same _ _ _ hsz] at hl3
  subst hl3
  obtain ⟨hb4, hc4, hin4, hcp4, hfr4⟩ := memcpyIn_inv hM
  refine ⟨r1, hA, hb4, hc4, hs1, hs2, ?_, ?_, hcp4, ?_⟩
  · have : readU64 r4.mem astr = readU64 (writeU64 r1.mem astr n) astr := by
      apply readU64_congr
      intro x hx1 hx2
      exact hfr4 x (by omega)
    rw [this, readU64_writeU64_same _ _ _ hsz]
  · intro hn
    exact ⟨(hin4 hn).2.1, (hin4 hn).2.2⟩
  · intro x hx
    rw [hfr4 x (by omega)]
    exact writeU64_out _ _ _ _ (by omega)

theorem readBytes_eq (m : Mem) (p : Nat) (b : List Nat) (hb : ∀ x ∈ b, x < 256)
    (h : ∀ i, i < b.length → m (p + i) % 256 = b.getD i 0 % 256) :
    readBytes m p b.length = b := by
  unfold readBytes
  apply List.ext_getElem
  · simp
  · intro i h1 h2
    simp only [List.getElem_map, List.getElem_range]
    rw [h i h2, List.getD_eq_getElem _ _ h2]
    exact Nat.mod_eq_of_lt (hb _ (List.getElem_mem _))

/-- Claim C16. For a byte sequence `b` (bytes are values below 256, the length is a
`size_t`) and any state: whenever `AS_create_from_char_array(a, b, len b)` returns a non-null
handle `h`, `AS_sz(h)` is `len b` and the `len b` bytes at `AS_data(h)` are `b`.  The call
does return on every well-formed state (for `len b ≤ 2^64 - 16`, given fuel for the free
list). -/
theorem string_round_trip (fuel : Nat) (r : Region) (b : List Nat) (hb : ∀ x ∈ b, x < 256)
    (hlen : b.length < 2 ^ 64) :
    (∀ h r2, AS_create_from_char_array fuel r b b.length = .ok (h, r2) → h ≠ 0 →
        AS_sz r2 h = .ok b.length ∧ readBytes r2.mem (AS_data h) b.length = b) ∧
    (∀ fl ul, WF r fl ul → fl.length < fuel → b.length + 16 ≤ 2 ^ 64 →
        ∃ h r2, AS_create_from_char_array fuel r b b.length = .ok (h, r2)) := by
  constructor
  · intro h r2 hrun hh
    obtain ⟨r1, _, hb2, hc2, h1, h2, hsz, _, hcp, _⟩ := AS_create_inv hlen hrun hh
    constructor
    · unfold AS_sz
      rw [ld_ok0 hh (by rw [hb2]; exact h1) (by rw [hb2, hc2]; exact h2), hsz]
    · apply readBytes_eq _ _ _ hb
      intro i hi
      unfold AS_data
      rw [hcp (h + 8 + i) (by omega) (by omega)]
      have : h + 8 + i - (h + 8) = i := by omega
      rw [this, Nat.mod_mod]
  · intro fl ul hwf hfuel hl16
    have hadd : add64 8 b.length = 8 + b.length := add64_eq _ _ (by omega)
    obtain ⟨res, r1, hA⟩ := A_alloc_total fuel r fl ul (8 + b.length) hwf hfuel
    unfold AS_create_from_char_array
    rw [hadd, hA, ok_bind]
    simp only []
    by_cases hres : res = 0
    · rw [if_pos hres]; exact ⟨_, _, rfl⟩
    · rw [if_neg hres]
      obtain ⟨p, fl2, e, hpfl, hwf1, hsz1, _, hle1, hb1, hc1⟩ :=
        A_alloc_size_ge fuel r fl ul (8 + b.length) res r1 hwf hfuel (by omega) hA hres
      have hpi := hwf1.inside p (by simp)
      subst e
      rw [st_ok0 hres (by omega) (by omega), ok_bind, ld_ok0 hres (by simp only []; omega)
        (by simp only []; omega), ok_bind]
      simp only []
      rw [readU64_writeU64_same _ _ _ hlen]
      obtain ⟨r4, hM⟩ := @memcpyIn_ok { r1 with mem := writeU64 r1.mem (p + 16) b.length }
        (p + 16 + 8) b.length b (Or.inr ⟨by omega, by simp only []; omega,
          by simp only []; omega, le_refl _⟩)
      rw [hM, ok_bind]
      exact ⟨_, _, rfl⟩

/-- C16 at work: the bytes of "ASDF" in a fresh arena of capacity 256 (the test
`can_create_astring`); the handle is 4136. -/
theorem string_round_trip_witness :
    AS_sz arenaStr 4136 = .ok [65, 83, 68, 70].length ∧
      readBytes arenaStr.mem (AS_data 4136) [65, 83, 68, 70].length = [65, 83, 68, 70] :=
  (string_round_trip 1 (created zeroMem 4096 256) [65, 83, 68, 70] (by decide)
    (by decide)).1 4136 arenaStr (by rfl) (by decide)

/-! ## Returning `A_free` and `A_realloc` on a well-formed state -/

theorem memcpy_inv {r r2 : Region} {dst src n : Nat} (hn : n ≠ 0)
    (h : memcpy r dst src n = .ok r2) :
    r2.base = r.base ∧ r2.cap = r.cap ∧ dst ≠ 0 ∧ src ≠ 0 ∧ r.base ≤ dst ∧
      dst + n ≤ r.base + r.cap ∧ r.base ≤ src ∧ src + n ≤ r.base + r.cap ∧
      (∀ x, dst ≤ x → x < dst + n → r2.mem x = r.mem (src + (x - dst))) ∧
      ∀ x, (x < dst ∨ dst + n ≤ x) → r2.mem x = r.mem x := by
  unfold memcpy at h
  rw [if_neg hn] at h
  split at h
  · cases h
  · rename_i h0
    split at h
    · rename_i hb
      injection h with e
      subst e
      refine ⟨rfl, rfl, fun e => h0 (Or.inl e), fun e => h0 (Or.inr e), hb.1, hb.2.1, hb.2.2.1,
        hb.2.2.2, ?_, ?_⟩
      · intro x h1 h2
        show (if dst ≤ x ∧ x < dst + n then _ else _) = _
        rw [if_pos ⟨h1, h2⟩]
      · intro x hx
        show (if dst ≤ x ∧ x < dst + n then _ else _) = _
        rw [if_neg (by omega)]
    · cases h

/-- A returning `A_free` either changed nothing (no used chunk has the address) or moved
the chunk from the used list to the end of a non-empty free list. -/
theorem A_free_run (fuel : Nat) (r : Region) (fl ul : List Nat) (ptr : Nat) (r2 : Region)
    (h : WF r fl ul) (hfuel : fl.length + ul.length < fuel)
    (hrun : A_free fuel r ptr = .ok r2) :
    (r2 = r ∧ ∀ c ∈ ul, c + 16 ≠ ptr) ∨
    ∃ u1 p u2, ul = u1 ++ p :: u2 ∧ ptr = p + 16 ∧ fl ≠ [] ∧ r2.base = r.base ∧
      r2.cap = r.cap ∧ WF r2 (fl ++ [p]) (u1 ++ u2) ∧
      NextFrame r.base (fl ++ ul) r.mem r2.mem := by
  rcases first_split (fun c => c + 16 = ptr) ul with hno | ⟨u1, p, u2, e, _, hhit⟩
  · rw [A_free_noop fuel r fl ul ptr h hno (by omega)] at hrun
    injection hrun with e
    exact Or.inl ⟨e.symm, hno⟩
  · subst e
    have hhit : p + 16 = ptr := hhit
    subst hhit
    have hfuel1 : u1.length < fuel := by simp at hfuel; omega
    by_cases hne : fl = []
    · subst hne
      rw [A_free_empty fuel r u1 u2 p h hfuel1] at hrun
      cases hrun
    · obtain ⟨r3, hrun3, hb3, hc3, hwf3, hfr3⟩ := A_free_ok r fl u1 u2 p h hne
      rw [hrun3 fuel hfuel1 (by omega)] at hrun
      injection hrun with e
      subst e
      exact Or.inr ⟨u1, p, u2, rfl, rfl, hne, hb3, hc3, hwf3, hfr3⟩

/-- A returning `A_realloc` either changed nothing, or ran `A_alloc`, `memcpy` and
`A_free` in turn for a used chunk that was too small. -/
theorem A_realloc_run (fuel : Nat) (r : Region) (fl ul : List Nat) (ptr sz res : Nat)
    (r2 : Region) (h : WF r fl ul) (hfuel : ul.length < fuel)
    (hrun : A_realloc fuel r ptr sz = .ok (res, r2)) :
    (r2 = r ∧ (res = 0 ∨ (res = ptr ∧
      (sz < 1 ∨ ∃ c ∈ ul, ptr = c + 16 ∧ sz ≤ readU64 r.mem c)))) ∨
    ∃ u1 p u2 r1 r3, ul = u1 ++ p :: u2 ∧ ptr = p + 16 ∧ 1 ≤ sz ∧ readU64 r.mem p < sz ∧
      res ≠ 0 ∧ A_alloc fuel r sz = .ok (res, r1) ∧ memcpy r1 res (p + 16) sz = .ok r3 ∧
      A_free fuel r3 (p + 16) = .ok r2 := by
  by_cases h0 : r.base = 0 ∨ ptr = 0 ∨ sz < 1
  · have : A_realloc fuel r ptr sz = .ok (ptr, r) := by
      unfold A_realloc; rw [if_pos h0]; rfl
    rw [this] at hrun
    injection hrun with e; injection e with e1 e2
    subst e1 e2
    left
    refine ⟨rfl, ?_⟩
    rcases h0 with h0 | h0 | h0
    · exact absurd h0 h.base_ne
    · exact Or.inl h0
    · exact Or.inr ⟨rfl, Or.inl h0⟩
  have hptr : ptr ≠ 0 := fun e => h0 (Or.inr (Or.inl e))
  have hsz : 1 ≤ sz := by
    by_contra hc
    exact h0 (Or.inr (Or.inr (by omega)))
  rcases first_split (fun c => c + 16 = ptr) ul with hno | ⟨u1, p, u2, e, _, hhit⟩
  · rw [A_realloc_unknown fuel r fl ul ptr sz h hptr hsz hno hfuel] at hrun
    injection hrun with e; injection e with e1 e2
    exact Or.inl ⟨e2.symm, Or.inl e1.symm⟩
  · subst e
    have hhit : p + 16 = ptr := hhit
    subst hhit
    have hfuel1 : u1.length < fuel := by simp at hfuel; omega
    rw [A_realloc_found fuel r fl u1 u2 p sz h hsz hfuel1] at hrun
    by_cases hfit : readU64 r.mem p ≥ sz
    · rw [if_pos hfit] at hrun
      injection hrun with e; injection e with e1 e2
      exact Or.inl ⟨e2.symm, Or.inr ⟨e1.symm, Or.inr ⟨p, by simp, rfl, hfit⟩⟩⟩
    · rw [if_neg hfit] at hrun
      obtain ⟨⟨new, r1⟩, hA, hrun1⟩ := ok_of_bind hrun
      simp only [] at hrun1
      by_cases hnew : new = 0
      · rw [if_pos hnew] at hrun1
        injection hrun1 with e; injection e with e1 e2
        subst hnew
        have := A_alloc_null hA
        subst this
        exact Or.inl ⟨e2.symm, Or.inl e1.symm⟩
      · rw [if_neg hnew] at hrun1
        obtain ⟨r3, hM, hrun2⟩ := ok_of_bind hrun1
        obtain ⟨r4, hF, hrun3⟩ := ok_of_bind hrun2
        injection hrun3 with e; injection e with e1 e2
        subst e1 e2
        exact Or.inr ⟨u1, p, u2, r1, r3, rfl, rfl, hsz, by omega, hnew, hA, hM, hF⟩

/-- The three steps of a growing `A_realloc`, one state after the other. -/
theorem A_realloc_grow (fuel : Nat) (r : Region) (fl u1 u2 : List Nat) (p sz res : Nat)
    (r1 r3 r2 : Region) (h : WF r fl (u1 ++ p :: u2)) (hsz : 1 ≤ sz)
    (hfuel : fl.length + (u1 ++ p :: u2).length + 1 < fuel) (hres : res ≠ 0)
    (hA : A_alloc fuel r sz = .ok (res, r1)) (hM : memcpy r1 res (p + 16) sz = .ok r3)
    (hF : A_free fuel r3 (p + 16) = .ok r2) :
    ∃ n fl1, res = n + 16 ∧ n ∈ fl ∧ sz + 8 ≤ 2 ^ 64 ∧
      r1.base = r.base ∧ r1.cap = r.cap ∧ r3.base = r.base ∧ r3.cap = r.cap ∧
      r2.base = r.base ∧ r2.cap = r.cap ∧
      WF r1 fl1 (n :: (u1 ++ p :: u2)) ∧ sz ≤ readU64 r1.mem n ∧
      WF r3 fl1 (n :: (u1 ++ p :: u2)) ∧
      (∀ c ∈ fl1 ++ n :: (u1 ++ p :: u2), readU64 r3.mem c = readU64 r1.mem c) ∧
      (∀ x, res ≤ x → x < res + sz → r3.mem x = r1.mem (p + 16 + (x - res))) ∧
      (∀ x, (x < res ∨ res + sz ≤ x) → r3.mem x = r1.mem x) ∧
      fl1 ≠ [] ∧ WF r2 (fl1 ++ [p]) (n :: (u1 ++ u2)) ∧
      NextFrame r.base (fl1 ++ n :: (u1 ++ p :: u2)) r3.mem r2.mem := by
  obtain ⟨hb3, hc3, _, _, _, hin3, _, _, hcp3, hfr3⟩ := memcpy_inv (by omega) hM
  rcases A_alloc_run fuel r fl _ sz res r1 h (by omega) hA with ⟨e, _⟩ |
    ⟨l1, n, l2, e, hres2, _, hb1, hc1, _, hfit, _, _, hcase⟩
  · exact absurd e hres
  have hni := h.inside n (by rw [e]; simp)
  have hnw := h.no_wrap
  have hsz8 : sz + 8 ≤ 2 ^ 64 := by omega
  obtain ⟨n2, fl1, e2, hnfl, hwf1, hsz1, _, _, _, _⟩ :=
    A_alloc_size_ge fuel r fl _ sz res r1 h (by omega) hsz8 hA hres
  have hnn : n2 = n := by omega
  subst hnn
  have hni1 := hwf1.inside n2 (by simp)
  obtain ⟨hwf3, hsz3⟩ := hwf1.of_hdr_frame hb3 hc3 (by
    intro x hx
    apply hfr3
    rcases hx with hx | ⟨c, hc, hx⟩
    · omega
    · by_cases hcn : c = n2
      · subst hcn; omega
      · have := hwf1.sep c hc n2 (by simp) hcn
        omega)
  have hlen : fl1.length ≤ fl.length := by
    rcases hcase with ⟨_, hw, _⟩ | ⟨_, hw, _⟩
    · have := (hwf1.unique hw).1
      rw [this, e]; simp
    · have := (hwf1.unique hw).1
      rw [this, e]; simp
  have hwf3b : WF r3 fl1 ((n2 :: u1) ++ p :: u2) := hwf3
  by_cases hne : fl1 = []
  · subst hne
    rw [A_free_empty fuel r3 (n2 :: u1) u2 p hwf3b (by simp at hfuel ⊢; omega)] at hF
    cases hF
  · obtain ⟨r4, hrun4, hb4, hc4, hwf4, hfr4⟩ := A_free_ok r3 fl1 (n2 :: u1) u2 p hwf3b hne
    rw [hrun4 fuel (by simp at hfuel ⊢; omega) (by omega)] at hF
    injection hF with e4
    subst e4
    refine ⟨n2, fl1, e2, hnfl, hsz8, hb1, hc1, by rw [hb3, hb1], by rw [hc3, hc1],
      by rw [hb4, hb3, hb1], by rw [hc4, hc3, hc1], hwf1, hsz1, hwf3, hsz3, ?_, hfr3, hne,
      hwf4, ?_⟩
    · intro x hx1 hx2
      exact hcp3 x hx1 hx2
    · rw [← hb1, ← hb3]
      exact hfr4

/-! ## Alignment of chunk addresses and sizes is kept by every operation -/

theorem Aligned.of_perm {r : Region} {k : Nat} {l l2 : List Nat} (h : Aligned r k l)
    (hp : ∀ c ∈ l2, c ∈ l) : Aligned r k l2 :=
  fun c hc => h c (hp c hc)

theorem Aligned.of_size {r r2 : Region} {k : Nat} {l : List Nat} (h : Aligned r k l)
    (hb : r2.base = r.base) (hs : ∀ c ∈ l, readU64 r2.mem c = readU64 r.mem c) :
    Aligned r2 k l := by
  intro c hc
  rw [hb, hs c hc]
  exact h c hc

theorem A_alloc_al (fuel : Nat) (r : Region) (fl ul : List Nat) (sz res k : Nat) (r2 : Region)
    (h : WF r fl ul) (hal : Aligned r k (fl ++ ul)) (hfuel : fl.length < fuel)
    (hrun : A_alloc fuel r sz = .ok (res, r2)) :
    ∃ fl2 ul2, WF r2 fl2 ul2 ∧ Aligned r2 k (fl2 ++ ul2) ∧ r2.base = r.base ∧
      r2.cap = r.cap := by
  rcases A_alloc_run fuel r fl ul sz res r2 h hfuel hrun with ⟨_, e⟩ |
    ⟨l1, p, l2, e, _, _, hb, hc, _, hfit, hoth, _, hcase⟩
  · subst e
    exact ⟨fl, ul, h, hal, rfl, rfl⟩
  subst e
  have hnd := h.nodup
  have hpl1 : p ∉ l1 := fun hm =>
    (List.nodup_append.1 (List.nodup_append.1 hnd).1).2.2 hm (List.mem_cons_self _ _)
  have hpl2 : p ∉ l2 :=
    (List.nodup_cons.1 (List.nodup_append.1 (List.nodup_append.1 hnd).1).2.1).1
  have hpul : p ∉ ul := fun hm => (List.nodup_append.1 hnd).2.2 (by simp) hm
  have hother : ∀ c, (c ∈ l1 ∨ c ∈ l2 ∨ c ∈ ul) →
      c % 8 = r2.base % 8 ∧ (readU64 r2.mem c % 8 = 0 ∨ readU64 r2.mem c % 8 = k % 8) := by
    intro c hcm
    have hmem : c ∈ (l1 ++ p :: l2) ++ ul := by
      simp only [List.mem_append, List.mem_cons]
      rcases hcm with hcm | hcm | hcm
      · exact Or.inl (Or.inl hcm)
      · exact Or.inl (Or.inr (Or.inr hcm))
      · exact Or.inr hcm
    have hne : c ≠ p := by
      rcases hcm with hcm | hcm | hcm
      · exact fun e => hpl1 (e ▸ hcm)
      · exact fun e => hpl2 (e ▸ hcm)
      · exact fun e => hpul (e ▸ hcm)
    rw [hb, hoth c hmem hne]
    exact hal c hmem
  have hp := hal p (by simp)
  have ham := A_align_mod sz
  rcases hcase with ⟨hs, hwf2, hp2, ht2⟩ | ⟨_, hwf2, hp2⟩
  · refine ⟨_, _, hwf2, ?_, hb, hc⟩
    intro c hcm
    simp only [List.mem_append, List.mem_cons] at hcm
    rcases hcm with (hcm | rfl | hcm) | rfl | hcm
    · exact hother c (Or.inl hcm)
    · rw [hb, ht2]
      refine ⟨by omega, ?_⟩
      rcases hp.2 with h8 | h8
      · left; omega
      · right; omega
    · exact hother c (Or.inr (Or.inl hcm))
    · rw [hb, hp2]
      exact ⟨hp.1, Or.inl ham⟩
    · exact hother c (Or.inr (Or.inr hcm))
  · refine ⟨_, _, hwf2, ?_, hb, hc⟩
    intro c hcm
    simp only [List.mem_append, List.mem_cons] at hcm
    rcases hcm with (hcm | hcm) | rfl | hcm
    · exact hother c (Or.inl hcm)
    · exact hother c (Or.inr (Or.inl hcm))
    · rw [hb, hp2]
      exact hp
    · exact hother c (Or.inr (Or.inr hcm))

theorem A_free_al (fuel : Nat) (r : Region) (fl ul : List Nat) (ptr k : Nat) (r2 : Region)
    (h : WF r fl ul) (hal : Aligned r k (fl ++ ul)) (hfuel : fl.length + ul.length < fuel)
    (hrun : A_free fuel r ptr = .ok r2) :
    ∃ fl2 ul2, WF r2 fl2 ul2 ∧ Aligned r2 k (fl2 ++ ul2) ∧ r2.base = r.base ∧
      r2.cap = r.cap := by
  rcases A_free_run fuel r fl ul ptr r2 h hfuel hrun with ⟨e, _⟩ |
    ⟨u1, p, u2, e, _, _, hb, hc, hwf2, hfr⟩
  · subst e
    exact ⟨fl, ul, h, hal, rfl, rfl⟩
  · subst e
    refine ⟨_, _, hwf2, ?_, hb, hc⟩
    have h1 : Aligned r2 k (fl ++ (u1 ++ p :: u2)) := hal.of_size hb (h.size_frame hfr)
    apply h1.of_perm
    intro c hcm
    simp only [List.mem_append, List.mem_cons, List.not_mem_nil, or_false] at hcm ⊢
    rcases hcm with (hcm | hcm) | hcm | hcm
    · exact Or.inl hcm
    · exact Or.inr (Or.inr (Or.inl hcm))
    · exact Or.inr (Or.inl hcm)
    · exact Or.inr (Or.inr (Or.inr hcm))

theorem A_realloc_al (fuel : Nat) (r : Region) (fl ul : List Nat) (ptr sz res k : Nat)
    (r2 : Region) (h : WF r fl ul) (hal : Aligned r k (fl ++ ul))
    (hfuel : fl.length + ul.length + 1 < fuel)
    (hrun : A_realloc fuel r ptr sz = .ok (res, r2)) :
    ∃ fl2 ul2, WF r2 fl2 ul2 ∧ Aligned r2 k (fl2 ++ ul2) ∧ r2.base = r.base ∧
      r2.cap = r.cap := by
  rcases A_realloc_run fuel r fl ul ptr sz res r2 h (by omega) hrun with ⟨e, _⟩ |
    ⟨u1, p, u2, r1, r3, e, _, hsz, _, hres, hA, hM, hF⟩
  · subst e
    exact ⟨fl, ul, h, hal, rfl, rfl⟩
  · subst e
    obtain ⟨n, fl1, _, _, _, hb1, hc1, hb3, hc3, hb2, hc2, hwf1, _, hwf3, hsz3, _, _, _, hwf2,
      hfr2⟩ := A_realloc_grow fuel r fl u1 u2 p sz res r1 r3 r2 h hsz hfuel hres hA hM hF
    obtain ⟨fl1b, ul1b, hwf1b, hal1, _, _⟩ :=
      A_alloc_al fuel r fl _ sz res k r1 h hal (by omega) hA
    obtain ⟨ef, eu⟩ := hwf1.unique hwf1b
    subst ef eu
    have hal3 : Aligned r3 k (fl1 ++ n :: (u1 ++ p :: u2)) :=
      hal1.of_size (by rw [hb3, hb1]) hsz3
    have hfr2b : NextFrame r3.base (fl1 ++ n :: (u1 ++ p :: u2)) r3.mem r2.mem := by
      rw [hb3]; exact hfr2
    have hal2 : Aligned r2 k (fl1 ++ n :: (u1 ++ p :: u2)) :=
      hal3.of_size (by rw [hb2, hb3]) (hwf3.size_frame hfr2b)
    refine ⟨_, _, hwf2, ?_, hb2, hc2⟩
    apply hal2.of_perm
    intro c hcm
    simp only [List.mem_append, List.mem_cons, List.not_mem_nil, or_false] at hcm ⊢
    rcases hcm with (hcm | hcm) | hcm | hcm | hcm
    · exact Or.inl hcm
    · exact Or.inr (Or.inr (Or.inr (Or.inl hcm)))
    · exact Or.inr (Or.inl hcm)
    · exact Or.inr (Or.inr (Or.inl hcm))
    · exact Or.inr (Or.inr (Or.inr (Or.inr hcm)))

/-! ## Reachable states are aligned -/

theorem A_create_cap {m0 : Mem} {a cap : Nat} {r : Region} (hnw : a + cap < 2 ^ 64)
    (h : A_create m0 a cap = .ok (some r)) : 40 ≤ cap := by
  unfold A_create at h
  by_cases ha : a = 0
  · rw [if_pos ha] at h
    cases h
  · rw [if_neg ha] at h
    simp only [] at h
    obtain ⟨r1, h1, h⟩ := ok_of_bind h
    obtain ⟨r2, h2, h⟩ := ok_of_bind h
    obtain ⟨r3, h3, h⟩ := ok_of_bind h
    obtain ⟨f, h4, h⟩ := ok_of_bind h
    obtain ⟨r5, h5, h⟩ := ok_of_bind h
    obtain ⟨f2, h6, h⟩ := ok_of_bind h
    obtain ⟨r7, h7, h⟩ := ok_of_bind h
    obtain ⟨_, _, _, e1⟩ := st_inv h1
    subst e1
    obtain ⟨_, _, _, e2⟩ := st_inv h2
    subst e2
    obtain ⟨_, _, hb3, e3⟩ := st_inv h3
    subst e3
    simp only [] at hb3
    obtain ⟨_, _, _, e4⟩ := ld_inv h4
    simp only [] at e4
    rw [readU64_writeU64_disj _ _ _ _ (by omega), readU64_writeU64_same _ _ _ (by omega)] at e4
    subst e4
    obtain ⟨_, _, _, e5⟩ := st_inv h5
    subst e5
    obtain ⟨_, _, _, e6⟩ := ld_inv h6
    simp only [] at e6
    rw [readU64_writeU64_disj _ _ _ _ (by omega), readU64_writeU64_disj _ _ _ _ (by omega),
      readU64_writeU64_same _ _ _ (by omega)] at e6
    subst e6
    obtain ⟨_, _, hb7, _⟩ := st_inv h7
    simp only [] at hb7
    omega

theorem Reach_cap {m0 : Mem} {a cap : Nat} {r : Region} (hnw : a + cap < 2 ^ 64)
    (h : Reach m0 a cap r) : 40 ≤ cap := by
  induction h with
  | create r hc => exact A_create_cap hnw hc
  | step r r2 _ _ ih => exact ih

theorem created_Aligned (m0 : Mem) (a cap : Nat) (hcap : 40 ≤ cap) (hnw : a + cap < 2 ^ 64) :
    Aligned (created m0 a cap) cap ([a + 24] ++ []) := by
  intro c hc
  simp only [List.append_nil, List.mem_singleton] at hc
  subst hc
  rw [created_size m0 a cap hnw]
  refine ⟨?_, Or.inr ?_⟩
  · show (a + 24) % 8 = a % 8
    omega
  · omega

theorem Step_al {r r2 : Region} {fl ul : List Nat} {k : Nat} (h : WF r fl ul)
    (hal : Aligned r k (fl ++ ul)) (hs : Step r r2) :
    ∃ fl2 ul2, WF r2 fl2 ul2 ∧ Aligned r2 k (fl2 ++ ul2) ∧ r2.base = r.base ∧
      r2.cap = r.cap := by
  cases hs with
  | alloc sz res fuel hrun =>
    have hrun2 := ok_of_le (f := fun n => A_alloc n r sz) (fun n x hx => A_alloc_mono hx) hrun
      (le_max_left fuel (fl.length + ul.length + 2))
    exact A_alloc_al _ r fl ul sz res k r2 h hal
      (by have := le_max_right fuel (fl.length + ul.length + 2); omega) hrun2
  | realloc ptr sz res fuel hrun =>
    have hrun2 := ok_of_le (f := fun n => A_realloc n r ptr sz) (fun n x hx => A_realloc_mono hx)
      hrun (le_max_left fuel (fl.length + ul.length + 2))
    exact A_realloc_al _ r fl ul ptr sz res k r2 h hal
      (by have := le_max_right fuel (fl.length + ul.length + 2); omega) hrun2
  | free ptr fuel hrun =>
    have hrun2 := ok_of_le (f := fun n => A_free n r ptr) (fun n x hx => A_free_mono hx) hrun
      (le_max_left fuel (fl.length + ul.length + 2))
    exact A_free_al _ r fl ul ptr k r2 h hal
      (by have := le_max_right fuel (fl.length + ul.length + 2); omega) hrun2

/-- Every state reachable from `A_create(cap)` is well formed with aligned chunks. -/
theorem Reach_al {m0 : Mem} {a cap : Nat} {r : Region} (hnw : a + cap < 2 ^ 64)
    (h : Reach m0 a cap r) :
    ∃ fl ul, WF r fl ul ∧ Aligned r cap (fl ++ ul) ∧ r.base = a ∧ r.cap = cap := by
  have hcap := Reach_cap hnw h
  induction h with
  | create r hc =>
    obtain ⟨ha, e⟩ := A_create_some hcap hnw hc
    subst e
    exact ⟨[a + 24], [], created_WF m0 a cap ha hcap hnw, created_Aligned m0 a cap hcap hnw,
      rfl, rfl⟩
  | step r r2 _ hs ih =>
    obtain ⟨fl, ul, hwf, hal, hb, hc⟩ := ih
    obtain ⟨fl2, ul2, hwf2, hal2, hb2, hc2⟩ := Step_al hwf hal hs
    exact ⟨fl2, ul2, hwf2, hal2, by rw [hb2, hb], by rw [hc2, hc]⟩

/-! ## The alignment invariants -/

/-- Claim C15 does not hold for a capacity that is not a multiple of 8.  `A_create(41)`
leaves a free chunk of size `41 - 40 = 1`; after `A_create(100)` and `A_alloc(a, 40)` the
used list holds a chunk of size 60.  Both states are reachable and neither size is a
multiple of 8. -/
theorem size_alignment_counterexample :
    A_create zeroMem 4096 41 = .ok (some (created zeroMem 4096 41)) ∧
      Reach zeroMem 4096 41 (created zeroMem 4096 41) ∧
      WF (created zeroMem 4096 41) [4120] [] ∧
      readU64 (created zeroMem 4096 41).mem 4120 = 1 ∧
      ¬ readU64 (created zeroMem 4096 41).mem 4120 % 8 = 0 ∧
      Reach zeroMem 4096 100 arena100 ∧
      WF arena100 [] [4120] ∧
      readU64 arena100.mem 4120 = 60 ∧
      ¬ readU64 arena100.mem 4120 % 8 = 0 :=
  ⟨by rfl, Reach.create _ (by rfl), by decide, by decide, by decide,
    Reach.step _ _ (Reach.create _ (by rfl)) (Step.alloc _ _ 40 4136 1 (by rfl)),
    by decide, by decide, by decide⟩

/-- Claim C15, amended.  In every state reachable from `A_create(cap)` by returning
`A_alloc`, `A_realloc` and `A_free` calls (the block lying in the address space; such
states exist for `cap ≥ 40` only, `Reach_cap`), the size of every chunk of the free list
and of the used list is a multiple of 8 or congruent to `cap` modulo 8; so if `cap` is a
multiple of 8, every size is a multiple of 8. -/
theorem size_alignment_invariant (m0 : Mem) (a cap : Nat) (r : Region)
    (hnw : a + cap < 2 ^ 64) (h : Reach m0 a cap r) :
    ∃ fl ul, WF r fl ul ∧
      (∀ c ∈ fl ++ ul, readU64 r.mem c % 8 = 0 ∨ readU64 r.mem c % 8 = cap % 8) ∧
      (cap % 8 = 0 → ∀ c ∈ fl ++ ul, readU64 r.mem c % 8 = 0) := by
  obtain ⟨fl, ul, hwf, hal, _, _⟩ := Reach_al hnw h
  refine ⟨fl, ul, hwf, fun c hc => (hal c hc).2, fun h8 c hc => ?_⟩
  rcases (hal c hc).2 with h1 | h1
  · exact h1
  · rw [h1, h8]

/-- C15 (amended) at work: capacity 256, the state after `p = A_alloc(a, 8)` and
`A_free(a, p)`, with the chunk sizes 192 and 8. -/
theorem size_alignment_invariant_witness :
    ∃ fl ul, WF arena256f fl ul ∧
      (∀ c ∈ fl ++ ul, readU64 arena256f.mem c % 8 = 0 ∨
        readU64 arena256f.mem c % 8 = 256 % 8) ∧
      (256 % 8 = 0 → ∀ c ∈ fl ++ ul, readU64 arena256f.mem c % 8 = 0) :=
  size_alignment_invariant zeroMem 4096 256 arena256f (by decide)
    (Reach.step _ _
      (Reach.step _ _ (Reach.create _ (by rfl))
        (Step.alloc _ (stateOf (A_alloc 1 (created zeroMem 4096 256) 8)
          (created zeroMem 4096 256)) 8 4136 1 (by rfl)))
      (Step.free _ _ 4136 1 (by rfl)))

/-- The address a returning `A_alloc` hands out in an aligned state is aligned. -/
theorem A_alloc_res_al {fuel : Nat} {r : Region} {fl ul : List Nat} {sz res k : Nat}
    {r2 : Region} (h : WF r fl ul) (hal : Aligned r k (fl ++ ul))
    (hrun : A_alloc fuel r sz = .ok (res, r2)) (hres : res ≠ 0) :
    r.base ≤ res ∧ (res - r.base) % 8 = 0 := by
  have hrun2 := ok_of_le (f := fun n => A_alloc n r sz) (fun n x hx => A_alloc_mono hx) hrun
    (le_max_left fuel (fl.length + 1))
  rcases A_alloc_run _ r fl ul sz res r2 h
      (by have := le_max_right fuel (fl.length + 1); omega) hrun2 with ⟨e, _⟩ |
    ⟨l1, p, l2, e, hres2, _⟩
  · exact absurd e hres
  · have hpm : p ∈ fl ++ ul := by rw [e]; simp
    have := h.inside p hpm
    have := (hal p hpm).1
    omega

theorem A_calloc_inv {fuel : Nat} {r : Region} {cnt sz res : Nat} {r2 : Region}
    (hrun : A_calloc fuel r cnt sz = .ok (res, r2)) :
    ∃ r1, A_alloc fuel r (mul64 cnt sz) = .ok (res, r1) := by
  unfold A_calloc at hrun
  obtain ⟨⟨m, r1⟩, hA, h1⟩ := ok_of_bind hrun
  simp only [] at h1
  by_cases hm : m = 0
  · rw [if_pos hm] at h1
    injection h1 with e; injection e with e1 e2
    subst hm
    exact ⟨r1, by rw [← e1]; exact hA⟩
  · rw [if_neg hm] at h1
    obtain ⟨r3, _, h2⟩ := ok_of_bind h1
    injection h2 with e; injection e with e1 e2
    subst e1
    exact ⟨r1, hA⟩

/-- Claim C20 does not hold for `A_realloc` with size 0, which returns its address
argument as it is: on a fresh arena at address 4096, `A_realloc(a, 4097, 0)` returns 4097,
a non-null address whose offset from the arena base is 1. -/
theorem realloc_zero_size_returns_argument :
    Reach zeroMem 4096 256 (created zeroMem 4096 256) ∧
      (∀ fuel, A_realloc fuel (created zeroMem 4096 256) 4097 0 =
        .ok (4097, created zeroMem 4096 256)) ∧
      4097 ≠ 0 ∧ ¬ (4097 - 4096) % 8 = 0 :=
  ⟨Reach.create _ (by rfl), fun _ => by rfl, by decide, by decide⟩

/-- Claim C20, amended.  In every state reachable from `A_create(cap)`, for any `cap` (the
block lying in the address space), the header and the data area of every chunk lie at an
offset from the arena base that is a multiple of 8.  Hence a non-null address returned by
`A_alloc` or `A_calloc` has such an offset, and so has one returned by `A_realloc` when
the size is at least 1 or the address passed in has such an offset itself. -/
theorem address_alignment_invariant (m0 : Mem) (a cap : Nat) (r : Region)
    (hnw : a + cap < 2 ^ 64) (h : Reach m0 a cap r) :
    ∃ fl ul, WF r fl ul ∧ r.base = a ∧
      (∀ c ∈ fl ++ ul, a ≤ c ∧ (c - a) % 8 = 0 ∧ (c + 16 - a) % 8 = 0) ∧
      (∀ fuel sz res r2, A_alloc fuel r sz = .ok (res, r2) → res ≠ 0 →
        a ≤ res ∧ (res - a) % 8 = 0) ∧
      (∀ fuel cnt sz res r2, A_calloc fuel r cnt sz = .ok (res, r2) → res ≠ 0 →
        a ≤ res ∧ (res - a) % 8 = 0) ∧
      (∀ fuel ptr sz res r2, A_realloc fuel r ptr sz = .ok (res, r2) → res ≠ 0 →
        (1 ≤ sz ∨ (a ≤ ptr ∧ (ptr - a) % 8 = 0)) → a ≤ res ∧ (res - a) % 8 = 0) := by
  obtain ⟨fl, ul, hwf, hal, hb, _⟩ := Reach_al hnw h
  subst hb
  refine ⟨fl, ul, hwf, rfl, ?_, ?_, ?_, ?_⟩
  · intro c hc
    have := hwf.inside c hc
    have := (hal c hc).1
    omega
  · intro fuel sz res r2 hrun hres
    exact A_alloc_res_al hwf hal hrun hres
  · intro fuel cnt sz res r2 hrun hres
    obtain ⟨r1, hA⟩ := A_calloc_inv hrun
    exact A_alloc_res_al hwf hal hA hres
  · intro fuel ptr sz res r2 hrun hres hpre
    have hrun2 := ok_of_le (f := fun n => A_realloc n r ptr sz)
      (fun n x hx => A_realloc_mono hx) hrun (le_max_left fuel (ul.length + 1))
    rcases A_realloc_run _ r fl ul ptr sz res r2 hwf
        (by have := le_max_right fuel (ul.length + 1); omega) hrun2 with ⟨_, hcase⟩ |
      ⟨u1, p, u2, r1, r3, _, _, _, _, _, hA, _, _⟩
    · rcases hcase with e | ⟨e, hc⟩
      · exact absurd e hres
      · subst e
        rcases hc with hc | ⟨c, hcm, e, _⟩
        · rcases hpre with hpre | hpre
          · omega
          · exact hpre
        · have := hwf.inside c (List.mem_append_right _ hcm)
          have := (hal c (List.mem_append_right _ hcm)).1
          omega
    · exact A_alloc_res_al hwf hal hA hres

/-- C20 (amended) at work: capacity 100, not a multiple of 8, the state after
`A_alloc(a, 8)` with the chunks 4120 (used, size 8) and 4144 (free, size 36). -/
theorem address_alignment_invariant_witness :
    ∃ fl ul, WF arena100s fl ul ∧ arena100s.base = 4096 ∧
      (∀ c ∈ fl ++ ul, 4096 ≤ c ∧ (c - 4096) % 8 = 0 ∧ (c + 16 - 4096) % 8 = 0) ∧
      (∀ fuel sz res r2, A_alloc fuel arena100s sz = .ok (res, r2) → res ≠ 0 →
        4096 ≤ res ∧ (res - 4096) % 8 = 0) ∧
      (∀ fuel cnt sz res r2, A_calloc fuel arena100s cnt sz = .ok (res, r2) → res ≠ 0 →
        4096 ≤ res ∧ (res - 4096) % 8 = 0) ∧
      (∀ fuel ptr sz res r2, A_realloc fuel arena100s ptr sz = .ok (res, r2) → res ≠ 0 →
        (1 ≤ sz ∨ (4096 ≤ ptr ∧ (ptr - 4096) % 8 = 0)) →
        4096 ≤ res ∧ (res - 4096) % 8 = 0) :=
  address_alignment_invariant zeroMem 4096 100 arena100s (by decide)
    (Reach.step _ _ (Reach.create _ (by rfl)) (Step.alloc _ _ 8 4136 1 (by rfl)))

/-! ## Byte strings in the arena -/

theorem readBytes_length (m : Mem) (p n : Nat) : (readBytes m p n).length = n := by
  unfold readBytes; simp

theorem readBytes_getD {m : Mem} {p n : Nat} {s : List Nat} (h : readBytes m p n = s)
    {i : Nat} (hi : i < n) : m (p + i) % 256 = s.getD i 0 := by
  subst h
  unfold readBytes
  rw [List.getD_eq_getElem _ _ (by simp; exact hi)]
  simp

theorem readBytes_lt {m : Mem} {p n : Nat} {s : List Nat} (h : readBytes m p n = s) :
    ∀ x ∈ s, x < 256 := by
  subst h
  intro x hx
  unfold readBytes at hx
  rw [List.mem_map] at hx
  obtain ⟨i, _, e⟩ := hx
  rw [← e]
  exact Nat.mod_lt _ (by decide)

/-- The bytes of `s ++ t` are in place when those of `s` are and those of `t` follow. -/
theorem readBytes_append {m : Mem} {p : Nat} {s t : List Nat} (ht : ∀ x ∈ t, x < 256)
    (h1 : readBytes m p s.length = s)
    (h2 : ∀ i, i < t.length → m (p + s.length + i) % 256 = t.getD i 0 % 256) :
    readBytes m p (s ++ t).length = s ++ t := by
  have hs := readBytes_lt h1
  apply readBytes_eq
  · intro x hx
    rcases List.mem_append.1 hx with hx | hx
    · exact hs x hx
    · exact ht x hx
  · intro i hi
    rw [List.length_append] at hi
    by_cases his : i < s.length
    · rw [readBytes_getD h1 his, List.getD_append _ _ _ _ his,
        Nat.mod_eq_of_lt (hs _ ?_)]
      rw [List.getD_eq_getElem _ _ his]
      exact List.getElem_mem _
    · have e : p + i = p + s.length + (i - s.length) := by omega
      rw [e, h2 _ (by omega), List.getD_append_right _ _ _ _ (by omega)]

/-- `A_alloc` does not touch the data bytes of a used chunk. -/
theorem A_alloc_keep (fuel : Nat) (r : Region) (fl ul : List Nat) (sz res : Nat)
    (r2 : Region) (h : WF r fl ul) (hfuel : fl.length < fuel)
    (hrun : A_alloc fuel r sz = .ok (res, r2)) :
    ∀ c ∈ ul, ∀ x, c + 16 ≤ x → x < c + 16 + readU64 r.mem c → r2.mem x = r.mem x := by
  intro c hc x hx1 hx2
  rcases A_alloc_run fuel r fl ul sz res r2 h hfuel hrun with ⟨_, e⟩ |
    ⟨l1, p, l2, e, _, _, _, _, _, hfit, _, hfr, _⟩
  · rw [e]
  · have hcm : c ∈ fl ++ ul := List.mem_append_right _ hc
    have hpm : p ∈ fl ++ ul := by rw [e]; simp
    have hci := h.inside c hcm
    have hcp : c ≠ p := by
      intro e2
      subst e2
      exact (List.nodup_append.1 h.nodup).2.2 (by rw [e]; simp) hc
    have hsep := h.sep c hcm p hpm hcp
    apply hfr x (by omega)
    · intro d hd
      by_cases hdc : d = c
      · subst hdc; omega
      · have := h.sep d hd c hcm hdc
        omega
    · intro hs
      omega

/-- A non-null result of `AS_create_from_char_array` on a well-formed state is a live
string with the given bytes, in a well-formed state. -/
theorem AS_create_str (fuel : Nat) (r : Region) (fl ul : List Nat) (b : List Nat) (h : Nat)
    (r2 : Region) (hwf : WF r fl ul) (hb : ∀ x ∈ b, x < 256) (hlen : b.length < 2 ^ 64)
    (hfuel : fl.length < fuel)
    (hrun : AS_create_from_char_array fuel r b b.length = .ok (h, r2)) (hh : h ≠ 0) :
    ∃ c fl2, WF r2 fl2 (c :: ul) ∧ IsString r2 (c :: ul) h b ∧ h = c + 16 ∧ c ∈ fl ∧
      r2.base = r.base ∧ r2.cap = r.cap ∧
      (∀ d ∈ fl2 ++ c :: ul, readU64 r2.mem d ≤ readU64 r.mem d ∨ d ∉ fl ++ ul) := by
  obtain ⟨r1, hA, hb2, hc2, h1, h2, hsz, hbd, hcp, hfr⟩ := AS_create_inv hlen hrun hh
  have hnw := hwf.no_wrap
  -- the request does not wrap
  have hadd : add64 8 b.length = 8 + b.length ∧ 8 + b.length + 8 ≤ 2 ^ 64 := by
    rcases A_alloc_run fuel r fl ul _ h r1 hwf hfuel hA with ⟨e, _⟩ |
      ⟨l1, p, l2, e, hres2, _, hb1, hc1, _⟩
    · exact absurd e hh
    · have hpi := hwf.inside p (by rw [e]; simp)
      by_cases h0 : b.length = 0
      · rw [h0]; exact ⟨by decide, by decide⟩
      · have := (hbd h0).1
        rw [hb1, hc1] at this
        exact ⟨add64_eq _ _ (by omega), by omega⟩
  rw [hadd.1] at hA
  obtain ⟨p, fl2, e, hpfl, hwf1, hsz1, _, hle1, hb1, hc1⟩ :=
    A_alloc_size_ge fuel r fl ul (8 + b.length) h r1 hwf hfuel hadd.2 hA hh
  subst e
  have hpi := hwf1.inside p (by simp)
  obtain ⟨hwf2, hsz2⟩ := hwf1.of_hdr_frame hb2 hc2 (by
    intro x hx
    apply hfr
    rcases hx with hx | ⟨c, hc, hx⟩
    · omega
    · by_cases hcn : c = p
      · subst hcn; omega
      · have := hwf1.sep c hc p (by simp) hcn
        omega)
  refine ⟨p, fl2, hwf2, ⟨p, by simp, rfl, ?_, hsz, ?_⟩, rfl, hpfl, by rw [hb2, hb1],
    by rw [hc2, hc1], ?_⟩
  · rw [hsz2 p (by simp)]; exact hsz1
  · apply readBytes_eq _ _ _ hb
    intro i hi
    rw [hcp (p + 16 + 8 + i) (by omega) (by omega)]
    have : p + 16 + 8 + i - (p + 16 + 8) = i := by omega
    rw [this, Nat.mod_mod]
  · intro d hd
    by_cases hdm : d ∈ fl ++ ul
    · left
      rw [hsz2 d hd]
      rcases A_alloc_run fuel r fl ul _ (p + 16) r1 hwf hfuel hA with ⟨e, _⟩ |
        ⟨l1, q, l2, e, hres2, _, _, _, _, _, hoth, _, _⟩
      · omega
      · have hq : q = p := by omega
        subst hq
        by_cases hdq : d = q
        · subst hdq; exact hle1
        · rw [hoth d hdm hdq]
    · exact Or.inr hdm

theorem readU64_shift {m m2 : Mem} {q q2 : Nat} (h : ∀ i, i < 8 → m2 (q2 + i) = m (q + i)) :
    readU64 m2 q2 = readU64 m q := by
  have e0 : m2 q2 = m q := h 0 (by omega)
  unfold readU64
  rw [e0, h 1 (by omega), h 2 (by omega), h 3 (by omega), h 4 (by omega), h 5 (by omega),
    h 6 (by omega), h 7 (by omega)]

theorem readBytes_shift {m m2 : Mem} {p p2 n : Nat} (h : ∀ i, i < n → m2 (p2 + i) = m (p + i)) :
    readBytes m2 p2 n = readBytes m p n := by
  unfold readBytes
  apply List.map_congr_left
  intro i hi
  rw [h i (List.mem_range.1 hi)]

/-- A non-null result of `A_realloc` for a live string and a size with room for it is the
data address of a used chunk of at least that size which starts with the string. -/
theorem A_realloc_keep_str (fuel : Nat) (r : Region) (fl ul : List Nat) (h : Nat)
    (s : List Nat) (sz res : Nat) (r2 : Region) (hwf : WF r fl ul)
    (hstr : IsString r ul h s) (hsz : 8 + s.length ≤ sz)
    (hfuel : fl.length + ul.length + 1 < fuel)
    (hrun : A_realloc fuel r h sz = .ok (res, r2)) (hres : res ≠ 0) :
    ∃ fl2 ul2 c, WF r2 fl2 ul2 ∧ c ∈ ul2 ∧ res = c + 16 ∧ sz ≤ readU64 r2.mem c ∧
      readU64 r2.mem res = s.length ∧ readBytes r2.mem (res + 8) s.length = s ∧
      r2.base = r.base ∧ r2.cap = r.cap := by
  obtain ⟨c, hc, eh, hroom, hlenf, hbytes⟩ := hstr
  subst eh
  rcases A_realloc_run fuel r fl ul (c + 16) sz res r2 hwf (by omega) hrun with ⟨e, hcase⟩ |
    ⟨u1, p, u2, r1, r3, e, ep, hsz1, hsmall, _, hA, hM, hF⟩
  · subst e
    rcases hcase with e | ⟨e, hc2⟩
    · exact absurd e hres
    · subst e
      rcases hc2 with hc2 | ⟨c2, hc2m, e2, hfit⟩
      · omega
      · have : c2 = c := by omega
        subst this
        exact ⟨fl, ul, c2, hwf, hc, rfl, hfit, hlenf, hbytes, rfl, rfl⟩
  · have hpc : p = c := by omega
    subst hpc e
    obtain ⟨n, fl1, eres, hnfl, _, hb1, hc1, hb3, hc3, hb2, hc2, hwf1, hszn, hwf3, hsz3, hcp3,
      _, _, hwf2, hfr2⟩ :=
      A_realloc_grow fuel r fl u1 u2 p sz res r1 r3 r2 hwf hsz1 hfuel hres hA hM hF
    subst eres
    have hfr2b : NextFrame r3.base (fl1 ++ n :: (u1 ++ p :: u2)) r3.mem r2.mem := by
      rw [hb3]; exact hfr2
    have hnm : n ∈ fl1 ++ n :: (u1 ++ p :: u2) := by simp
    have hszn3 : readU64 r3.mem n = readU64 r1.mem n := hsz3 n hnm
    have hszn2 : readU64 r2.mem n = readU64 r3.mem n := hwf3.size_frame hfr2b n hnm
    have hkeep := A_alloc_keep fuel r fl _ sz (n + 16) r1 hwf (by omega) hA p (by simp)
    have hdata : ∀ i, i < 8 + s.length → r2.mem (n + 16 + i) = r.mem (p + 16 + i) := by
      intro i hi
      rw [hwf3.data_frame hfr2b n hnm (n + 16 + i) (by omega) (by omega),
        hcp3 (n + 16 + i) (by omega) (by omega)]
      have : p + 16 + (n + 16 + i - (n + 16)) = p + 16 + i := by omega
      rw [this]
      exact hkeep (p + 16 + i) (by omega) (by omega)
    refine ⟨_, _, n, hwf2, by simp, rfl, by omega, ?_, ?_, hb2, hc2⟩
    · rw [← hlenf]
      exact readU64_shift (fun i hi => hdata i (by omega))
    · refine (readBytes_shift ?_).trans hbytes
      intro i hi
      have := hdata (8 + i) (by omega)
      rw [show n + 16 + 8 + i = n + 16 + (8 + i) by omega,
        show p + 16 + 8 + i = p + 16 + (8 + i) by omega]
      exact this

theorem AS_append_inv {fuel : Nat} {r : Region} {astr : Nat} {carr : List Nat}
    {sz h2 : Nat} {r2 : Region}
    (hrun : AS_append_char_array fuel r astr carr sz = .ok (h2, r2)) (hh : h2 ≠ 0) :
    ∃ r1 r3, A_realloc fuel r astr (add64 (add64 8 (readU64 r.mem astr)) sz) = .ok (h2, r1) ∧
      memcpyIn r1 (h2 + 8 + readU64 r1.mem h2) carr sz = .ok r3 ∧
      r2 = { r3 with mem := writeU64 r3.mem h2 (add64 (readU64 r3.mem h2) sz) } := by
  unfold AS_append_char_array at hrun
  obtain ⟨n, hL, h1⟩ := ok_of_bind hrun
  obtain ⟨_, _, _, en⟩ := ld_inv hL
  rw [Nat.add_zero] at en
  subst en
  obtain ⟨⟨re, r1⟩, hR, h2b⟩ := ok_of_bind h1
  simp only [] at h2b
  by_cases h0 : re = 0
  · rw [if_pos h0] at h2b
    injection h2b with e; injection e with e1 e2
    exact absurd e1.symm hh
  rw [if_neg h0] at h2b
  obtain ⟨n1, hL1, h3⟩ := ok_of_bind h2b
  obtain ⟨_, _, _, en1⟩ := ld_inv hL1
  rw [Nat.add_zero] at en1
  subst en1
  obtain ⟨r3, hM, h4⟩ := ok_of_bind h3
  obtain ⟨n3, hL3, h5⟩ := ok_of_bind h4
  obtain ⟨_, _, _, en3⟩ := ld_inv hL3
  rw [Nat.add_zero] at en3
  subst en3
  obtain ⟨r4, hS, h6⟩ := ok_of_bind h5
  obtain ⟨_, _, _, e4⟩ := st_inv hS
  rw [Nat.add_zero] at e4
  injection h6 with e; injection e with e1 e2
  subst e1 e2 e4
  exact ⟨r1, r3, hR, hM, rfl⟩

/-- The end of `AS_append_char_array`: the new bytes are copied behind the string and the
length field is updated, inside a used chunk with room for both. -/
theorem AS_fill (r1 r3 r2 : Region) (fl ul : List Nat) (c : Nat) (s t : List Nat)
    (hwf : WF r1 fl ul) (hc : c ∈ ul)
    (hroom : 8 + s.length + t.length ≤ readU64 r1.mem c)
    (hlenf : readU64 r1.mem (c + 16) = s.length)
    (hbytes : readBytes r1.mem (c + 16 + 8) s.length = s) (ht : ∀ x ∈ t, x < 256)
    (hM : memcpyIn r1 (c + 16 + 8 + s.length) t t.length = .ok r3)
    (e2 : r2 =
      { r3 with mem := writeU64 r3.mem (c + 16) (add64 (readU64 r3.mem (c + 16)) t.length) }) :
    WF r2 fl ul ∧ IsString r2 ul (c + 16) (s ++ t) ∧ r2.base = r1.base ∧ r2.cap = r1.cap ∧
      ∀ d ∈ fl ++ ul, readU64 r2.mem d = readU64 r1.mem d := by
  obtain ⟨hb3, hc3, _, hcp3, hfr3⟩ := memcpyIn_inv hM
  have hcm : c ∈ fl ++ ul := List.mem_append_right _ hc
  have hci := hwf.inside c hcm
  have hlt := readU64_lt r1.mem c
  have hl3 : readU64 r3.mem (c + 16) = s.length := by
    rw [← hlenf]
    apply readU64_congr
    intro x hx1 hx2
    exact hfr3 x (by omega)
  rw [hl3, add64_eq _ _ (by omega)] at e2
  subst e2
  have hmem : ∀ x, (x < c + 16 ∨ c + 16 + readU64 r1.mem c ≤ x) →
      writeU64 r3.mem (c + 16) (s.length + t.length) x = r1.mem x := by
    intro x hx
    rw [writeU64_out _ _ _ _ (by omega)]
    exact hfr3 x (by omega)
  obtain ⟨hwf2, hsz2⟩ := @WF.of_hdr_frame r1
    { r3 with mem := writeU64 r3.mem (c + 16) (s.length + t.length) } fl ul hwf hb3 hc3 (by
      intro x hx
      apply hmem
      rcases hx with hx | ⟨d, hd, hx⟩
      · omega
      · by_cases hdc : d = c
        · subst hdc; omega
        · have := hwf.sep d hd c hcm hdc
          omega)
  refine ⟨hwf2, ⟨c, hc, rfl, ?_, ?_, ?_⟩, hb3, hc3, hsz2⟩
  · rw [hsz2 c hcm, List.length_append]
    omega
  · rw [List.length_append]
    exact readU64_writeU64_same _ _ _ (by omega)
  · apply readBytes_append ht
    · refine (readBytes_shift ?_).trans hbytes
      intro i hi
      show writeU64 r3.mem (c + 16) (s.length + t.length) (c + 16 + 8 + i) = _
      rw [writeU64_out _ _ _ _ (by omega)]
      exact hfr3 _ (by omega)
    · intro i hi
      show writeU64 r3.mem (c + 16) (s.length + t.length) (c + 16 + 8 + s.length + i) % 256 = _
      rw [writeU64_out _ _ _ _ (by omega), hcp3 _ (by omega) (by omega)]
      have : c + 16 + 8 + s.length + i - (c + 16 + 8 + s.length) = i := by omega
      rw [this, Nat.mod_mod]

/-- A non-null result of `AS_append_char_array` for a live string `s` and the bytes `t` is a
live string with the bytes `s ++ t`, in a well-formed state. -/
theorem AS_append_str (fuel : Nat) (r : Region) (fl ul : List Nat) (h : Nat)
    (s t : List Nat) (h2 : Nat) (r2 : Region) (hwf : WF r fl ul)
    (hstr : IsString r ul h s) (ht : ∀ x ∈ t, x < 256) (hlen : t.length < 2 ^ 64)
    (hfuel : fl.length + ul.length + 1 < fuel)
    (hrun : AS_append_char_array fuel r h t t.length = .ok (h2, r2)) (hh : h2 ≠ 0) :
    ∃ fl2 ul2, WF r2 fl2 ul2 ∧ IsString r2 ul2 h2 (s ++ t) ∧ r2.base = r.base ∧
      r2.cap = r.cap := by
  obtain ⟨r1, r3, hR, hM, e2⟩ := AS_append_inv hrun hh
  have hstr0 := hstr
  obtain ⟨c, hc, eh, hroom, hlenf, hbytes⟩ := hstr
  have hcm : c ∈ fl ++ ul := List.mem_append_right _ hc
  have hci := hwf.inside c hcm
  have hnw := hwf.no_wrap
  have hlt := readU64_lt r.mem c
  rw [hlenf, add64_eq 8 _ (by omega)] at hR
  -- the requested size does not wrap
  have hadd : add64 (8 + s.length) t.length = 8 + s.length + t.length := by
    by_cases hw : 8 + s.length + t.length < 2 ^ 64
    · exact add64_eq _ _ hw
    · exfalso
      have hval : add64 (8 + s.length) t.length = 8 + s.length + t.length - 2 ^ 64 := by
        unfold add64
        rw [Nat.mod_eq_sub_mod (by omega), Nat.mod_eq_of_lt (by omega)]
      rw [hval] at hR
      subst eh
      rcases A_realloc_run fuel r fl ul (c + 16) _ h2 r1 hwf (by omega) hR with
        ⟨e, hcase⟩ | ⟨u1, p, u2, r1b, r3b, e, ep, _, hsmall, _⟩
      · subst e
        rcases hcase with e | ⟨e, _⟩
        · exact hh e
        · subst e
          obtain ⟨_, _, hbd, _, _⟩ := memcpyIn_inv hM
          have := hbd (by omega)
          rw [hlenf] at this
          omega
      · have : p = c := by omega
        subst this
        omega
  rw [hadd] at hR
  obtain ⟨fl2, ul2, c2, hwf1, hc2, e3, hroom2, hlenf2, hbytes2, hb1, hc1⟩ :=
    A_realloc_keep_str fuel r fl ul h s _ h2 r1 hwf hstr0 (by omega) hfuel hR hh
  subst e3
  rw [hlenf2] at hM
  obtain ⟨hwf2, hstr2, hb2, hc2b, _⟩ :=
    AS_fill r1 r3 r2 fl2 ul2 c2 s t hwf1 hc2 hroom2 hlenf2 hbytes2 ht hM e2
  exact ⟨fl2, ul2, hwf2, hstr2, by rw [hb2, hb1], by rw [hc2b, hc1]⟩

/-! ## Appending nothing -/

/-- Storing the word that was loaded from a place leaves every byte as it was. -/
theorem writeU64_self (m : Mem) (p x : Nat) :
    writeU64 m p (readU64 m p) x % 256 = m x % 256 := by
  unfold writeU64
  by_cases hx : p ≤ x ∧ x < p + 8
  · rw [if_pos hx]
    obtain ⟨k, hk⟩ : ∃ k, x = p + k := ⟨x - p, by omega⟩
    subst hk
    have hk8 : k < 8 := by omega
    have e : p + k - p = k := by omega
    rw [e]
    unfold readU64
    interval_cases k
    all_goals (try simp only [Nat.add_zero])
    all_goals omega
  · rw [if_neg hx]

theorem readU64_bytes {m m2 : Mem} (h : ∀ x, m2 x % 256 = m x % 256) (q : Nat) :
    readU64 m2 q = readU64 m q := by
  unfold readU64
  rw [h q, h (q + 1), h (q + 2), h (q + 3), h (q + 4), h (q + 5), h (q + 6), h (q + 7)]

/-- Claim C18. For a live string handle `h` with the bytes `s` (the data address of a used
chunk that has room for the length field and the bytes, which is what
`AS_create_from_char_array` and `AS_append_char_array` return: `AS_create_str`,
`AS_append_str`), `AS_append_char_array(a, h, "", 0)` returns `h` itself; afterwards every
byte of the block has the value it had, so the free list and the used list are the same,
`AS_sz(h)` is `len s` and the bytes at `AS_data(h)` are `s`. -/
theorem append_empty_identity (fuel : Nat) (r : Region) (fl ul : List Nat) (h : Nat)
    (s : List Nat) (hwf : WF r fl ul) (hstr : IsString r ul h s) (hfuel : ul.length < fuel) :
    ∃ r2, AS_append_char_array fuel r h [] 0 = .ok (h, r2) ∧
      r2.base = r.base ∧ r2.cap = r.cap ∧
      (∀ x, r2.mem x % 256 = r.mem x % 256) ∧
      WF r2 fl ul ∧ IsString r2 ul h s ∧
      AS_sz r2 h = .ok s.length ∧ AS_sz r h = .ok s.length ∧
      readBytes r2.mem (AS_data h) s.length = s ∧ readBytes r.mem (AS_data h) s.length = s := by
  obtain ⟨c, hc, eh, hroom, hlenf, hbytes⟩ := hstr
  subst eh
  have hcm : c ∈ fl ++ ul := List.mem_append_right _ hc
  have hci := hwf.inside c hcm
  have hnw := hwf.no_wrap
  have hlt := readU64_lt r.mem c
  obtain ⟨u1, u2, eul⟩ := List.append_of_mem hc
  subst eul
  have hfuel1 : u1.length < fuel := by simp at hfuel; omega
  have hh0 : c + 16 ≠ 0 := by omega
  have hld : ld r (c + 16) 0 = .ok s.length := by
    rw [ld_ok0 hh0 (by omega) (by omega), hlenf]
  have hrun : AS_append_char_array fuel r (c + 16) [] 0 =
      .ok (c + 16, { r with mem := writeU64 r.mem (c + 16) (readU64 r.mem (c + 16)) }) := by
    have e1 : add64 (add64 8 s.length) 0 = 8 + s.length := by
      rw [add64_eq 8 _ (by omega), add64_eq _ 0 (by omega)]; rfl
    have e2 : add64 s.length 0 = s.length := by
      rw [add64_eq _ 0 (by omega)]; rfl
    unfold AS_append_char_array
    rw [hld, ok_bind, e1,
      A_realloc_fits fuel r fl u1 u2 c (8 + s.length) hwf (by omega) hroom hfuel1, ok_bind]
    simp only []
    rw [if_neg hh0, hld, ok_bind]
    have hm : memcpyIn r (c + 16 + 8 + s.length) [] 0 = .ok r := by
      unfold memcpyIn; rw [if_pos rfl]
    rw [hm, ok_bind, hld, ok_bind]
    show (st r (c + 16) 0 (add64 s.length 0) >>= fun r => pure (c + 16, r)) = _
    rw [e2, st_ok0 hh0 (by omega) (by omega), ok_bind, hlenf]
    rfl
  have hbyte : ∀ x, writeU64 r.mem (c + 16) (readU64 r.mem (c + 16)) x % 256 = r.mem x % 256 :=
    writeU64_self r.mem (c + 16)
  have hrd : ∀ q, readU64 (writeU64 r.mem (c + 16) (readU64 r.mem (c + 16))) q =
      readU64 r.mem q := readU64_bytes hbyte
  have hout : ∀ x, (x < c + 16 ∨ c + 24 ≤ x) →
      writeU64 r.mem (c + 16) (readU64 r.mem (c + 16)) x = r.mem x :=
    fun x hx => writeU64_out _ _ _ _ (by omega)
  obtain ⟨hwf2, _⟩ := @WF.of_hdr_frame r
    { r with mem := writeU64 r.mem (c + 16) (readU64 r.mem (c + 16)) } fl _ hwf rfl rfl (by
      intro x hx
      apply hout
      rcases hx with hx | ⟨d, hd, hx⟩
      · omega
      · by_cases hdc : d = c
        · subst hdc; omega
        · have := hwf.sep d hd c hcm hdc
          omega)
  have hb2 : readBytes (writeU64 r.mem (c + 16) (readU64 r.mem (c + 16))) (c + 16 + 8)
      s.length = s := by
    refine (readBytes_shift ?_).trans hbytes
    intro i _
    exact hout _ (by omega)
  refine ⟨_, hrun, rfl, rfl, hbyte, hwf2, ⟨c, hc, rfl, ?_, ?_, hb2⟩, ?_, hld, hb2, hbytes⟩
  · show 8 + s.length ≤ readU64 (writeU64 r.mem (c + 16) (readU64 r.mem (c + 16))) c
    rw [hrd]; exact hroom
  · show readU64 (writeU64 r.mem (c + 16) (readU64 r.mem (c + 16))) (c + 16) = s.length
    rw [hrd]; exact hlenf
  · unfold AS_sz
    rw [ld_ok0 hh0 (by simp only []; omega) (by simp only []; omega)]
    show Except.ok (readU64 (writeU64 r.mem (c + 16) (readU64 r.mem (c + 16))) (c + 16)) = _
    rw [hrd, hlenf]

/-- C18 at work: the string "ASDF" created in a fresh arena of capacity 256 (handle 4136,
chunk 4120 of size 16, free list `[4152]`). -/
theorem append_empty_identity_witness :
    ∃ r2, AS_append_char_array 2 arenaStr 4136 [] 0 = .ok (4136, r2) ∧
      r2.base = arenaStr.base ∧ r2.cap = arenaStr.cap ∧
      (∀ x, r2.mem x % 256 = arenaStr.mem x % 256) ∧
      WF r2 [4152] [4120] ∧ IsString r2 [4120] 4136 [65, 83, 68, 70] ∧
      AS_sz r2 4136 = .ok [65, 83, 68, 70].length ∧
      AS_sz arenaStr 4136 = .ok [65, 83, 68, 70].length ∧
      readBytes r2.mem (AS_data 4136) [65, 83, 68, 70].length = [65, 83, 68, 70] ∧
      readBytes arenaStr.mem (AS_data 4136) [65, 83, 68, 70].length = [65, 83, 68, 70] :=
  append_empty_identity 2 arenaStr [4152] [4120] 4136 [65, 83, 68, 70] (by decide)
    ⟨4120, by decide, by decide, by decide, by decide, by decide⟩ (by decide)

/-! ## Two appends in a row -/

/-- Claim C17 does not hold when the block of an append takes the last free chunk whole.
Capacity 96, `A` = "ASDF", `B` = "asdfasdf", `C` = "!": `24 + 16 + 8 + 4 + 8 + 1 ≤ 96`, and
the blocks needed (16 + 16 bytes for `A`, 16 + 24 bytes for `A ++ B`, in which `A ++ B ++ C`
fits as well) fill the 72 bytes after the arena header exactly.
`AS_create_from_char_array` returns the handle 4136 and leaves the free list `[4152]` with
a chunk of size 24; `AS_append_char_array` with `B` needs 20 bytes, `A_alloc(a, 20)` succeeds
(address 4168) and empties the free list, and the `A_free` of the old block then stores
through the null pointer: the append does not return.  In the 256-byte arena of the claim's
witness the three calls return and the final string is `A ++ B ++ C`. -/
theorem append_faults_on_last_free_chunk :
    A_create zeroMem 4096 96 = .ok (some (created zeroMem 4096 96)) ∧
      24 + 16 + 8 + [65, 83, 68, 70].length + [97, 115, 100, 102, 97, 115, 100, 102].length +
        [33].length ≤ 96 ∧
      (∀ k, (AS_create_from_char_array (k + 1) (created zeroMem 4096 96) [65, 83, 68, 70]
        4).map Prod.fst = .ok 4136) ∧
      WF arena96 [4152] [4120] ∧
      readU64 arena96.mem 4120 = 16 ∧ readU64 arena96.mem 4152 = 24 ∧
      (∀ k, (A_alloc (k + 1) arena96 (8 + 4 + 8)).map
        (fun x => (x.1, readU64 x.2.mem (4096 + 8))) = .ok (4168, 0)) ∧
      (∀ k, (AS_append_char_array (k + 2) arena96 4136
        [97, 115, 100, 102, 97, 115, 100, 102] 8).map Prod.fst = .error .nullDeref) ∧
      (∀ k, (createAppendAppend (k + 2) 96 [65, 83, 68, 70]
        [97, 115, 100, 102, 97, 115, 100, 102] [33]).map Prod.fst = .error .nullDeref) ∧
      (∀ k, (createAppendAppend (k + 3) 256 [65, 83, 68, 70] [97, 115, 100, 102]
          [65, 97, 83, 115, 68, 100, 70, 102]).map
        (fun x => (x.1, readU64 x.2.mem x.1, readBytes x.2.mem (AS_data x.1) 16)) =
        .ok (4168, 16, [65, 83, 68, 70, 97, 115, 100, 102, 65, 97, 83, 115, 68, 100, 70, 102])) :=
  ⟨by rfl, by decide, fun _ => by rfl, by decide, by decide, by decide, fun _ => by rfl,
    fun _ => by rfl, fun _ => by rfl, fun _ => by rfl⟩

/-! ## Appends that find room

The runs below are made in a state whose first free chunk `f` lies above every used chunk
and is large enough to be split for each new block, as it is on a fresh arena. -/

theorem memcpy_total {r : Region} {dst src n : Nat} (hd : dst ≠ 0) (hs : src ≠ 0)
    (hb : r.base ≤ dst ∧ dst + n ≤ r.base + r.cap ∧ r.base ≤ src ∧ src + n ≤ r.base + r.cap) :
    ∃ r2, memcpy r dst src n = .ok r2 := by
  unfold memcpy
  by_cases hn : n = 0
  · rw [if_pos hn]; exact ⟨_, rfl⟩
  · rw [if_neg hn, if_neg (by intro h; rcases h with h | h; exact hd h; exact hs h), if_pos hb]
    exact ⟨_, rfl⟩

/-- `A_realloc` for a used chunk `c` below the first free chunk `f`, which has room for a
split: the block stays in place if it is large enough, otherwise it moves to `f`, the rest
of `f` becomes the first free chunk and `c` the last one. -/
theorem A_realloc_ok (fuel : Nat) (r : Region) (f : Nat) (rest u1 : List Nat) (c : Nat)
    (u2 : List Nat) (sz : Nat) (hwf : WF r (f :: rest) (u1 ++ c :: u2)) (hbelow : c < f)
    (hsz : 1 ≤ sz) (hsz8 : sz + 8 ≤ 2 ^ 64) (hroom : _A_align sz + 24 ≤ readU64 r.mem f)
    (hfuel : (f :: rest).length + (u1 ++ c :: u2).length + 1 < fuel) :
    (sz ≤ readU64 r.mem c ∧ A_realloc fuel r (c + 16) sz = .ok (c + 16, r)) ∨
    (readU64 r.mem c < sz ∧ ∃ r2, A_realloc fuel r (c + 16) sz = .ok (f + 16, r2) ∧
      WF r2 ((f + 16 + _A_align sz) :: (rest ++ [c])) (f :: (u1 ++ u2)) ∧
      readU64 r2.mem (f + 16 + _A_align sz) = readU64 r.mem f - 16 - _A_align sz ∧
      r2.base = r.base ∧ r2.cap = r.cap) := by
  have hfuel1 : u1.length < fuel := by simp at hfuel; omega
  by_cases hfit : sz ≤ readU64 r.mem c
  · exact Or.inl ⟨hfit, A_realloc_fits fuel r _ u1 u2 c sz hwf hsz hfit hfuel1⟩
  right
  refine ⟨by omega, ?_⟩
  have hal := A_align_ge sz hsz8
  have hfm : f ∈ (f :: rest) ++ (u1 ++ c :: u2) := by simp
  have hcm : c ∈ (f :: rest) ++ (u1 ++ c :: u2) := by simp
  have hfi := hwf.inside f hfm
  have hci := hwf.inside c hcm
  have hsep := hwf.sep c hcm f hfm (by omega)
  obtain ⟨r1, hrunA, hb1, hc1, hwf1, hp1, ht1, _, _⟩ :=
    A_alloc_split r [] rest _ f sz hwf hsz (by simp) hroom
  have hA := hrunA fuel (by simp; omega)
  have hwf1b : WF r1 ((f + 16 + _A_align sz) :: rest) (f :: (u1 ++ c :: u2)) := hwf1
  obtain ⟨r3, hM⟩ := @memcpy_total r1 (f + 16) (c + 16) sz (by omega) (by omega)
    (by rw [hb1, hc1]; omega)
  obtain ⟨hb3, hc3, _, _, _, _, _, _, _, hfr3⟩ := memcpy_inv (by omega) hM
  have hfi1 := hwf1b.inside f (by simp)
  obtain ⟨hwf3, hsz3⟩ := hwf1b.of_hdr_frame hb3 hc3 (by
    intro x hx
    apply hfr3
    rcases hx with hx | ⟨d, hd, hx⟩
    · omega
    · by_cases hdf : d = f
      · subst hdf; omega
      · have := hwf1b.sep d hd f (by simp) hdf
        omega)
  have hwf3b : WF r3 ((f + 16 + _A_align sz) :: rest) ((f :: u1) ++ c :: u2) := hwf3
  obtain ⟨r4, hrun4, hb4, hc4, hwf4, hfr4⟩ :=
    A_free_ok r3 ((f + 16 + _A_align sz) :: rest) (f :: u1) u2 c hwf3b (by simp)
  have hF := hrun4 fuel (by simp at hfuel ⊢; omega) (by simp at hfuel ⊢; omega)
  refine ⟨r4, ?_, hwf4, ?_, by rw [hb4, hb3, hb1], by rw [hc4, hc3, hc1]⟩
  · rw [A_realloc_found fuel r _ u1 u2 c sz hwf hsz hfuel1, if_neg (by omega), hA, ok_bind]
    simp only []
    rw [if_neg (by omega), hM, ok_bind, hF, ok_bind]
    rfl
  · rw [hwf3b.size_frame hfr4 _ (by simp), hsz3 _ (by simp), ht1]

/-- `AS_append_char_array` for a live string in such a state returns a live string with the
bytes appended, in a state of the same kind. -/
theorem AS_append_ok (fuel : Nat) (r : Region) (f : Nat) (rest ul : List Nat) (h : Nat)
    (s t : List Nat) (hwf : WF r (f :: rest) ul) (hbelow : ∀ u ∈ ul, u < f)
    (hstr : IsString r ul h s) (ht : ∀ x ∈ t, x < 256)
    (hroom : roundUp8 (8 + s.length + t.length) + 24 ≤ readU64 r.mem f)
    (hfuel : (f :: rest).length + ul.length + 1 < fuel) :
    ∃ h2 r2 f2 rest2 ul2, AS_append_char_array fuel r h t t.length = .ok (h2, r2) ∧ h2 ≠ 0 ∧
      WF r2 (f2 :: rest2) ul2 ∧ (∀ u ∈ ul2, u < f2) ∧ IsString r2 ul2 h2 (s ++ t) ∧
      readU64 r.mem f ≤ readU64 r2.mem f2 + 16 + roundUp8 (8 + s.length + t.length) ∧
      rest2.length ≤ rest.length + 1 ∧ ul2.length ≤ ul.length ∧
      r2.base = r.base ∧ r2.cap = r.cap := by
  have hstr0 := hstr
  obtain ⟨c, hc, eh, hroomc, hlenf, hbytes⟩ := hstr
  subst eh
  have hfm : f ∈ (f :: rest) ++ ul := by simp
  have hcm : c ∈ (f :: rest) ++ ul := List.mem_append_right _ hc
  have hfi := hwf.inside f hfm
  have hci := hwf.inside c hcm
  have hnw := hwf.no_wrap
  have hge := roundUp8_ge (8 + s.length + t.length)
  have hsz8 : 8 + s.length + t.length + 8 ≤ 2 ^ 64 := by omega
  have hal : _A_align (8 + s.length + t.length) = roundUp8 (8 + s.length + t.length) :=
    A_align_eq_roundUp8 _ hsz8
  obtain ⟨u1, u2, eul⟩ := List.append_of_mem hc
  subst eul
  have e1 : add64 (add64 8 s.length) t.length = 8 + s.length + t.length := by
    rw [add64_eq 8 _ (by omega), add64_eq _ _ (by omega)]
  have hld : ld r (c + 16) 0 = .ok s.length := by
    rw [ld_ok0 (by omega) (by omega) (by omega), hlenf]
  -- the state after `A_realloc`
  have hR : ∃ h2 r1 f2 rest2 ul2, A_realloc fuel r (c + 16) (8 + s.length + t.length) =
      .ok (h2, r1) ∧ h2 ≠ 0 ∧ WF r1 (f2 :: rest2) ul2 ∧ (∀ u ∈ ul2, u < f2) ∧
      readU64 r.mem f ≤ readU64 r1.mem f2 + 16 + roundUp8 (8 + s.length + t.length) ∧
      rest2.length ≤ rest.length + 1 ∧ ul2.length ≤ (u1 ++ c :: u2).length ∧
      r1.base = r.base ∧ r1.cap = r.cap := by
    rcases A_realloc_ok fuel r f rest u1 c u2 (8 + s.length + t.length) hwf (hbelow c hc)
        (by omega) hsz8 (by rw [hal]; exact hroom) hfuel with ⟨_, hrun⟩ | ⟨_, r1, hrun, hwf1, hsz1,
          hb1, hc1⟩
    · exact ⟨c + 16, r, f, rest, _, hrun, by omega, hwf, hbelow, by omega, by omega, le_refl _,
        rfl, rfl⟩
    · rw [hal] at hwf1 hsz1
      refine ⟨f + 16, r1, _, _, _, hrun, by omega, hwf1, ?_, by rw [hsz1]; omega, by simp,
        by simp only [List.length_cons, List.length_append]; omega, hb1, hc1⟩
      intro u hu
      rcases List.mem_cons.1 hu with rfl | hu
      · omega
      · have : u ∈ u1 ++ c :: u2 := by
          simp only [List.mem_append, List.mem_cons] at hu ⊢
          rcases hu with hu | hu
          · exact Or.inl hu
          · exact Or.inr (Or.inr hu)
        have := hbelow u this
        omega
  obtain ⟨h2, r1, f2, rest2, ul2, hrunR, hh2, hwf1, hbelow1, hsize1, hl1, hl2, hb1, hc1⟩ := hR
  obtain ⟨fl2b, ul2b, c2, hwf1b, hc2, e3, hroom2, hlenf2, hbytes2, _, _⟩ :=
    A_realloc_keep_str fuel r _ _ (c + 16) s _ h2 r1 hwf hstr0 (by omega) hfuel hrunR hh2
  obtain ⟨efl, eul⟩ := hwf1.unique hwf1b
  subst efl eul e3
  have hc2m : c2 ∈ (f2 :: rest2) ++ ul2 := List.mem_append_right _ hc2
  have hc2i := hwf1.inside c2 hc2m
  have hld1 : ld r1 (c2 + 16) 0 = .ok s.length := by
    rw [ld_ok0 (by omega) (by omega) (by omega), hlenf2]
  obtain ⟨r3, hM⟩ := @memcpyIn_ok r1 (c2 + 16 + 8 + s.length) t.length t
    (Or.inr ⟨by omega, by omega, by omega, le_refl _⟩)
  obtain ⟨hb3, hc3, _, _, _⟩ := memcpyIn_inv hM
  have hld3 : ld r3 (c2 + 16) 0 = .ok (readU64 r3.mem (c2 + 16)) :=
    ld_ok0 (by omega) (by rw [hb3]; omega) (by rw [hb3, hc3]; omega)
  have hrun : AS_append_char_array fuel r (c + 16) t t.length = .ok (c2 + 16,
      { r3 with mem := writeU64 r3.mem (c2 + 16) (add64 (readU64 r3.mem (c2 + 16)) t.length) }) := by
    unfold AS_append_char_array
    rw [hld, ok_bind, e1, hrunR, ok_bind]
    simp only []
    rw [if_neg hh2, hld1, ok_bind, hM, ok_bind, hld3, ok_bind]
    show (st r3 (c2 + 16) 0 (add64 (readU64 r3.mem (c2 + 16)) t.length) >>=
      fun r => pure (c2 + 16, r)) = _
    rw [st_ok0 (by omega) (by rw [hb3]; omega) (by rw [hb3, hc3]; omega), ok_bind]
    rfl
  obtain ⟨hwf2, hstr2, hb2, hc2b, hsz2⟩ :=
    AS_fill r1 r3 _ (f2 :: rest2) ul2 c2 s t hwf1 hc2 hroom2 hlenf2 hbytes2 ht hM rfl
  refine ⟨c2 + 16, _, f2, rest2, ul2, hrun, hh2, hwf2, hbelow1, hstr2, ?_, hl1, hl2,
    by rw [hb2, hb1], by rw [hc2b, hc1]⟩
  rw [hsz2 f2 (by simp)]
  exact hsize1

/-- `AS_create_from_char_array` in such a state returns a live string with the given bytes,
in a state of the same kind. -/
theorem AS_create_ok (fuel : Nat) (r : Region) (f : Nat) (rest ul : List Nat) (b : List Nat)
    (hwf : WF r (f :: rest) ul) (hbelow : ∀ u ∈ ul, u < f) (hb : ∀ x ∈ b, x < 256)
    (hroom : roundUp8 (8 + b.length) + 24 ≤ readU64 r.mem f) (hfuel : rest.length + 1 < fuel) :
    ∃ h r2 f2, AS_create_from_char_array fuel r b b.length = .ok (h, r2) ∧ h ≠ 0 ∧
      WF r2 (f2 :: rest) (f :: ul) ∧ (∀ u ∈ f :: ul, u < f2) ∧ IsString r2 (f :: ul) h b ∧
      readU64 r.mem f ≤ readU64 r2.mem f2 + 16 + roundUp8 (8 + b.length) ∧
      r2.base = r.base ∧ r2.cap = r.cap := by
  have hfm : f ∈ (f :: rest) ++ ul := by simp
  have hfi := hwf.inside f hfm
  have hnw := hwf.no_wrap
  have hge := roundUp8_ge (8 + b.length)
  have hsz8 : 8 + b.length + 8 ≤ 2 ^ 64 := by omega
  have hal : _A_align (8 + b.length) = roundUp8 (8 + b.length) := A_align_eq_roundUp8 _ hsz8
  have hadd : add64 8 b.length = 8 + b.length := add64_eq _ _ (by omega)
  obtain ⟨r1, hrunA, hb1, hc1, hwf1, hp1, ht1, _, _⟩ :=
    A_alloc_split r [] rest ul f (8 + b.length) hwf (by omega) (by simp)
      (by rw [hal]; exact hroom)
  rw [hal] at hwf1 hp1 ht1
  have hA := hrunA fuel (by simp; omega)
  have hwf1b : WF r1 ((f + 16 + roundUp8 (8 + b.length)) :: rest) (f :: ul) := hwf1
  have hfi1 := hwf1b.inside f (by simp)
  obtain ⟨r4, hM⟩ := @memcpyIn_ok { r1 with mem := writeU64 r1.mem (f + 16) b.length }
    (f + 16 + 8) b.length b (Or.inr ⟨by omega, by simp only []; omega,
      by simp only []; omega, le_refl _⟩)
  have hrun : AS_create_from_char_array fuel r b b.length = .ok (f + 16, r4) := by
    unfold AS_create_from_char_array
    rw [hadd, hA, ok_bind]
    simp only []
    rw [if_neg (by omega), st_ok0 (by omega) (by omega) (by omega), ok_bind,
      ld_ok0 (by omega) (by simp only []; omega) (by simp only []; omega), ok_bind]
    simp only []
    rw [readU64_writeU64_same _ _ _ (by omega), hM, ok_bind]
    rfl
  obtain ⟨c, fl2, hwf2, hstr2, ec, _, hb2, hc2, _⟩ :=
    AS_create_str fuel r _ ul b (f + 16) r4 hwf hb (by omega) (by simp; omega) hrun (by omega)
  have hcf : c = f := by omega
  subst hcf
  obtain ⟨r1b, hAb, hb4, hc4, _, _, _, _, _, hfr4⟩ :=
    AS_create_inv (by omega) hrun (by omega)
  rw [hadd, hA] at hAb
  injection hAb with e; injection e with _ e
  subst e
  obtain ⟨hwf4, hsz4⟩ := hwf1b.of_hdr_frame hb4 hc4 (by
    intro x hx
    apply hfr4
    rcases hx with hx | ⟨d, hd, hx⟩
    · omega
    · by_cases hdf : d = c
      · subst hdf; omega
      · have := hwf1b.sep d hd c (by simp) hdf
        omega)
  refine ⟨c + 16, r4, _, hrun, by omega, hwf4, ?_, hstr2, ?_, hb2, hc2⟩
  · intro u hu
    rcases List.mem_cons.1 hu with rfl | hu
    · omega
    · have := hbelow u hu
      omega
  · rw [hsz4 _ (by simp), ht1]
    omega

/-- On a fresh arena with room for the three blocks and a remainder of 24 bytes after each
allocation, `AS_create_from_char_array` with `A` followed by `AS_append_char_array` with `B`
and with `C` on the handles returned each return a non-null handle, and the last one is a
string of length `len A + len B + len C` with the bytes `A ++ B ++ C`. -/
theorem appends_compose (fuel : Nat) (m0 : Mem) (a cap : Nat) (A B C : List Nat)
    (ha : a ≠ 0) (hnw : a + cap < 2 ^ 64)
    (hA : ∀ x ∈ A, x < 256) (hB : ∀ x ∈ B, x < 256) (hC : ∀ x ∈ C, x < 256)
    (hroom : 40 + (16 + roundUp8 (8 + A.length)) + (16 + roundUp8 (8 + A.length + B.length)) +
      roundUp8 (8 + A.length + B.length + C.length) + 24 ≤ cap)
    (hfuel : 5 ≤ fuel) :
    ∃ h1 r1 h2 r2 h3 r3,
      AS_create_from_char_array fuel (created m0 a cap) A A.length = .ok (h1, r1) ∧
      AS_append_char_array fuel r1 h1 B B.length = .ok (h2, r2) ∧
      AS_append_char_array fuel r2 h2 C C.length = .ok (h3, r3) ∧
      h1 ≠ 0 ∧ h2 ≠ 0 ∧ h3 ≠ 0 ∧
      AS_sz r3 h3 = .ok (A.length + B.length + C.length) ∧
      readBytes r3.mem (AS_data h3) (A.length + B.length + C.length) = A ++ B ++ C := by
  have hwf0 := created_WF m0 a cap ha (by omega) hnw
  have hs0 := created_size m0 a cap hnw
  obtain ⟨h1, r1, f1, hrun1, hh1, hwf1, hbl1, hstr1, hsz1, hb1, hc1⟩ :=
    AS_create_ok fuel (created m0 a cap) (a + 24) [] [] A hwf0 (by simp) hA
      (by rw [hs0]; omega) (by simp; omega)
  rw [hs0] at hsz1
  obtain ⟨h2, r2, f2, rest2, ul2, hrun2, hh2, hwf2, hbl2, hstr2, hsz2, hl2, hu2, hb2, hc2⟩ :=
    AS_append_ok fuel r1 f1 [] _ h1 A B hwf1 hbl1 hstr1 hB (by omega) (by simp; omega)
  have e8 : 8 + (A.length + B.length) + C.length = 8 + A.length + B.length + C.length := by
    omega
  obtain ⟨h3, r3, f3, rest3, ul3, hrun3, hh3, hwf3, hbl3, hstr3, _, _, _, hb3, hc3⟩ :=
    AS_append_ok fuel r2 f2 rest2 ul2 h2 (A ++ B) C hwf2 hbl2 hstr2 hC
      (by rw [List.length_append, e8]; omega) (by simp at hl2 hu2 ⊢; omega)
  obtain ⟨c, hc, eh, _, hlenf, hbytes⟩ := hstr3
  have hci := hwf3.inside c (List.mem_append_right _ hc)
  have hlen : (A ++ B ++ C).length = A.length + B.length + C.length := by
    rw [List.length_append, List.length_append]
  refine ⟨h1, r1, h2, r2, h3, r3, hrun1, hrun2, hrun3, hh1, hh2, hh3, ?_, ?_⟩
  · unfold AS_sz
    rw [ld_ok0 hh3 (by omega) (by omega), hlenf, hlen]
  · rw [← hlen]
    exact hbytes

/-! ## First fit, split and the null result of `A_realloc` at the wrap of `_A_align`

The comparisons of `A_alloc` and `_A_split_chunk` use `_A_align(sz)`, which is `sz`
rounded up to a multiple of 8 only for `sz ≤ 2^64 - 8`.  The first three theorems state
first fit, the split and the null result of `A_realloc` with the rounded-up size for those
sizes; the last three evaluate the calls at `sz = 2^64 - 1`, where `_A_align` is 0. -/

/-- First fit for `1 ≤ sz ≤ 2^64 - 8`, with `sz` rounded up to a multiple of 8. -/
theorem alloc_first_fit_below_wrap (fuel : Nat) (r : Region) (fl ul : List Nat) (sz : Nat)
    (h : WF r fl ul) (hsz : 1 ≤ sz) (hsz8 : sz + 8 ≤ 2 ^ 64) (hfuel : fl.length < fuel) :
    (match fl.find? (fun c => decide (roundUp8 sz ≤ readU64 r.mem c)) with
      | some p => ∃ r2 fl2, A_alloc fuel r sz = .ok (p + 16, r2) ∧ WF r2 fl2 (p :: ul)
      | none => A_alloc fuel r sz = .ok (0, r)) ∧
    ((∃ r2, A_alloc fuel r sz = .ok (0, r2)) ↔ ∀ c ∈ fl, readU64 r.mem c < roundUp8 sz) := by
  have e := A_align_eq_roundUp8 sz hsz8
  have h1 := alloc_first_fit fuel r fl ul sz h hsz hfuel
  rw [e] at h1
  exact ⟨h1.1, h1.2.1⟩

/-- Split or whole for `1 ≤ sz ≤ 2^64 - 8`, with `sz` rounded up to a multiple of 8. -/
theorem alloc_split_or_whole_below_wrap (fuel : Nat) (r : Region) (l1 l2 ul : List Nat)
    (p sz : Nat) (h : WF r (l1 ++ p :: l2) ul) (hsz : 1 ≤ sz) (hsz8 : sz + 8 ≤ 2 ^ 64)
    (hsm : ∀ c ∈ l1, readU64 r.mem c < roundUp8 sz)
    (hfit : roundUp8 sz ≤ readU64 r.mem p) (hfuel : l1.length < fuel) :
    ∃ r2, A_alloc fuel r sz = .ok (p + 16, r2) ∧
      (16 + roundUp8 sz + 8 ≤ readU64 r.mem p →
        WF r2 (l1 ++ (p + 16 + roundUp8 sz) :: l2) (p :: ul) ∧
        readU64 r2.mem p = roundUp8 sz ∧
        readU64 r2.mem (p + 16 + roundUp8 sz) = readU64 r.mem p - 16 - roundUp8 sz) ∧
      (readU64 r.mem p < 16 + roundUp8 sz + 8 →
        WF r2 (l1 ++ l2) (p :: ul) ∧ readU64 r2.mem p = readU64 r.mem p) ∧
      (∀ c ∈ l1 ++ l2 ++ ul, readU64 r2.mem c = readU64 r.mem c) := by
  have e := A_align_eq_roundUp8 sz hsz8
  rw [← e] at hsm hfit ⊢
  obtain ⟨r2, h1, h2, h3, h4, _⟩ := alloc_split_or_whole fuel r l1 l2 ul p sz h hsz hsm hfit hfuel
  exact ⟨r2, h1, h2, h3, h4⟩

/-- The null result of `A_realloc` for `1 ≤ sz ≤ 2^64 - 8`, with `sz` rounded up to a
multiple of 8. -/
theorem realloc_null_iff_below_wrap (fuel : Nat) (r : Region) (fl ul : List Nat)
    (ptr sz : Nat) (h : WF r fl ul) (hptr : ptr ≠ 0) (hsz : 1 ≤ sz) (hsz8 : sz + 8 ≤ 2 ^ 64)
    (hfuel : fl.length + ul.length < fuel) :
    ((∃ r2, A_realloc fuel r ptr sz = .ok (0, r2)) ↔
      ((∀ c ∈ ul, c + 16 ≠ ptr) ∨
        (∃ c ∈ ul, c + 16 = ptr ∧ readU64 r.mem c < sz ∧
          ∀ f ∈ fl, readU64 r.mem f < roundUp8 sz))) ∧
    (∀ r2, A_realloc fuel r ptr sz = .ok (0, r2) → r2 = r) := by
  have e := A_align_eq_roundUp8 sz hsz8
  have h1 := realloc_null_iff fuel r fl ul ptr sz h hptr hsz hfuel
  rw [e] at h1
  exact ⟨h1.1, h1.2.1⟩

/-- Claim C1 does not hold for the sizes at which `_A_align` wraps.  In the state the
256-byte scenario leaves behind (`A_create(256)`, `p = A_alloc(a, 8)`, `A_alloc(a, 3)`,
`A_free(a, p)`: free list `[4168, 4120]` with sizes 168 and 8, used list `[4144]`) and for
the size `2^64 - 1`: the size rounded up to a multiple of 8 is `2^64`, no chunk of the free
list is that large, so by the claim `A_alloc` returns `NULL`.  It returns 4184, the data
address of the first free chunk 4168, which gets size 0 and becomes the head of the used
list. -/
theorem alloc_size_max_takes_first_chunk :
    A_create zeroMem 4096 256 = .ok (some (created zeroMem 4096 256)) ∧
      (scenario256 4).map Prod.fst = .ok 4136 ∧
      WF arena256 [4168, 4120] [4144] ∧
      readU64 arena256.mem 4168 = 168 ∧ readU64 arena256.mem 4120 = 8 ∧
      roundUp8 (2 ^ 64 - 1) = 2 ^ 64 ∧
      [4168, 4120].find? (fun c => decide (roundUp8 (2 ^ 64 - 1) ≤ readU64 arena256.mem c)) =
        none ∧
      (∀ c ∈ [4168, 4120], readU64 arena256.mem c < roundUp8 (2 ^ 64 - 1)) ∧
      (∀ k, (A_alloc (k + 1) arena256 (2 ^ 64 - 1)).map
        (fun x => (x.1, readU64 x.2.mem 4168, readU64 x.2.mem (4096 + 16))) =
        .ok (4184, 0, 4168)) :=
  ⟨by rfl, by rfl, by decide, by decide, by decide, by decide, by decide, by decide,
    fun _ => by rfl⟩

/-- Claim C7 does not hold for the sizes at which `_A_align` wraps.  In `arena80`
(`A_create(80)`, `A_alloc(a, 16)`: used list `[4120]` with size 16, free list `[4152]` with
size 8), for the block 4136 and the size `2^64 - 1`: the chunk of the block is smaller than
the size and no free chunk has the size rounded up to a multiple of 8, which is `2^64`, so
by the claim `A_realloc` returns `NULL`.  But the `A_alloc` inside returns 4168, and the
`memcpy` of `2^64 - 1` bytes that follows runs out of the block: `A_realloc` does not
return `NULL`, it does not return. -/
theorem realloc_size_max_not_null :
    A_create zeroMem 4096 80 = .ok (some (created zeroMem 4096 80)) ∧
      (∀ k, (A_alloc (k + 1) (created zeroMem 4096 80) 16).map Prod.fst = .ok 4136) ∧
      WF arena80 [4152] [4120] ∧
      readU64 arena80.mem 4120 = 16 ∧ readU64 arena80.mem 4152 = 8 ∧
      roundUp8 (2 ^ 64 - 1) = 2 ^ 64 ∧
      (∃ c ∈ [4120], c + 16 = 4136 ∧ readU64 arena80.mem c < 2 ^ 64 - 1 ∧
        ∀ f ∈ [4152], readU64 arena80.mem f < roundUp8 (2 ^ 64 - 1)) ∧
      (∀ k, (A_alloc (k + 1) arena80 (2 ^ 64 - 1)).map Prod.fst = .ok 4168) ∧
      (∀ k, (A_realloc (k + 1) arena80 4136 (2 ^ 64 - 1)).map Prod.fst =
        .error .outOfBounds) :=
  ⟨by rfl, fun _ => by rfl, by decide, by decide, by decide, by decide, by decide,
    fun _ => by rfl, fun _ => by rfl⟩

/-- Claim C11 does not hold for the sizes at which `_A_align` wraps.  In the state after
`A_create(128)` and `A_alloc(a, 8)` (used list `[4120]`, free list `[4144]` with size 64),
`A_alloc(a, 2^64 - 1)` succeeds and selects the chunk 4144.  The size rounded up to a
multiple of 8 is `2^64` and `64 < 16 + 2^64 + 8`, so by the claim the chunk keeps its size
and the free list becomes empty.  The code splits it: the chunk gets size 0 and a new free
chunk of size 48, with its header at the address 4160 that is returned, is the free list. -/
theorem alloc_size_max_splits_chunk :
    A_create zeroMem 4096 128 = .ok (some (created zeroMem 4096 128)) ∧
      (∀ k, (A_alloc (k + 1) (created zeroMem 4096 128) 8).map Prod.fst = .ok 4136) ∧
      WF arena128 [4144] [4120] ∧
      readU64 arena128.mem 4144 = 64 ∧
      roundUp8 (2 ^ 64 - 1) = 2 ^ 64 ∧
      readU64 arena128.mem 4144 < 16 + roundUp8 (2 ^ 64 - 1) + 8 ∧
      (∀ k, (A_alloc (k + 1) arena128 (2 ^ 64 - 1)).map
        (fun x => (x.1, readU64 x.2.mem 4144, readU64 x.2.mem (4096 + 16),
          readU64 x.2.mem (4096 + 8), readU64 x.2.mem 4160, readU64 x.2.mem (4160 + 8))) =
        .ok (4160, 0, 4144, 4160, 48, 0)) :=
  ⟨by rfl, fun _ => by rfl, by decide, by decide, by decide, by decide, fun _ => by rfl⟩

end Arena
